import Mathlib

/-!
MyTerm-Terminal: command parsing, job control, multiwatch and history search.

A shallow embedding of the C sources `cmd_exec.c`, `history.c`,
`multiwatch.c` and `shell_tab.c`.

Conventions of the embedding:

* a C string is the list of its bytes before the terminating NUL (`CStr`);
* `malloc`, `calloc`, `realloc` and `strdup` are taken to succeed, except
  where a parameter gives the outcome (`ensure_capacity_locked`, the monitor
  poll);
* `int` values that hold string lengths or small counters are natural numbers
  (the strings are shorter than `2^31` bytes), return codes are integers;
* results of system calls and of libc `glob` come from explicit parameters;
* a store past the end of a heap block leaves defined behaviour: the function
  that makes it returns `none` (`expand_tokens_with_glob` and its callers).
-/

namespace MyTerm

/-- A C string: the bytes before the terminating NUL. -/
abbrev CStr := List Char

/-! ## cmd_exec.c: tokenization, quoting, glob helpers -/

/-- Loop of `preprocess_pipes`: copies the input, toggling `in_single` and
`in_double` at quotes, and writes `" | "` for every `|` outside quotes. -/
def preprocess_pipes_loop (in_single in_double : Bool) : CStr → CStr
  | [] => []
  | c :: p =>
    if c == '\'' && !in_double then
      c :: preprocess_pipes_loop (!in_single) in_double p
    else if c == '"' && !in_single then
      c :: preprocess_pipes_loop in_single (!in_double) p
    else if !in_single && !in_double && c == '|' then
      ' ' :: '|' :: ' ' :: preprocess_pipes_loop in_single in_double p
    else
      c :: preprocess_pipes_loop in_single in_double p

/-- Function `preprocess_pipes`: insert spaces around `|` outside quotes. -/
def preprocess_pipes (input : CStr) : CStr :=
  preprocess_pipes_loop false false input

/-- The separator test of `tokenize_quoted`: space, tab or newline. -/
def is_tok_space (c : Char) : Bool :=
  c == ' ' || c == '\t' || c == '\n'

/-- Size of the buffer `char tmp[8192]` of `tokenize_quoted`. -/
def TMP_SIZE : Nat := 8192

/-- The byte stored for the character that follows a backslash in
`tokenize_quoted`. -/
def unescape (c : Char) : Char :=
  if c == 'n' then '\n'
  else if c == 't' then '\t'
  else if c == '\\' then '\\'
  else if c == '"' then '"'
  else if c == '\'' then '\''
  else c

/-- Inner loop of `tokenize_quoted` (one token). `tmp` holds the bytes stored
so far, so `ti = tmp.length`. Returns the token and the unread input. -/
def scan_token (in_single in_double : Bool) (tmp : CStr) : CStr → CStr × CStr
  | [] => (tmp, [])
  | c :: p =>
    if !in_single && c == '"' then
      scan_token in_single (!in_double) tmp p
    else if !in_double && c == '\'' then
      scan_token (!in_single) in_double tmp p
    else if !in_single && !in_double && is_tok_space c then
      (tmp, c :: p)
    else if c == '\\' then
      match p with
      | [] => (tmp, [])
      | d :: q => scan_token in_single in_double (tmp ++ [unescape d]) q
    else if (tmp ++ [c]).length ≥ TMP_SIZE - 2 then
      (tmp ++ [c], p)
    else
      scan_token in_single in_double (tmp ++ [c]) p

/-- The loop `while (*p && (*p == ' ' || *p == '\t' || *p == '\n')) ++p;`. -/
def skip_spaces : CStr → CStr
  | [] => []
  | c :: p => if is_tok_space c then skip_spaces p else c :: p

/-- Outer loop of `tokenize_quoted`; `slots` is `max_args - 1 - argc`. -/
def tokenize_loop : Nat → CStr → List CStr
  | 0, _ => []
  | slots + 1, p =>
    match skip_spaces p with
    | [] => []
    | c :: q =>
      let r := scan_token false false [] (c :: q)
      r.1 :: tokenize_loop slots r.2

/-- Function `tokenize_quoted`: the tokens stored in `argv[0..argc)`. -/
def tokenize_quoted (input : CStr) (max_args : Nat) : List CStr :=
  tokenize_loop (max_args - 1) input

/-- Function `is_operator_token`. -/
def is_operator_token (tok : CStr) : Bool :=
  tok == ['|'] || tok == ['<'] || tok == ['>'] || tok == ['>', '>'] ||
    tok.head? == some '<' || tok.head? == some '>'

/-- Function `contains_glob_chars`. -/
def contains_glob_chars (s : CStr) : Bool :=
  s.any fun c => c == '*' || c == '?' || c == '['

/-- The call `glob(tk, GLOB_NOCHECK | GLOB_TILDE, NULL, &g)` of libc: the return
code and `g.gl_pathv`. `fs pat` is what the filesystem holds for the pattern:
`none` when globbing reports an error, otherwise the matching paths. With
`GLOB_NOCHECK` a pattern without a match is returned itself (the contract of
POSIX; what libc does to a leading `~` is left to `fs`). -/
def glob (fs : CStr → Option (List CStr)) (pat : CStr) : Int × List CStr :=
  match fs pat with
  | none => (1, [])
  | some [] => (0, [pat])
  | some (m :: ms) => (0, m :: ms)

/-- The store `newt[n++] = strdup(tk)` of `expand_tokens_with_glob` into the block
of `cap` pointers, where `n = newt.length`: `none` when the store is past the
end of the block. -/
def store_token (newt : List CStr) (cap : Nat) (tk : CStr) : Option (List CStr) :=
  if newt.length < cap then some (newt ++ [tk]) else none

/-- The loop over `g.gl_pathv` of `expand_tokens_with_glob`: before every store
the block is doubled when `n + 1 >= cap`. Returns the array and `cap`. -/
def store_matches : List CStr → List CStr → Nat → Option (List CStr × Nat)
  | [], newt, cap => some (newt, cap)
  | m :: ms, newt, cap =>
    match store_token newt (if newt.length + 1 ≥ cap then cap * 2 else cap) m with
    | none => none
    | some newt2 => store_matches ms newt2 (if newt.length + 1 ≥ cap then cap * 2 else cap)

/-- The loop `for (i ...)` of `expand_tokens_with_glob`; `newt` holds
`newt[0..n)`. The plain branch and the branch of a failed `glob` store without
looking at `cap`. -/
def expand_loop (fs : CStr → Option (List CStr)) : List CStr → List CStr → Nat →
    Option (List CStr)
  | [], newt, _ => some newt
  | tk :: rest, newt, cap =>
    if is_operator_token tk || !contains_glob_chars tk then
      match store_token newt cap tk with
      | none => none
      | some newt2 => expand_loop fs rest newt2 cap
    else if (glob fs tk).1 = 0 then
      match store_matches (glob fs tk).2 newt cap with
      | none => none
      | some r => expand_loop fs rest r.1 r.2
    else
      match store_token newt cap tk with
      | none => none
      | some newt2 => expand_loop fs rest newt2 cap

/-- Function `expand_tokens_with_glob`: the new token array, built in a block of
`cap = ntoks * 4 + 16` pointers; `none` when a store lands past the end of
the block, after which the behaviour of the program is undefined. -/
def expand_tokens_with_glob (fs : CStr → Option (List CStr)) (tokens : List CStr) :
    Option (List CStr) :=
  expand_loop fs tokens [] (tokens.length * 4 + 16)

/-! ## cmd_exec.c: parsing tokens into commands -/

/-- The struct `Cmd`: `argv`, optional `infile`, optional `outfile`, and the
`append` flag. -/
structure Cmd where
  argv : List CStr
  infile : Option CStr
  outfile : Option CStr
  append : Bool
  deriving DecidableEq, Repr

/-- A zeroed `Cmd` whose `argv` has just been allocated. -/
def Cmd.empty : Cmd := ⟨[], none, none, false⟩

/-- C `isspace` in the "C" locale. -/
def isspace (c : Char) : Bool :=
  c == ' ' || c == '\t' || c == '\n' || c == '\x0b' || c == '\x0c' || c == '\r'

/-- Function `sanitize_filename`: drop leading `isspace` bytes, then trailing
bytes that are `isspace` or `'\r'`. -/
def sanitize_filename (s : CStr) : CStr :=
  ((s.dropWhile isspace).reverse.dropWhile fun c => isspace c || c == '\r').reverse

/-- Main loop of `parse_tokens_into_cmds`. `done` holds `cmds[0..cmd_idx)`,
`cur` is `cmds[cmd_idx]`; `none` is the return value `-1`. -/
def parse_loop (max_cmds : Nat) : List CStr → List Cmd → Cmd → Option (List Cmd)
  | [], done, cur => some (done ++ [cur])
  | tk :: rest, done, cur =>
    if tk = ['|'] then
      if done.length + 1 ≥ max_cmds then none
      else parse_loop max_cmds rest (done ++ [cur]) Cmd.empty
    else if tk = ['<'] then
      match rest with
      | [] => none
      | f :: rest2 =>
        parse_loop max_cmds rest2 done { cur with infile := some (sanitize_filename f) }
    else if tk.head? = some '<' then
      parse_loop max_cmds rest done { cur with infile := some (sanitize_filename tk.tail) }
    else if tk = ['>', '>'] then
      match rest with
      | [] => none
      | f :: rest2 =>
        parse_loop max_cmds rest2 done
          { cur with outfile := some (sanitize_filename f), append := true }
    else if tk.take 2 = ['>', '>'] then
      parse_loop max_cmds rest done
        { cur with outfile := some (sanitize_filename (tk.drop 2)), append := true }
    else if tk = ['>'] then
      match rest with
      | [] => none
      | f :: rest2 =>
        parse_loop max_cmds rest2 done
          { cur with outfile := some (sanitize_filename f), append := false }
    else if tk.head? = some '>' then
      parse_loop max_cmds rest done
        { cur with outfile := some (sanitize_filename tk.tail), append := false }
    else
      parse_loop max_cmds rest done { cur with argv := cur.argv ++ [tk] }

/-- Function `parse_tokens_into_cmds`: `some cmds` holds `cmds[0..ncmds)` for
the return value `ncmds`, `none` is the return value `-1`. -/
def parse_tokens_into_cmds (tokens : List CStr) (max_cmds : Nat) : Option (List Cmd) :=
  if max_cmds < 1 then none
  else parse_loop max_cmds tokens [] Cmd.empty

/-- The general parsing path of `cmd_exec_run_in_tab` (after the multiwatch
special form): `tokens_raw[512]`, glob expansion, `MAX_CMDS = 64`. The result
is `none` when the glob expansion stores past the end of its block, `some none`
for the early `return -1`, and `some (some cmds)` for the parsed stages. -/
def cmd_exec_parse (fs : CStr → Option (List CStr)) (cmdline : CStr) :
    Option (Option (List Cmd)) :=
  let tokens_raw := tokenize_quoted (preprocess_pipes cmdline) 512
  if tokens_raw.length ≤ 0 then some none
  else
    match expand_tokens_with_glob fs tokens_raw with
    | none => none
    | some tokens =>
      if tokens.length ≤ 0 then some none
      else some (parse_tokens_into_cmds tokens 64)

/-- The command of a stage without redirection. -/
def Cmd.plain (argv : List CStr) : Cmd := ⟨argv, none, none, false⟩

/-! ## history.c -/

/-- Inner `for j` loop of `lcs_len` for one row `i`: `ai` is `a[i-1]`, the string
is `b[j-1..]` and `prev` is `prev[j-1..]`. Returns `cur[j..]` and `best`. -/
def lcs_row (ai : Char) : CStr → List Nat → Nat → List Nat × Nat
  | [], _, best => ([], best)
  | bj :: bs, prev, best =>
    if ai = bj then
      let v := prev.headD 0 + 1
      let r := lcs_row ai bs prev.tail (if v > best then v else best)
      (v :: r.1, r.2)
    else
      let r := lcs_row ai bs prev.tail best
      (0 :: r.1, r.2)

/-- Outer `for i` loop of `lcs_len` over the rest of `a`; after the swap the
new `prev` is the row just filled, whose entry 0 is 0. -/
def lcs_rows : CStr → CStr → List Nat → Nat → Nat
  | [], _, _, best => best
  | ai :: as, b, prev, best =>
    let r := lcs_row ai b prev best
    lcs_rows as b (0 :: r.1) r.2

/-- Function `lcs_len`: both rows start zeroed (`calloc`) and `best` at 0. -/
def lcs_len (a b : CStr) : Nat :=
  if a.length = 0 ∨ b.length = 0 then 0
  else lcs_rows a b (List.replicate (b.length + 1) 0) 0

/-- Constant `HIST_MAX`. -/
def HIST_MAX : Nat := 10000

/-- The circular buffer of `history.c`: `hist_buf` (`none` is a NULL slot),
`hist_count` and `hist_start`. -/
structure History where
  hist_buf : Nat → Option CStr
  hist_count : Nat
  hist_start : Nat

/-- Function `hist_index`: entry `i`, where 0 is the oldest entry (the index is
a natural number, so the test `i < 0` is gone). -/
def hist_index (h : History) (i : Nat) : Option CStr :=
  if i ≥ h.hist_count then none
  else h.hist_buf ((h.hist_start + i) % HIST_MAX)

/-- One call `tabs_append_output(tab, buf, n)`: the tab, the C string held by
`buf`, and the length argument `n`. -/
structure OutCall where
  tab : Int
  buf : CStr
  n : Nat
  deriving DecidableEq, Repr

/-- The call `tabs_append_output(tab, msg, strlen(msg))` for a literal. -/
def append_msg (tab : Int) (msg : CStr) : OutCall := ⟨tab, msg, msg.length⟩

/-- The pair `n = snprintf(out, size, ...)` then `tabs_append_output(tab, out, n)`:
`text` is the fully formatted text, of which the buffer keeps `size - 1` bytes
while `n` is the full length. -/
def append_fmt (tab : Int) (size : Nat) (text : CStr) : OutCall :=
  ⟨tab, text.take (size - 1), text.length⟩

/-- Loop of `history_find_exact`, from index `n - 1` down to 0. -/
def history_find_exact_loop (h : History) (term : CStr) : Nat → Option CStr
  | 0 => none
  | i + 1 =>
    match hist_index h i with
    | none => history_find_exact_loop h term i
    | some s => if s = term then some s else history_find_exact_loop h term i

/-- Function `history_find_exact`. -/
def history_find_exact (h : History) (term : CStr) : Option CStr :=
  if h.hist_count = 0 then none
  else history_find_exact_loop h term h.hist_count

/-- Body of the candidate loop of `history_search_and_output`; the state is
`(best_len, cands[0..cands_n))`. -/
def search_step (h : History) (term : CStr) (st : Nat × List Nat) (i : Nat) : Nat × List Nat :=
  match hist_index h i with
  | none => st
  | some s =>
    if lcs_len s term > st.1 then (lcs_len s term, [i])
    else if lcs_len s term = st.1 ∧ lcs_len s term > 0 then (st.1, st.2 ++ [i])
    else st

/-- The header line printed before the candidates. -/
def candidates_header (best_len : Nat) : CStr :=
  "No exact match. Best substring length = ".toList ++
    (Nat.toDigits 10 best_len ++ ". Showing candidates:\n".toList)

/-- Function `history_search_and_output`: the calls of `tabs_append_output`
it makes, in order. -/
def history_search_and_output (h : History) (tab_idx : Int) (term : CStr) : List OutCall :=
  if term = [] then [append_msg tab_idx "Empty search term\n".toList]
  else
    match history_find_exact h term with
    | some exact =>
      [append_fmt tab_idx 4096 ("Exact match:\n".toList ++ (exact ++ ['\n']))]
    | none =>
      let r := (List.range h.hist_count).foldl (search_step h term) (0, [])
      if r.1 ≤ 2 ∨ r.2.length = 0 then
        [append_msg tab_idx "No match for search term in history\n".toList]
      else
        append_fmt tab_idx 256 (candidates_header r.1) ::
          r.2.reverse.filterMap fun i =>
            (hist_index h i).map fun s => append_fmt tab_idx 4096 (s ++ ['\n'])

/-! ## cmd_exec.c: job table and execution -/

/-- Constant `CMD_MAX_TABS`. -/
def CMD_MAX_TABS : Nat := 64

/-- The signals sent by this program. -/
inductive Signal where
  | SIGINT
  | SIGTERM
  | SIGTSTP
  deriving DecidableEq, Repr

/-- The static table `tab_pgid[CMD_MAX_TABS]`. -/
structure ExecState where
  tab_pgid : Nat → Int

/-- Function `set_tab_pgid`. -/
def set_tab_pgid (st : ExecState) (tab_idx : Int) (pgid : Int) : ExecState :=
  if tab_idx < 0 ∨ tab_idx ≥ CMD_MAX_TABS then st
  else ⟨Function.update st.tab_pgid tab_idx.toNat pgid⟩

/-- Function `get_tab_pgid`. -/
def get_tab_pgid (st : ExecState) (tab_idx : Int) : Int :=
  if tab_idx < 0 ∨ tab_idx ≥ CMD_MAX_TABS then 0
  else st.tab_pgid tab_idx.toNat

/-- Function `clear_tab_pgid`. -/
def clear_tab_pgid (st : ExecState) (tab_idx : Int) : ExecState :=
  set_tab_pgid st tab_idx 0

/-- The calls the parent process makes to the system and to the other
modules, in program order. -/
inductive Sys where
  | kill (pid : Int) (sig : Signal)
  | open_read (path : CStr) (fd : Int)
  | open_write (path : CStr) (append : Bool) (fd : Int)
  | pipe (fds : Option (Int × Int))
  | fork (stage : Nat) (pid : Int)
  | setpgid (pid pgid rc : Int)
  | close (fd : Int)
  | chdir (path : CStr) (rc : Int)
  | output (call : OutCall)
  | reader_thread (tab : Int) (fd : Int) (children : List Int) (rc : Int)
  deriving DecidableEq, Repr

/-- What the operating system answers to the calls of `cmd_exec.c`. -/
structure Os where
  /-- Result of `open(path, O_RDONLY)`. -/
  open_read : CStr → Int
  /-- Result of `open(path, O_WRONLY | O_CREAT | (append ? O_APPEND : O_TRUNC), 0644)`. -/
  open_write : CStr → Bool → Int
  /-- The text `strerror(errno)` after a failed call on the path. -/
  strerror : CStr → CStr
  /-- Result of the `k`-th call of `pipe`: `none` is a failure. -/
  pipe_fds : Nat → Option (Int × Int)
  /-- Result of `fork` for stage `i`, as seen by the parent. -/
  fork_pid : Nat → Int
  /-- Result of the first `setpgid(pid, pgid)` of the parent for a child. -/
  setpgid_rc : Int → Int → Int
  /-- Result of the second `setpgid(pid, pgid)` of the parent for a child, which
  it makes when the first has failed. -/
  setpgid_retry_rc : Int → Int → Int
  /-- Result of `chdir`. -/
  chdir_rc : CStr → Int
  /-- Value of `getenv("HOME")`. -/
  home : Option CStr
  /-- Result of `pthread_create` for the reader thread. -/
  pthread_create_rc : Int
  /-- Result of `kill`. -/
  kill_rc : Int → Signal → Int

/-- Function `cmd_exec_interrupt_tab`: the return value, the table and the
signals sent. -/
def cmd_exec_interrupt_tab (os : Os) (st : ExecState) (tab_idx : Int) :
    Int × ExecState × List Sys :=
  let pg := get_tab_pgid st tab_idx
  if pg ≤ 0 then (-1, st, [])
  else if os.kill_rc (-pg) Signal.SIGINT < 0 then (-1, st, [Sys.kill (-pg) Signal.SIGINT])
  else (0, st, [Sys.kill (-pg) Signal.SIGINT])

/-- Function `cmd_exec_suspend_tab`. -/
def cmd_exec_suspend_tab (os : Os) (st : ExecState) (tab_idx : Int) :
    Int × ExecState × List Sys :=
  let pg := get_tab_pgid st tab_idx
  if pg ≤ 0 then (-1, st, [])
  else if os.kill_rc (-pg) Signal.SIGTSTP < 0 then (-1, st, [Sys.kill (-pg) Signal.SIGTSTP])
  else (0, st, [Sys.kill (-pg) Signal.SIGTSTP])

/-- Loop of `history_show_recent` over the indices `hist_count - 1 - i`. -/
def history_show_recent_loop (h : History) (tab_idx : Int) (max : Int) :
    List Nat → Int → List OutCall
  | [], _ => []
  | idx :: rest, printed =>
    if printed < max then
      match hist_index h idx with
      | none => history_show_recent_loop h tab_idx max rest printed
      | some s =>
        append_fmt tab_idx 4096 (s ++ ['\n']) ::
          history_show_recent_loop h tab_idx max rest (printed + 1)
    else []

/-- Function `history_show_recent`. -/
def history_show_recent (h : History) (tab_idx : Int) (max : Int) : List OutCall :=
  if h.hist_count = 0 then [append_msg tab_idx "history: no entries\n".toList]
  else
    history_show_recent_loop h tab_idx (if max ≤ 0 then 1000 else max)
      ((List.range h.hist_count).map fun i => h.hist_count - 1 - i) 0

/-- The cleanup loop `for j: if (in_fds[j] >= 0) close(in_fds[j]);
if (out_fds[j] >= 0) close(out_fds[j]);`. -/
def close_redir_fds : List Int → List Int → List Sys
  | i :: ins, o :: outs =>
    (if i ≥ 0 then [Sys.close i] else []) ++ ((if o ≥ 0 then [Sys.close o] else []) ++
      close_redir_fds ins outs)
  | _, _ => []

/-- The loop `for k: close(chain[k][0]); close(chain[k][1]);`. -/
def close_chain : List (Int × Int) → List Sys
  | [] => []
  | (r, w) :: rest => Sys.close r :: Sys.close w :: close_chain rest

/-- The loop "open redirections early" of `cmd_exec_run_in_tab`, from stage `i`
on. Returns the calls made and, unless an `open` failed, the arrays `in_fds`
and `out_fds`. -/
def open_redirections (os : Os) (tab_idx : Int) :
    List Cmd → Nat → List Int → List Int → List Sys × Option (List Int × List Int)
  | [], _, in_fds, out_fds => ([], some (in_fds, out_fds))
  | c :: rest, i, in_fds, out_fds =>
    let in1 := in_fds.set i (-1)
    let out1 := out_fds.set i (-1)
    let in_fd := match c.infile with
      | some f => os.open_read f
      | none => -1
    let ev_in := match c.infile with
      | some f => [Sys.open_read f in_fd]
      | none => []
    let in2 := in1.set i in_fd
    if in_fd < 0 ∧ c.infile.isSome then
      (ev_in ++ Sys.output (append_fmt tab_idx 256
          ("cannot open '".toList ++ (c.infile.getD [] ++ ("' for reading: ".toList ++
            (os.strerror (c.infile.getD []) ++ ['\n']))))) ::
        close_redir_fds in2 out1, none)
    else
      let out_fd := match c.outfile with
        | some f => os.open_write f c.append
        | none => -1
      let ev_out := match c.outfile with
        | some f => [Sys.open_write f c.append out_fd]
        | none => []
      let out2 := out1.set i out_fd
      if out_fd < 0 ∧ c.outfile.isSome then
        (ev_in ++ (ev_out ++ Sys.output (append_fmt tab_idx 256
            ("cannot open '".toList ++ (c.outfile.getD [] ++ ("' for writing: ".toList ++
              (os.strerror (c.outfile.getD []) ++ ['\n']))))) ::
          close_redir_fds in2 out2), none)
      else
        let r := open_redirections os tab_idx rest (i + 1) in2 out2
        (ev_in ++ (ev_out ++ r.1), r.2)

/-- The loop creating the connector pipes `chain[k]`, `todo` of them from `k`
on; `chain` holds the pipes made so far. `none` is a failed `pipe`. -/
def create_chain (os : Os) : Nat → Nat → List (Int × Int) → List Sys × Option (List (Int × Int))
  | 0, _, chain => ([], some chain)
  | todo + 1, k, chain =>
    match os.pipe_fds k with
    | none => (Sys.pipe none :: close_chain chain, none)
    | some fds =>
      let r := create_chain os todo (k + 1) (chain ++ [fds])
      (Sys.pipe (some fds) :: r.1, r.2)

/-- The parent side of the fork loop, `todo` stages from stage `i` on; `pids`
holds `pids[0..i)`. Returns the calls made and, unless a `fork` failed, all
pids. -/
def fork_stages (os : Os) (chain : List (Int × Int)) (capture : Int × Int)
    (in_fds out_fds : List Int) : Nat → Nat → List Int → List Sys × Option (List Int)
  | 0, _, pids => ([], some pids)
  | todo + 1, i, pids =>
    if os.fork_pid i < 0 then
      (Sys.fork i (os.fork_pid i) :: ((pids.map fun p => Sys.kill p Signal.SIGTERM) ++
        (close_chain chain ++ (Sys.close capture.1 :: Sys.close capture.2 ::
          close_redir_fds in_fds out_fds))), none)
    else
      let pgid := if i = 0 then os.fork_pid i else pids.headD 0
      let ev := if os.setpgid_rc (os.fork_pid i) pgid < 0 then
          [Sys.setpgid (os.fork_pid i) pgid (os.setpgid_rc (os.fork_pid i) pgid),
            Sys.setpgid (os.fork_pid i) pgid (os.setpgid_retry_rc (os.fork_pid i) pgid)]
        else [Sys.setpgid (os.fork_pid i) pgid (os.setpgid_rc (os.fork_pid i) pgid)]
      let r := fork_stages os chain capture in_fds out_fds todo (i + 1) (pids ++ [os.fork_pid i])
      (Sys.fork i (os.fork_pid i) :: (ev ++ r.1), r.2)

/-- The result of a run: return value, job table, and the calls made. -/
structure ExecResult where
  ret : Int
  st : ExecState
  trace : List Sys

/-- The builtin `cd` of `cmd_exec_run_in_tab`. -/
def builtin_cd (os : Os) (st : ExecState) (tab_idx : Int) (argv : List CStr) : ExecResult :=
  let target : Option CStr :=
    match argv.get? 1 with
    | some t => if t.length = 0 then os.home else some t
    | none => os.home
  match target with
  | none => ⟨-1, st, [Sys.output (append_msg tab_idx "cd: no $HOME set\n".toList)]⟩
  | some t =>
    if os.chdir_rc t = 0 then
      ⟨0, st, [Sys.chdir t 0,
        Sys.output (append_fmt tab_idx 256 ("changed directory to ".toList ++ (t ++ ['\n'])))]⟩
    else
      ⟨-1, st, [Sys.chdir t (os.chdir_rc t),
        Sys.output (append_fmt tab_idx 256
          ("cd: ".toList ++ (t ++ (": ".toList ++ (os.strerror t ++ ['\n'])))))]⟩

/-- The part of `cmd_exec_run_in_tab` that opens the redirections, creates the
pipes, forks the stages and starts the reader thread. -/
def spawn_pipeline (os : Os) (st : ExecState) (tab_idx : Int) (cmds : List Cmd) : ExecResult :=
  let ncmds := cmds.length
  let opened := open_redirections os tab_idx cmds 0 (List.replicate ncmds 0)
    (List.replicate ncmds 0)
  match opened.2 with
  | none => ⟨-1, st, opened.1⟩
  | some (in_fds, out_fds) =>
    let chain_cnt := if ncmds > 1 then ncmds - 1 else 0
    let chained := create_chain os chain_cnt 0 []
    match chained.2 with
    | none => ⟨-1, st, opened.1 ++ chained.1⟩
    | some chain =>
      match os.pipe_fds chain_cnt with
      | none => ⟨-1, st, opened.1 ++ (chained.1 ++ Sys.pipe none :: close_chain chain)⟩
      | some capture =>
        let forked := fork_stages os chain capture in_fds out_fds ncmds 0 []
        match forked.2 with
        | none => ⟨-1, st, opened.1 ++ (chained.1 ++ Sys.pipe (some capture) :: forked.1)⟩
        | some pids =>
          ⟨0,
            if tab_idx ≥ 0 ∧ tab_idx < CMD_MAX_TABS ∧ pids.headD 0 > 0 then
              set_tab_pgid st tab_idx (pids.headD 0)
            else st,
            opened.1 ++ (chained.1 ++ Sys.pipe (some capture) :: (forked.1 ++
              (close_chain chain ++ Sys.close capture.2 :: (close_redir_fds in_fds out_fds ++
                Sys.reader_thread tab_idx capture.1 pids os.pthread_create_rc ::
                  (if os.pthread_create_rc ≠ 0 then [Sys.close capture.1] else [])))))⟩

/-- The part of `cmd_exec_run_in_tab` that follows a successful
`parse_tokens_into_cmds`: the builtins `cd` and `history`, then the pipeline. -/
def cmd_exec_run_cmds (os : Os) (hist : History) (st : ExecState) (tab_idx : Int)
    (cmds : List Cmd) : ExecResult :=
  match cmds with
  | [c] =>
    match c.argv with
    | arg0 :: _ =>
      if arg0 = "cd".toList then builtin_cd os st tab_idx c.argv
      else if arg0 = "history".toList then
        ⟨0, st, (history_show_recent hist tab_idx 1000).map Sys.output⟩
      else spawn_pipeline os st tab_idx cmds
    | [] => spawn_pipeline os st tab_idx cmds
  | _ => spawn_pipeline os st tab_idx cmds

/-- The struct `mw_state`, without the thread handle and the mutex. -/
structure mw_state where
  tab_idx : Int
  n : Nat
  pids : List Int
  cmds : List CStr
  temp_paths : List (Option CStr)
  offsets : List Int
  running : Bool
  monitor_started : Bool
  deriving DecidableEq, Repr

/-- The status reported by `waitpid`. -/
inductive WaitStatus where
  | exited (code : Nat)
  | signaled (sig : Nat)
  | other
  deriving DecidableEq, Repr

/-- The calls `multiwatch.c` makes to the system and to `shell_tab.c`, in
program order. `free s` stands for the release of all memory of the state. -/
inductive MwSys where
  | fork (i : Nat) (pid : Int)
  | setpgid (pid pgid : Int)
  | kill (pid : Int) (sig : Signal)
  | waitpid (pid : Int)
  | unlink (path : CStr)
  | pthread_create (tab : Int) (rc : Int)
  | pthread_join (tab : Int)
  | free (s : mw_state)
  | output (call : OutCall)
  deriving DecidableEq, Repr

/-- What the system answers to `multiwatch.c`, and what the monitor thread
still relays before it sees `running == 0`. -/
structure MwEnv where
  /-- Result of `fork` for command `i`, as seen by the parent. -/
  fork_pid : Nat → Int
  /-- Result of `pthread_create` for the monitor thread. -/
  pthread_create_rc : Int
  /-- Status of `waitpid(pid, &status, 0)`: `none` when it returns no child. -/
  wait_status : Int → Option WaitStatus
  /-- Snapshot blocks the monitor appends before it leaves its loop. -/
  monitor_pending : List OutCall

/-- The global list `mw_list` (head first) and the calls made so far. -/
structure MwWorld where
  mw_list : List mw_state
  trace : List MwSys

/-- Decimal text of an `int`, as `%d` prints it. -/
def int_to_dec (i : Int) : CStr :=
  if i < 0 then '-' :: Nat.toDigits 10 i.natAbs else Nat.toDigits 10 i.toNat

/-- Function `make_temp_for_pid`: the path `.temp.<pid>.txt`. -/
def make_temp_for_pid (pid : Int) : CStr :=
  ".temp.".toList ++ (int_to_dec pid ++ ".txt".toList)

/-- Function `mw_find_by_tab`: the first node of the list with this `tab_idx`,
with its position in the list (its address). -/
def mw_find_by_tab : List mw_state → Int → Option (Nat × mw_state)
  | [], _ => none
  | p :: rest, tab_idx =>
    if p.tab_idx = tab_idx then some (0, p)
    else (mw_find_by_tab rest tab_idx).map fun r => (r.1 + 1, r.2)

/-- The loop of `multiwatch_interrupt` that signals every child: its process
group, then the pid itself. -/
def mw_signal_children : List Int → List MwSys
  | [] => []
  | pid :: rest =>
    (if pid > 0 then [MwSys.kill (-pid) Signal.SIGINT, MwSys.kill pid Signal.SIGINT] else []) ++
      mw_signal_children rest

/-- The loop `for i: if (pids[i] > 0) waitpid(pids[i], NULL, 0);`. -/
def mw_wait_children : List Int → List MwSys
  | [] => []
  | pid :: rest => (if pid > 0 then [MwSys.waitpid pid] else []) ++ mw_wait_children rest

/-- The loop `for i: if (temp_paths[i]) unlink(temp_paths[i]);`. -/
def mw_unlink_all : List (Option CStr) → List MwSys
  | [] => []
  | some p :: rest => MwSys.unlink p :: mw_unlink_all rest
  | none :: rest => mw_unlink_all rest

/-- The final loop of `monitor_thread_fn`, for the commands from the given
position on: reap the child, report its status, remove its file. -/
def monitor_cleanup (env : MwEnv) (tab_idx : Int) :
    List Int → List CStr → List (Option CStr) → List MwSys
  | pid :: pids, cmd :: cmds, path :: paths =>
    (if pid > 0 then
      MwSys.waitpid pid ::
        (match env.wait_status pid with
         | some (WaitStatus.exited code) =>
           [MwSys.output (append_fmt tab_idx 256
             ("\n[".toList ++ (cmd ++ (" exited with code ".toList ++
               (Nat.toDigits 10 code ++ "]\n".toList)))))]
         | some (WaitStatus.signaled sig) =>
           [MwSys.output (append_fmt tab_idx 256
             ("\n[".toList ++ (cmd ++ (" killed by signal ".toList ++
               (Nat.toDigits 10 sig ++ "]\n".toList)))))]
         | _ => [])
     else []) ++
      ((match path with
        | some p => [MwSys.unlink p]
        | none => []) ++ monitor_cleanup env tab_idx pids cmds paths)
  | _, _, _ => []

/-- Function `multiwatch_interrupt`: the return value and the new list and
calls. The work of the monitor thread after `running = 0` is placed at the
`pthread_join` that waits for it. -/
def multiwatch_interrupt (env : MwEnv) (w : MwWorld) (tab_idx : Int) : Int × MwWorld :=
  match mw_find_by_tab w.mw_list tab_idx with
  | none => (-1, w)
  | some (k, s) =>
    if s.running = false then (-1, w)
    else
      (0,
        { mw_list := w.mw_list.eraseIdx k,
          trace := w.trace ++ (mw_signal_children (s.pids.take s.n) ++
            ((if s.monitor_started then
                MwSys.pthread_join s.tab_idx ::
                  (env.monitor_pending.map MwSys.output ++
                    monitor_cleanup env s.tab_idx (s.pids.take s.n) s.cmds s.temp_paths)
              else
                mw_wait_children (s.pids.take s.n) ++ mw_unlink_all (s.temp_paths.take s.n)) ++
              [MwSys.free { s with running := false },
                MwSys.output
                  (append_msg tab_idx "\n[multiwatch stopped successfully]\n".toList)])) })

/-- The fork loop of `multiwatch_start`, `todo` commands from `i` on, run on
the state `s` that is already in the list. The flag is false when a `fork`
failed. -/
def mw_fork_children (env : MwEnv) : Nat → Nat → mw_state → List MwSys × mw_state × Bool
  | 0, _, s => ([], s, true)
  | todo + 1, i, s =>
    if env.fork_pid i < 0 then
      (MwSys.fork i (env.fork_pid i) ::
        (((s.pids.take i).filter fun p => p > 0).map (fun p => MwSys.kill p Signal.SIGINT) ++
          mw_wait_children (s.pids.take i)), s, false)
    else
      let s2 := { s with
        pids := s.pids.set i (env.fork_pid i),
        temp_paths := s.temp_paths.set i (some (make_temp_for_pid (env.fork_pid i))),
        offsets := s.offsets.set i 0 }
      let r := mw_fork_children env todo (i + 1) s2
      (MwSys.fork i (env.fork_pid i) ::
        MwSys.setpgid (env.fork_pid i) (env.fork_pid i) :: r.1, r.2)

/-- Function `multiwatch_start`. -/
def multiwatch_start (env : MwEnv) (w : MwWorld) (tab_idx : Int) (cmds_in : List CStr) :
    Int × MwWorld :=
  if cmds_in.length ≤ 0 then (-1, w)
  else
    let s0 : mw_state :=
      { tab_idx := tab_idx, n := cmds_in.length, pids := List.replicate cmds_in.length 0,
        cmds := cmds_in, temp_paths := List.replicate cmds_in.length none,
        offsets := List.replicate cmds_in.length 0, running := true, monitor_started := false }
    let forked := mw_fork_children env cmds_in.length 0 s0
    if forked.2.2 = false then
      (-1, (multiwatch_interrupt env
        { mw_list := forked.2.1 :: w.mw_list, trace := w.trace ++ forked.1 } tab_idx).2)
    else if env.pthread_create_rc ≠ 0 then
      (-1,
        { mw_list := w.mw_list,
          trace := w.trace ++ (forked.1 ++ (MwSys.pthread_create tab_idx env.pthread_create_rc ::
            (((forked.2.1.pids.take forked.2.1.n).filter fun p => p > 0).map
                (fun p => MwSys.kill p Signal.SIGINT) ++
              (mw_wait_children (forked.2.1.pids.take forked.2.1.n) ++
                (mw_unlink_all (forked.2.1.temp_paths.take forked.2.1.n) ++
                  [MwSys.free forked.2.1]))))) })
    else
      (0,
        { mw_list := { forked.2.1 with monitor_started := true } :: w.mw_list,
          trace := w.trace ++ (forked.1 ++ [MwSys.pthread_create tab_idx 0]) })

/-! ## cmd_exec.c: the child side of the fork loop -/

/-- Function `hist_push_str`: the line loses its trailing `'\n'` and `'\r'`
bytes, is dropped when only `isspace` bytes remain, and otherwise goes to the
next free slot of the ring or over the oldest entry. -/
def hist_push_str (h : History) (s : CStr) : History :=
  let line := (s.reverse.dropWhile fun c => c == '\n' || c == '\r').reverse
  if line.all isspace then h
  else if h.hist_count < HIST_MAX then
    { h with
      hist_buf := Function.update h.hist_buf ((h.hist_start + h.hist_count) % HIST_MAX)
        (some line),
      hist_count := h.hist_count + 1 }
  else
    { h with
      hist_buf := Function.update h.hist_buf h.hist_start (some line),
      hist_start := (h.hist_start + 1) % HIST_MAX }

/-- Function `history_add` (the navigation cursor `hist_pos` is not part of
the state). -/
def history_add (h : History) (cmd : CStr) : History :=
  if cmd = [] then h else hist_push_str h cmd

/-! ## cmd_exec.c: the command line entry point -/

/-- The test at the head of `cmd_exec_run_in_tab` for the array form of
`multiwatch`: leading `isspace` bytes are skipped, the next ten bytes are
compared with `multiwatch` by `strncasecmp`, `isspace` bytes are skipped again
and a `'['` must follow. The result is the text `p` from that `'['` on, or
`none` when the line takes the general path. -/
def mw_array_text (cmdline : CStr) : Option CStr :=
  let p0 := cmdline.dropWhile isspace
  if (p0.take 10).map Char.toLower = "multiwatch".toList then
    let p := (p0.drop 10).dropWhile isspace
    if p.head? = some '[' then some p else none
  else none

/-- Inner loop of the bracket scanner, from `r` (just after an opening quote)
up to `endb`: the text read is the region before `endb`, `tmp` is the buffer
`tmp[0..ti)`. Returns the buffer and the rest of the region at `r`. The
escape branch of the source writes `tmp[ti++]` without a bound check. -/
def mw_scan_cmd (tmp : CStr) : CStr → CStr × CStr
  | [] => (tmp, [])
  | [c] => if c = '"' then (tmp, []) else (tmp ++ [c], [])
  | c :: d :: rest2 =>
    if c = '\\' then
      mw_scan_cmd (tmp ++ [if d = 'n' then '\n' else if d = 't' then '\t' else d]) rest2
    else if c = '"' then (tmp, d :: rest2)
    else if (tmp ++ [c]).length ≥ TMP_SIZE - 1 then (tmp ++ [c], d :: rest2)
    else mw_scan_cmd (tmp ++ [c]) (d :: rest2)

/-- Outer loop `while (q && q < endb)` of the bracket scanner: `q` is the
region from `q` to `endb`, `cmds` the strings collected so far. Every turn
consumes the opening quote, so `fuel` turns cover a region of `fuel` bytes. -/
def mw_scan_list : Nat → CStr → List CStr → List CStr
  | 0, _, cmds => cmds
  | fuel + 1, q, cmds =>
    match q.dropWhile (fun c => c != '"') with
    | [] => cmds
    | _ :: r =>
      let scanned := mw_scan_cmd [] r
      mw_scan_list fuel (scanned.2.dropWhile fun c => isspace c || c == ',')
        (if cmds.length < 128 then cmds ++ [scanned.1] else cmds)

/-- Outcome of the bracket scanner. -/
inductive MwParse where
  /-- The line is not of the array form: general parsing follows. -/
  | not_array
  /-- No `']'` after the `'['`. -/
  | malformed
  /-- The strings handed to `multiwatch_start` (`cmd_count` may be 0). -/
  | cmds (l : List CStr)
  deriving DecidableEq, Repr

/-- The bracket scanner of `cmd_exec_run_in_tab`: `endb = strchr(p, ']')` is the
first `']'` at or after the `'['`. -/
def mw_parse_array (cmdline : CStr) : MwParse :=
  match mw_array_text cmdline with
  | none => MwParse.not_array
  | some p =>
    if ']' ∈ p then
      MwParse.cmds (mw_scan_list (p.takeWhile fun c => c != ']').length
        (p.takeWhile fun c => c != ']') [])
    else MwParse.malformed

/-- The state `cmd_exec_run_in_tab` works on: the history ring, the job table
and the multiwatch registry. -/
structure TermWorld where
  hist : History
  st : ExecState
  mw : MwWorld

/-- Result of `cmd_exec_run_in_tab`: the return value, the state, and the
calls made by `cmd_exec.c` itself. -/
structure RunResult where
  ret : Int
  world : TermWorld
  trace : List Sys

/-- Function `cmd_exec_run_in_tab` for a non-NULL `cmdline`: `none` when the glob
expansion stores past the end of its block (the behaviour is then
undefined), otherwise the result of the call. -/
def cmd_exec_run_in_tab (os : Os) (env : MwEnv) (fs : CStr → Option (List CStr))
    (w : TermWorld) (tab_idx : Int) (cmdline : CStr) : Option RunResult :=
  let w1 : TermWorld := { w with hist := history_add w.hist cmdline }
  match mw_parse_array cmdline with
  | MwParse.malformed =>
    some ⟨-1, w1, [Sys.output
      (append_msg tab_idx "multiwatch: malformed bracketed list (missing ])\n".toList)]⟩
  | MwParse.cmds l =>
    if l.length = 0 then
      some ⟨-1, w1,
        [Sys.output (append_msg tab_idx "multiwatch: no commands found in list\n".toList)]⟩
    else
      let started := multiwatch_start env w1.mw tab_idx l
      some ⟨if started.1 = 0 then 0 else -1, { w1 with mw := started.2 }, []⟩
  | MwParse.not_array =>
    match cmd_exec_parse fs cmdline with
    | none => none
    | some none => some ⟨-1, w1, []⟩
    | some (some cmds) =>
      let r := cmd_exec_run_cmds os w1.hist w1.st tab_idx cmds
      some ⟨r.ret, { w1 with st := r.st }, r.trace⟩

/-! ## cmd_exec.c: the reader thread -/

/-- The struct `reader_args` handed to a reader thread. -/
structure reader_args where
  tab_idx : Int
  fd : Int
  children : List Int
  deriving DecidableEq, Repr

/-- What `waitpid` reports for a child of a pipeline. -/
inductive ChildStatus where
  | exited (code : Int)
  | signaled (sig : Int)
  | other
  deriving DecidableEq, Repr

/-- What the reader thread gets from the system: the chunks `read` returns
before it returns 0 or less, and for every child the result of
`waitpid(pid, &status, WUNTRACED)`: `none` when it returns 0 or less,
`inl sig` for a child stopped by `sig` together with the status of the second,
blocking `waitpid`, `inr s` for a child that ended. -/
structure ReaderEnv where
  chunks : Int → List CStr
  wait : Int → Option ((Int × ChildStatus) ⊕ ChildStatus)

/-- The calls of a reader thread. -/
inductive RdSys where
  | output (call : OutCall)
  | close (fd : Int)
  | waitpid (pid : Int) (untraced : Bool)
  deriving DecidableEq, Repr

/-- The status line a reader thread prints for a child that exited or was
killed (`msg` has 128 bytes). -/
def reader_end_msg (tab : Int) (pid : Int) : ChildStatus → List RdSys
  | ChildStatus.exited code =>
    [RdSys.output (append_fmt tab 128 ("\n[process ".toList ++ (int_to_dec pid ++
      (" exited with status ".toList ++ (int_to_dec code ++ "]\n".toList)))))]
  | ChildStatus.signaled sig =>
    [RdSys.output (append_fmt tab 128 ("\n[process ".toList ++ (int_to_dec pid ++
      (" killed by signal ".toList ++ (int_to_dec sig ++ "]\n".toList)))))]
  | ChildStatus.other => []

/-- Body of the `for` loop of `reader_thread` for one child. -/
def reader_wait_child (renv : ReaderEnv) (tab : Int) (pid : Int) : List RdSys :=
  RdSys.waitpid pid true ::
    match renv.wait pid with
    | none => []
    | some (Sum.inr ChildStatus.other) =>
      [RdSys.output (append_fmt tab 128 ("\n[process ".toList ++ (int_to_dec pid ++
        " ended]\n".toList)))]
    | some (Sum.inr s) => reader_end_msg tab pid s
    | some (Sum.inl (sig, s2)) =>
      RdSys.output (append_fmt tab 128 ("\n[process ".toList ++ (int_to_dec pid ++
        (" stopped by signal ".toList ++ (int_to_dec sig ++ "]\n".toList))))) ::
        RdSys.waitpid pid false :: reader_end_msg tab pid s2

/-- Function `reader_thread`, run to its end: relay the chunks, close the read
end, wait for every child, then `clear_tab_pgid(tab)`. -/
def reader_thread (renv : ReaderEnv) (st : ExecState) (a : reader_args) :
    ExecState × List RdSys :=
  (clear_tab_pgid st a.tab_idx,
    (renv.chunks a.fd).map (fun chunk => RdSys.output ⟨a.tab_idx, chunk, chunk.length⟩) ++
      ((if a.fd ≥ 0 then [RdSys.close a.fd] else []) ++
        a.children.flatMap (reader_wait_child renv a.tab_idx)))

/-- The reader threads a trace of `cmd_exec_run_in_tab` started: the calls
`pthread_create` that returned 0. -/
def readers_of : List Sys → List reader_args
  | [] => []
  | Sys.reader_thread tab fd children rc :: rest =>
    if rc = 0 then ⟨tab, fd, children⟩ :: readers_of rest else readers_of rest
  | _ :: rest => readers_of rest

/-- A terminal between two events: the state of the modules and the reader
threads that were started and have not finished, which are the pipelines not
yet fully reaped. -/
structure Session where
  world : TermWorld
  readers : List reader_args

/-- Step "execute a line in tab `t`"; `none` when the call leaves defined
behaviour. -/
def session_run (os : Os) (env : MwEnv) (fs : CStr → Option (List CStr)) (s : Session)
    (tab_idx : Int) (cmdline : CStr) : Option Session :=
  (cmd_exec_run_in_tab os env fs s.world tab_idx cmdline).map fun r =>
    ⟨r.world, s.readers ++ readers_of r.trace⟩

/-- Step "the reader thread `a` finishes": it has reaped its children and
cleared the job of its tab. -/
def session_reader_done (renv : ReaderEnv) (s : Session) (a : reader_args) : Session :=
  ⟨{ s.world with st := (reader_thread renv s.world.st a).1 }, s.readers.erase a⟩

/-! ## cmd_exec.c: stores into the token buffer -/

/-- The indices of `tmp` at which the inner loop of `tokenize_quoted` stores a
byte, in program order, with the closing `tmp[ti] = '\0'` last: the same walk
as `scan_token`, with `ti` in place of the buffer. -/
def scan_token_writes (in_single in_double : Bool) (ti : Nat) : CStr → List Nat
  | [] => [ti]
  | c :: p =>
    if !in_single && c == '"' then
      scan_token_writes in_single (!in_double) ti p
    else if !in_double && c == '\'' then
      scan_token_writes (!in_single) in_double ti p
    else if !in_single && !in_double && is_tok_space c then
      [ti]
    else if c == '\\' then
      match p with
      | [] => [ti]
      | _ :: q => ti :: scan_token_writes in_single in_double (ti + 1) q
    else if ti + 1 ≥ TMP_SIZE - 2 then
      [ti, ti + 1]
    else
      ti :: scan_token_writes in_single in_double (ti + 1) p

/-- The indices of `tmp` written by the outer loop of `tokenize_quoted`, token
after token. -/
def tokenize_loop_writes : Nat → CStr → List Nat
  | 0, _ => []
  | slots + 1, p =>
    match skip_spaces p with
    | [] => []
    | c :: q =>
      scan_token_writes false false 0 (c :: q) ++
        tokenize_loop_writes slots (scan_token false false [] (c :: q)).2

/-- The indices of `tmp` written by `tokenize_quoted`. -/
def tokenize_writes (input : CStr) (max_args : Nat) : List Nat :=
  tokenize_loop_writes (max_args - 1) input

/-! ## cmd_exec.c: reading a trace -/

/-- The calls `tabs_append_output` of a trace, in order. -/
def outputs_of : List Sys → List OutCall
  | [] => []
  | Sys.output call :: rest => call :: outputs_of rest
  | _ :: rest => outputs_of rest

/-- The descriptors closed in a trace, in order. -/
def closes_of : List Sys → List Int
  | [] => []
  | Sys.close fd :: rest => fd :: closes_of rest
  | _ :: rest => closes_of rest

/-- The descriptors a trace obtained from `open`. -/
def opened_of : List Sys → List Int
  | [] => []
  | Sys.open_read _ fd :: rest => if fd ≥ 0 then fd :: opened_of rest else opened_of rest
  | Sys.open_write _ _ fd :: rest => if fd ≥ 0 then fd :: opened_of rest else opened_of rest
  | _ :: rest => opened_of rest

/-- The bound `MAX_TABS` of the array `tabs`. -/
def MAX_TABS : Nat := 8

/-- The first capacity `INITIAL_CAP` of an output buffer. -/
def INITIAL_CAP : Nat := 16384

/-- Number of values of `size_t`. -/
def SIZE_RANGE : Nat := 2 ^ 64

/-- The struct `Tab`, without the input line, the editor, the completion
state and the mutex. `out_buf` is `none` for a NULL pointer, otherwise the
bytes of the block by offset. -/
structure Tab where
  id : Int
  pid : Int
  to_child_fd : Int
  from_child_fd : Int
  out_buf : Option (Nat → Char)
  out_len : Nat
  out_cap : Nat
  alive : Bool

/-- The array `tabs` (`none` is a NULL pointer) and `g_count`. -/
structure TabRegistry where
  tabs : Nat → Option Tab
  g_count : Nat

/-- The bytes a reader sees in the output buffer of a tab: the first
`out_len` bytes of the block. -/
def Tab.content (t : Tab) : CStr :=
  match t.out_buf with
  | none => []
  | some b => (List.range t.out_len).map b

/-- The loop `while (nc < need) nc *= 2;` of `ensure_capacity_locked` in
`size_t` arithmetic. The loop ends within 65 turns or never: after 64
doublings `nc` is 0 and stays 0. `none` is the loop that never ends. -/
def grow_cap : Nat → Nat → Nat → Option Nat
  | 0, _, _ => none
  | fuel + 1, nc, need =>
    if nc < need then grow_cap fuel ((nc * 2) % SIZE_RANGE) need else some nc

/-- Function `ensure_capacity_locked`, for a tab that is not NULL.
`alloc size` tells whether `realloc(out_buf, size)` succeeds; the bytes of a
fresh block are taken to be NUL. `none` is the doubling loop that never
ends. -/
def ensure_capacity_locked (alloc : Nat → Bool) (t : Tab) (extra : Nat) : Option Tab :=
  if (t.out_len + extra + 1) % SIZE_RANGE ≥ t.out_cap then
    match grow_cap 65 (if t.out_cap ≠ 0 then (t.out_cap * 2) % SIZE_RANGE else INITIAL_CAP)
      ((t.out_len + extra + 1) % SIZE_RANGE) with
    | none => none
    | some nc =>
      if alloc nc then
        some { t with out_buf := some (t.out_buf.getD fun _ => '\x00'), out_cap := nc }
      else some t
  else some t

/-- How a call of `tabs_append_output` ends: it returns with the registry in
a new state, it stores past the end of the block `out_buf` (the tab is given
as it was before the stores), or it never returns. -/
inductive AppendResult where
  | done (r : TabRegistry)
  | overrun (t : Tab)
  | hang

/-- Function `tabs_append_output`: `buf` gives the bytes at the pointer `buf` by
offset, `n` is the `ssize_t` length. The wake-up byte written to the notify
pipe is not part of the state. -/
def tabs_append_output (alloc : Nat → Bool) (r : TabRegistry) (idx : Int) (buf : Nat → Char)
    (n : Int) : AppendResult :=
  if idx < 0 ∨ idx ≥ r.g_count then AppendResult.done r
  else
    match r.tabs idx.toNat with
    | none => AppendResult.done r
    | some t =>
      match ensure_capacity_locked alloc t (n % SIZE_RANGE).toNat with
      | none => AppendResult.hang
      | some t1 =>
        match t1.out_buf with
        | some b =>
          if n > 0 then
            if t1.out_len + n.toNat ≥ t1.out_cap then AppendResult.overrun t1
            else
              AppendResult.done { r with
                tabs := Function.update r.tabs idx.toNat (some { t1 with
                  out_buf := some fun k =>
                    if k = t1.out_len + n.toNat then '\x00'
                    else if t1.out_len ≤ k ∧ k < t1.out_len + n.toNat then buf (k - t1.out_len)
                    else b k,
                  out_len := t1.out_len + n.toNat }) }
          else AppendResult.done { r with tabs := Function.update r.tabs idx.toNat (some t1) }
        | none => AppendResult.done { r with tabs := Function.update r.tabs idx.toNat (some t1) }

/-- The calls `tabs_close` makes for the shell of the tab. -/
inductive TabSys where
  | write (fd : Int) (text : CStr)
  | usleep (us : Nat)
  | waitpid (pid : Int) (nohang : Bool)
  | kill (pid : Int) (sig : Signal)
  | close (fd : Int)
  deriving DecidableEq, Repr

/-- The loop of `tabs_close` that shifts the later tab pointers left and
updates their ids: `todo` turns from index `i` on. -/
def shift_tabs (tabs : Nat → Option Tab) : Nat → Nat → Nat → Option Tab
  | _, 0 => tabs
  | i, todo + 1 =>
    shift_tabs
      (Function.update tabs (i - 1) ((tabs i).map fun t => { t with id := ((i - 1 : Nat) : Int) }))
      (i + 1) todo

/-- Function `tabs_close`. `wait_nohang pid` is the result of
`waitpid(pid, &status, WNOHANG)`. The freed tab object is dropped from the
registry; the job table of `cmd_exec.c` is not reachable from here. -/
def tabs_close (wait_nohang : Int → Int) (r : TabRegistry) (idx : Int) :
    TabRegistry × List TabSys :=
  if idx < 0 ∨ idx ≥ r.g_count then (r, [])
  else
    match r.tabs idx.toNat with
    | none => (r, [])
    | some t =>
      ({ tabs := Function.update
            (shift_tabs r.tabs (idx.toNat + 1) (r.g_count - (idx.toNat + 1)))
            (r.g_count - 1) none,
         g_count := r.g_count - 1 },
        if t.alive then
          TabSys.write t.to_child_fd "exit\n".toList :: TabSys.usleep 1000 ::
            TabSys.waitpid t.pid true ::
            ((if wait_nohang t.pid = 0 then
                [TabSys.kill t.pid Signal.SIGTERM, TabSys.waitpid t.pid false]
              else []) ++ [TabSys.close t.to_child_fd, TabSys.close t.from_child_fd])
        else [])

/-! ## multiwatch.c: the monitor poll -/

/-- What the monitor thread gets from the system during a poll. -/
structure MwFiles where
  /-- Content of the file opened by `fopen(path, "r")`; `none` when it fails. -/
  fopen : CStr → Option CStr
  /-- Whether `fseeko(f, off, SEEK_SET)` fails on a file of the given length. -/
  fseeko_fails : Nat → Int → Bool
  /-- Whether `realloc(acc, size)` succeeds. -/
  realloc_ok : Nat → Bool
  /-- Whether `ftello(f)` fails (returns a negative value). -/
  ftello_fails : Bool
  /-- The text `fmt_time_now` leaves in `timebuf`. -/
  time_now : CStr

/-- The loop `while ((got = fread(buf, 1, sizeof(buf), f)) > 0)` of the monitor:
`rest` is the file from the read position on, `acc` the bytes gathered (empty
for the NULL pointer) and `pos` the bytes read so far. Every turn that goes
on reads at least one byte, so `fuel` turns cover a file of `fuel - 1` bytes. -/
def mw_read_all (realloc_ok : Nat → Bool) : Nat → CStr → CStr → Nat → CStr × Nat
  | 0, _, acc, pos => (acc, pos)
  | fuel + 1, rest, acc, pos =>
    if (rest.take 4096).length = 0 then (acc, pos)
    else if realloc_ok (acc.length + (rest.take 4096).length) then
      mw_read_all realloc_ok fuel (rest.drop 4096) (acc ++ rest.take 4096)
        (pos + (rest.take 4096).length)
    else ([], pos + (rest.take 4096).length)

/-- The text `snprintf` formats into `header[512]`. -/
def snapshot_header (cmd ts : CStr) : CStr :=
  "\n\"".toList ++ (cmd ++ ("\"\ncurrent time: ".toList ++ (ts ++
    "\n----------------------------------------------------\n".toList)))

/-- The string `sep` that closes a snapshot block. -/
def snapshot_sep : CStr :=
  "\n----------------------------------------------------\n".toList

/-- Body of the loop `for (i ...)` of `monitor_thread_fn` for one command: the
new value of `offsets[i]` and the calls of `tabs_append_output`. -/
def monitor_poll_cmd (fs : MwFiles) (tab_idx : Int) (cmd : CStr) (path : Option CStr)
    (off : Int) : Int × List OutCall :=
  match path with
  | none => (off, [])
  | some p =>
    match fs.fopen p with
    | none => (off, [])
    | some content =>
      let seek_failed := decide (off > 0) && fs.fseeko_fails content.length off
      let off1 := if seek_failed then 0 else off
      let start := if off > 0 ∧ seek_failed = false then off.toNat else 0
      let read := mw_read_all fs.realloc_ok (content.length + 1) (content.drop start) [] 0
      (if fs.ftello_fails then off1 else ((start + read.2 : Nat) : Int),
        if read.1.length > 0 then
          [append_fmt tab_idx 512 (snapshot_header cmd fs.time_now),
            ⟨tab_idx, read.1, read.1.length⟩,
            append_msg tab_idx snapshot_sep]
        else [])

/-- The loop `for (int i = 0; i < s->n; ++i)` of one poll of the monitor, `todo`
commands from `i` on. -/
def monitor_poll_loop (fs : MwFiles) (tab_idx : Int) (cmds : List CStr)
    (paths : List (Option CStr)) : Nat → Nat → List Int → List Int × List OutCall
  | 0, _, offsets => (offsets, [])
  | todo + 1, i, offsets =>
    let r := monitor_poll_cmd fs tab_idx (cmds.getD i []) (paths.getD i none) (offsets.getD i 0)
    let rest := monitor_poll_loop fs tab_idx cmds paths todo (i + 1) (offsets.set i r.1)
    (rest.1, r.2 ++ rest.2)

/-- One poll of `monitor_thread_fn` on a running session. -/
def monitor_poll (fs : MwFiles) (s : mw_state) : mw_state × List OutCall :=
  let r := monitor_poll_loop fs s.tab_idx s.cmds s.temp_paths s.n 0 s.offsets
  ({ s with offsets := r.1 }, r.2)

/-! ## Specification side: parsing -/

/-- The tokens `expand_tokens_with_glob` stores, in the order of the stores:
operator tokens and tokens without a glob character as they are, every other
token replaced by what `glob` returns for it, or kept when `glob` fails. -/
def expanded_tokens (fs : CStr → Option (List CStr)) : List CStr → List CStr
  | [] => []
  | tk :: rest =>
    (if is_operator_token tk || !contains_glob_chars tk then [tk]
     else if (glob fs tk).1 = 0 then (glob fs tk).2
     else [tk]) ++ expanded_tokens fs rest

/-- A character of a plain word: not white space, no quote, no backslash, no
operator character and no glob character. -/
def plain_char (c : Char) : Bool :=
  !isspace c && c != '\'' && c != '"' && c != '\\' && c != '|' && c != '<' && c != '>' &&
    c != '*' && c != '?' && c != '['

/-- A plain word: a non-empty string of plain characters. -/
def plain_word (w : CStr) : Prop := w ≠ [] ∧ ∀ c ∈ w, plain_char c = true

instance (w : CStr) : Decidable (plain_word w) := by unfold plain_word; infer_instance

/-- A line made of plain words, separators (space, tab, newline) and `|`. -/
def plain_line (line : CStr) : Prop :=
  ∀ c ∈ line, plain_char c = true ∨ is_tok_space c = true ∨ c = '|'

instance (line : CStr) : Decidable (plain_line line) := by unfold plain_line; infer_instance

/-- The words of a segment: its maximal runs without a separator. -/
def words_spec (seg : CStr) : List CStr :=
  (seg.splitOnP is_tok_space).filter fun w => !w.isEmpty

/-- The stages of a line: the words between consecutive `|` characters. -/
def stages_spec (line : CStr) : List (List CStr) :=
  (line.splitOnP fun c => c == '|').map words_spec

/-- The tokens of a list of stages: the words, with one `|` token between two
stages. -/
def join_stages : List (List CStr) → List CStr
  | [] => []
  | [s] => s
  | s :: t :: r => s ++ ['|'] :: join_stages (t :: r)

/-- A character that the tokenizer stores as it is when outside quotes. -/
def word_char (c : Char) : Prop :=
  is_tok_space c = false ∧ c ≠ '"' ∧ c ≠ '\'' ∧ c ≠ '\\'

/-- The unread input after a word: the end of the line or a separator. -/
def at_word_end (rest : CStr) : Prop :=
  rest = [] ∨ ∃ c q, rest = c :: q ∧ is_tok_space c = true

/-- What may follow a word in a plain line: the end, a separator or `|`. -/
def after_word (p : CStr) : Prop :=
  p = [] ∨ ∃ c q, p = c :: q ∧ (is_tok_space c = true ∨ c = '|')

/-- The tokens of a plain line: its words, and a `|` token for each `|`. -/
def line_tokens (line : CStr) : List CStr := join_stages (stages_spec line)

/-- A line of `n` one-letter words, each followed by a space. -/
def many_words : Nat → CStr
  | 0 => []
  | n + 1 => 'a' :: ' ' :: many_words n

/-- A word of `n` letters. -/
def long_word (n : Nat) : CStr := List.replicate n 'a'

/-! ## Specification side: history search -/

/-- Length of the longest common prefix of two strings. -/
def common_prefix_len : CStr → CStr → Nat
  | x :: xs, y :: ys => if x = y then common_prefix_len xs ys + 1 else 0
  | _, _ => 0

/-- The row of the table: for the reversed prefix `ra` of `a`, the reversed
prefix `rb` of `b` and every longer prefix of `b` (extended through `bs`), the
length of the longest common suffix. -/
def suffix_row (ra rb : CStr) : CStr → List Nat
  | [] => [common_prefix_len ra rb]
  | bj :: bs => common_prefix_len ra rb :: suffix_row ra (bj :: rb) bs

/-- The entries of the history, oldest first. -/
def history_entries (h : History) : List CStr :=
  (List.range h.hist_count).filterMap (hist_index h)

/-- The largest `lcs_len` of the term with an entry among the first `n` slots. -/
def best_lcs_upto (h : History) (term : CStr) (n : Nat) : Nat :=
  (((List.range n).filterMap (hist_index h)).map fun s => lcs_len s term).foldl max 0

/-- The largest `lcs_len` of the term with an entry of the history (0 for the
empty history). -/
def best_lcs (h : History) (term : CStr) : Nat := best_lcs_upto h term h.hist_count

/-- The indices below `n` whose entry reaches the length `m`. -/
def cands_upto (h : History) (term : CStr) (m n : Nat) : List Nat :=
  (List.range n).filter fun i =>
    match hist_index h i with
    | some s => decide (lcs_len s term = m)
    | none => false

/-! ## Sample systems and states -/

/-- A system on which every call succeeds: pipe `k` is the pair of descriptors
`(3 + 2k, 4 + 2k)` and the child of stage `i` gets the pid `100 + i`. -/
def os_ok : Os where
  open_read := fun _ => 50
  open_write := fun _ _ => 51
  strerror := fun _ => []
  pipe_fds := fun k => some (3 + 2 * (k : Int), 4 + 2 * (k : Int))
  fork_pid := fun i => 100 + (i : Int)
  setpgid_rc := fun _ _ => 0
  setpgid_retry_rc := fun _ _ => 0
  chdir_rc := fun _ => 0
  home := some ['/']
  pthread_create_rc := 0
  kill_rc := fun _ _ => 0

/-- The empty history. -/
def hist_empty : History := ⟨fun _ => none, 0, 0⟩

/-- The job table right after program start: no foreground job. -/
def st_init : ExecState := ⟨fun _ => 0⟩

/-- A system on which every call of `multiwatch.c` succeeds; child `i` gets
the pid `200 + i` and ends with exit code 0. -/
def mw_env_ok : MwEnv where
  fork_pid := fun i => 200 + (i : Int)
  pthread_create_rc := 0
  wait_status := fun _ => some (WaitStatus.exited 0)
  monitor_pending := []

/-- The history of the entries `foo bar`, `baz qux`, `foo bar`. -/
def hist_foo : History :=
  ⟨fun i => ["foo bar".toList, "baz qux".toList, "foo bar".toList].get? i, 3, 0⟩

/-- The history with the single entry `hello world`. -/
def hist_hello : History := ⟨fun i => ["hello world".toList].get? i, 1, 0⟩

/-- The registry at program start. -/
def mw_world_init : MwWorld := ⟨[], []⟩

/-! ## Specification side: operators and stage limit -/

/-- A bare redirection operator: `<`, `>` or `>>`. -/
def is_bare_redirect (tk : CStr) : Bool :=
  tk == ['<'] || tk == ['>', '>'] || tk == ['>']

/-- What `parse_tokens_into_cmds` does to the current command for a bare
operator `tk` followed by the token `f`. -/
def redirect_bare (tk f : CStr) (cur : Cmd) : Cmd :=
  if tk = ['<'] then { cur with infile := some (sanitize_filename f) }
  else if tk = ['>', '>'] then
    { cur with outfile := some (sanitize_filename f), append := true }
  else { cur with outfile := some (sanitize_filename f), append := false }

/-- What `parse_tokens_into_cmds` does to the current command for a token that
is neither `|` nor a bare operator: a glued redirection or an argument. -/
def single_token (tk : CStr) (cur : Cmd) : Cmd :=
  if tk.head? = some '<' then { cur with infile := some (sanitize_filename tk.tail) }
  else if tk.take 2 = ['>', '>'] then
    { cur with outfile := some (sanitize_filename (tk.drop 2)), append := true }
  else if tk.head? = some '>' then
    { cur with outfile := some (sanitize_filename tk.tail), append := false }
  else { cur with argv := cur.argv ++ [tk] }

/-- Whether the token list ends with a bare operator whose filename is still
to come: the token after a bare operator is always taken as its filename. -/
def pending_filename : List CStr → Bool
  | [] => false
  | tk :: rest =>
    if is_bare_redirect tk then
      match rest with
      | [] => true
      | _ :: rest2 => pending_filename rest2
    else pending_filename rest

/-- The stage indices `cmd_idx` at which the main loop of
`parse_tokens_into_cmds` stores into `cmds[cmd_idx]`, in program order. -/
def parse_loop_writes (max_cmds : Nat) : List CStr → Nat → List Nat
  | [], cmd_idx => [cmd_idx]
  | tk :: rest, cmd_idx =>
    if tk = ['|'] then
      cmd_idx ::
        (if cmd_idx + 1 ≥ max_cmds then []
         else (cmd_idx + 1) :: parse_loop_writes max_cmds rest (cmd_idx + 1))
    else if is_bare_redirect tk then
      match rest with
      | [] => []
      | _ :: rest2 => cmd_idx :: parse_loop_writes max_cmds rest2 cmd_idx
    else cmd_idx :: parse_loop_writes max_cmds rest cmd_idx

/-- All stage indices at which `parse_tokens_into_cmds` stores: the
initialising loop over `cmds[0..max_cmds)`, the first command, then the main
loop. -/
def parse_writes (tokens : List CStr) (max_cmds : Nat) : List Nat :=
  if max_cmds < 1 then []
  else List.range max_cmds ++ 0 :: parse_loop_writes max_cmds tokens 0

/-! ## Specification side: quoting -/

/-- A piece of quoted text as written in the line: a byte standing for
itself, or a backslash followed by a byte. -/
inductive QItem where
  | lit (c : Char)
  | esc (c : Char)
  deriving DecidableEq, Repr

/-- The bytes of a piece as written. -/
def QItem.render : QItem → CStr
  | QItem.lit c => [c]
  | QItem.esc c => ['\\', c]

/-- The byte a piece stands for. -/
def QItem.value : QItem → Char
  | QItem.lit c => c
  | QItem.esc c => unescape c

/-- The text of a list of pieces as written. -/
def render_items : List QItem → CStr
  | [] => []
  | it :: rest => it.render ++ render_items rest

/-- The text a list of pieces stands for. -/
def item_values (items : List QItem) : CStr := items.map QItem.value

/-- The quote character: `'` for single quotes, `"` for double quotes. -/
def quote_char (single : Bool) : Char := if single then '\'' else '"'

/-- Whether a piece may stand between the quotes: a literal piece is neither
the closing quote nor a backslash. -/
def QItem.ok (single : Bool) : QItem → Bool
  | QItem.lit c => c != quote_char single && c != '\\'
  | QItem.esc _ => true

/-- Every piece may stand between the quotes. -/
def quotable (single : Bool) (items : List QItem) : Prop :=
  ∀ it ∈ items, it.ok single = true

instance (single : Bool) (items : List QItem) : Decidable (quotable single items) := by
  unfold quotable; infer_instance

/-- A line without quotes and backslashes. -/
def unquoted_line (line : CStr) : Prop :=
  ∀ c ∈ line, c ≠ '"' ∧ c ≠ '\'' ∧ c ≠ '\\'

instance (line : CStr) : Decidable (unquoted_line line) := by
  unfold unquoted_line; infer_instance

/-- A token that `parse_tokens_into_cmds` stores as an argument: it is not `|`
and does not begin with `<` or `>`. -/
def arg_token (t : CStr) : Prop :=
  t ≠ ['|'] ∧ t.head? ≠ some '<' ∧ t.head? ≠ some '>'

instance (t : CStr) : Decidable (arg_token t) := by unfold arg_token; infer_instance

/-- A directory that holds the files `a.c` and `b.c`: what it answers to a
glob pattern (only the pattern `*.c` is answered with matches). -/
def fs_two_c_files (pat : CStr) : Option (List CStr) :=
  if pat = "*.c".toList then some ["a.c".toList, "b.c".toList] else some []

/-! ## Sample pipelines and command lines -/

/-- Text of a list of commands, each wrapped in double quotes and followed by
its separator. -/
def mw_list_text : List (CStr × CStr) → CStr
  | [] => []
  | (c, sep) :: rest => '"' :: (c ++ '"' :: (sep ++ mw_list_text rest))

/-- A separator of the array: commas and white space only. -/
def mw_separator (s : CStr) : Prop := ∀ c ∈ s, isspace c = true ∨ c = ','

instance (s : CStr) : Decidable (mw_separator s) := by unfold mw_separator; infer_instance

/-- A command the scanner hands over unchanged: no double quote, no
backslash, no `]`, and at most 8190 bytes. -/
def mw_command (c : CStr) : Prop :=
  (∀ x ∈ c, x ≠ '"' ∧ x ≠ '\\' ∧ x ≠ ']') ∧ c.length ≤ TMP_SIZE - 2

instance (c : CStr) : Decidable (mw_command c) := by unfold mw_command; infer_instance

/-- The line `multiwatch [`, a separator, the quoted commands with their
separators, and `]`. -/
def mw_line (lead : CStr) (items : List (CStr × CStr)) : CStr :=
  "multiwatch [".toList ++ (lead ++ (mw_list_text items ++ [']']))

/-! ## Sample sessions -/

/-- The state of the modules right after program start. -/
def world_init : TermWorld := ⟨hist_empty, st_init, mw_world_init⟩

/-- A system as `os_ok` met by a later pipeline: pipe `k` is the pair of
descriptors `(5 + 2k, 6 + 2k)` and the child of stage `i` gets the pid
`200 + i`. -/
def os_second : Os :=
  { os_ok with
    pipe_fds := fun k => some (5 + 2 * (k : Int), 6 + 2 * (k : Int)),
    fork_pid := fun i => 200 + (i : Int) }

/-- A reader thread that reads nothing and whose children all exit with
status 0. -/
def renv_ok : ReaderEnv := ⟨fun _ => [], fun _ => some (Sum.inr (ChildStatus.exited 0))⟩

/-- A terminal right after program start. -/
def session_init : Session := ⟨world_init, []⟩

/-- The terminal after `sleep 10` was executed in tab 0. -/
def session_one_job : Option Session :=
  session_run os_ok mw_env_ok (fun _ => none) session_init 0 "sleep 10".toList

/-- The terminal after `sleep 10` and then `sleep 20` were executed in tab 0. -/
def session_two_jobs : Option Session :=
  session_one_job.bind fun s =>
    session_run os_second mw_env_ok (fun _ => none) s 0 "sleep 20".toList

/-! ## Specification side: failed redirection -/

/-- The message about a file that cannot be opened: the file name and the
reason `strerror(errno)`. -/
def open_error_text (os : Os) (f : CStr) (reading : Bool) : CStr :=
  "cannot open '".toList ++ (f ++ ((if reading then "' for reading: ".toList
    else "' for writing: ".toList) ++ (os.strerror f ++ ['\n'])))

/-- The input file of a stage when it is declared and cannot be opened. -/
def failed_input (os : Os) (d : Cmd) : Option CStr :=
  match d.infile with
  | some f => if os.open_read f < 0 then some f else none
  | none => none

/-- The output file of a stage when it is declared and cannot be opened. -/
def failed_output (os : Os) (d : Cmd) : Option CStr :=
  match d.outfile with
  | some g => if os.open_write g d.append < 0 then some g else none
  | none => none

/-- The first declared file that cannot be opened, the stages taken in order and
the input file of a stage before its output file; the flag is `true` for an
input file. -/
def first_open_failure (os : Os) : List Cmd → Option (CStr × Bool)
  | [] => none
  | d :: rest =>
    match failed_input os d with
    | some f => some (f, true)
    | none =>
      match failed_output os d with
      | some g => some (g, false)
      | none => first_open_failure os rest

/-- A system on which no file can be opened: `open` returns -1 and the reason
is `No such file or directory`. -/
def os_missing : Os :=
  { os_ok with
    open_read := fun _ => -1,
    open_write := fun _ _ => -1,
    strerror := fun _ => "No such file or directory".toList }

/-! ## Specification side: escapes in a token -/

/-- The text of `n` escapes: `n` times a backslash followed by the letter `a`. -/
def escaped_letters : Nat → CStr
  | 0 => []
  | n + 1 => '\\' :: 'a' :: escaped_letters n

/-! ## Specification side: the history ring as a queue -/

/-- The ring read as a list, oldest entry first: `hist_index(0)`, ...,
`hist_index(hist_count - 1)`. -/
def hist_list (h : History) : List (Option CStr) :=
  (List.range h.hist_count).map (hist_index h)

/-- A line without its trailing newline and carriage-return characters. -/
def trimmed_line (s : CStr) : CStr :=
  (s.reverse.dropWhile fun c => c == '\n' || c == '\r').reverse

/-! ## Specification side: sessions of a tab -/

/-- The sessions the registry holds for a tab. -/
def mw_sessions_of (l : List mw_state) (tab_idx : Int) : List mw_state :=
  l.filter fun s => decide (s.tab_idx = tab_idx)

/-! ## Specification side: output buffer and closed tabs -/

/-- The tab at an index after a call of `tabs_append_output` that returned. -/
def AppendResult.tab (res : AppendResult) (i : Nat) : Option Tab :=
  match res with
  | AppendResult.done r => r.tabs i
  | _ => none

/-- Whether a call of `tabs_append_output` stored past the end of the block. -/
def AppendResult.overran : AppendResult → Bool
  | AppendResult.overrun _ => true
  | _ => false

/-- A tab whose buffer of 16384 bytes holds 16380 bytes. -/
def tab_nearly_full : Tab :=
  { id := 0, pid := 10, to_child_fd := 5, from_child_fd := 6, out_buf := some fun _ => 'x',
    out_len := 16380, out_cap := 16384, alive := true }

/-- A registry with the one tab `tab_nearly_full`. -/
def reg_one_tab : TabRegistry := ⟨fun i => if i = 0 then some tab_nearly_full else none, 1⟩

/-- The bytes `abcdefghij` at a pointer. -/
def bytes_a_to_j : Nat → Char := fun k => "abcdefghij".toList.getD k 'z'

/-- A registry with two tabs, whose shells have the pids 10 and 11. -/
def reg_two_tabs : TabRegistry :=
  ⟨fun i =>
    if i = 0 then
      some (Tab.mk 0 10 5 6 none 0 0 true)
    else if i = 1 then
      some (Tab.mk 1 11 7 8 none 0 0 true)
    else none, 2⟩

/-- The job table when tab 1 runs a pipeline whose first child has the pid 555
and tab 0 runs none. -/
def st_job_in_tab_one : ExecState := set_tab_pgid st_init 1 555

/-! ## Specification side: snapshot blocks -/

/-- The position a poll reads from: the stored offset when it is positive and
`fseeko` accepts it, otherwise the start of the file. -/
def poll_start (fs : MwFiles) (content : CStr) (off : Int) : Nat :=
  if off > 0 ∧ fs.fseeko_fails content.length off = false then off.toNat else 0

/-- A system as POSIX specifies it for a regular file: `fseeko` accepts every
offset, also one beyond the end of the file, allocation and `ftello` succeed;
the file at every path holds `content`. -/
def fs_posix (content : CStr) : MwFiles :=
  { fopen := fun _ => some content, fseeko_fails := fun _ _ => false,
    realloc_ok := fun _ => true, ftello_fails := false,
    time_now := "2024-01-01 12:00:00".toList }

/-- The names `f`, `ff`, `fff`, ... (`n` of them), in the order `glob` returns
them. -/
def file_names (n : Nat) : List CStr :=
  (List.range n).map fun i => List.replicate (i + 1) 'f'

/-- A directory that holds the `n` files of `file_names`: the pattern `*`
matches them all, every other pattern matches nothing. -/
def many_files (n : Nat) (pat : CStr) : Option (List CStr) :=
  if pat = "*".toList then some (file_names n) else some []

theorem plain_char_not_tok_space {c : Char} (h : plain_char c = true) : is_tok_space c = false := by
  simp only [plain_char, isspace, is_tok_space] at *
  revert h
  by_cases h1 : c = ' ' <;> by_cases h2 : c = '\t' <;> by_cases h3 : c = '\n' <;> simp [h1, h2, h3]

theorem plain_char_ne {c : Char} (h : plain_char c = true) :
    c ≠ '\'' ∧ c ≠ '"' ∧ c ≠ '\\' ∧ c ≠ '|' ∧ c ≠ '<' ∧ c ≠ '>' := by
  simp only [plain_char, Bool.and_eq_true, bne_iff_ne, ne_eq] at h
  tauto

theorem plain_char_no_glob {c : Char} (h : plain_char c = true) :
    c ≠ '*' ∧ c ≠ '?' ∧ c ≠ '[' := by
  simp only [plain_char, Bool.and_eq_true, bne_iff_ne, ne_eq] at h
  tauto

theorem plain_char_not_isspace {c : Char} (h : plain_char c = true) : isspace c = false := by
  simp only [plain_char, Bool.and_eq_true, Bool.not_eq_true'] at h
  tauto

theorem plain_char_word_char {c : Char} (h : plain_char c = true) : word_char c :=
  ⟨plain_char_not_tok_space h, (plain_char_ne h).2.1, (plain_char_ne h).1, (plain_char_ne h).2.2.1⟩

theorem scan_token_word (w rest tmp : CStr) (hw : ∀ c ∈ w, word_char c)
    (hrest : at_word_end rest) (hlen : (tmp ++ w).length ≤ TMP_SIZE - 2) :
    scan_token false false tmp (w ++ rest) = (tmp ++ w, rest) := by
  induction w generalizing tmp with
  | nil =>
    rcases hrest with rfl | ⟨c, q, rfl, hc⟩
    · simp [scan_token]
    · have hq : c ≠ '"' := by rintro rfl; simp [is_tok_space] at hc
      have hq2 : c ≠ '\'' := by rintro rfl; simp [is_tok_space] at hc
      unfold scan_token
      simp [hc, hq, hq2]
  | cons c w ih =>
    obtain ⟨h1, h2, h3, h4⟩ := hw c (List.mem_cons_self _ _)
    have hw2 : ∀ d ∈ w, word_char d := fun d hd => hw d (List.mem_cons_of_mem _ hd)
    simp only [List.cons_append]
    unfold scan_token
    simp only [h1, h2, h3, h4, Bool.not_false, Bool.true_and, beq_iff_eq, if_false,
      Bool.and_false, Bool.false_eq_true]
    by_cases hfull : (tmp ++ [c]).length ≥ TMP_SIZE - 2
    · have hwnil : w = [] := by
        simp only [List.length_append, List.length_cons, List.length_nil] at hfull hlen
        apply List.eq_nil_of_length_eq_zero; omega
      subst hwnil
      simp only [hfull, if_true, List.nil_append]
    · simp only [hfull, if_false]
      have := ih (tmp ++ [c]) hw2 (by simpa using hlen)
      simpa using this

theorem tokenize_loop_space (n : Nat) (c : Char) (p : CStr) (hc : is_tok_space c = true) :
    tokenize_loop n (c :: p) = tokenize_loop n p := by
  cases n with
  | zero => rfl
  | succ n => simp only [tokenize_loop, skip_spaces, hc, if_true]

theorem tokenize_loop_nil (n : Nat) : tokenize_loop n [] = [] := by
  cases n <;> rfl

theorem tokenize_loop_word (n : Nat) (w rest : CStr) (hne : w ≠ [])
    (hw : ∀ c ∈ w, word_char c) (hrest : at_word_end rest) (hlen : w.length ≤ TMP_SIZE - 2) :
    tokenize_loop (n + 1) (w ++ rest) = w :: tokenize_loop n rest := by
  cases w with
  | nil => exact absurd rfl hne
  | cons c w =>
    have hc := (hw c (List.mem_cons_self _ _)).1
    have hskip : skip_spaces ((c :: w) ++ rest) = c :: (w ++ rest) := by
      simp [skip_spaces, hc]
    have hscan := scan_token_word (c :: w) rest [] hw hrest (by simpa using hlen)
    simp only [List.nil_append, List.cons_append] at hscan
    simp only [tokenize_loop, hskip, hscan]

theorem preprocess_pipes_loop_plain (w p : CStr) (hw : ∀ c ∈ w, plain_char c = true) :
    preprocess_pipes_loop false false (w ++ p) = w ++ preprocess_pipes_loop false false p := by
  induction w with
  | nil => rfl
  | cons c w ih =>
    obtain ⟨h1, h2, -, h4, -, -⟩ := plain_char_ne (hw c (List.mem_cons_self _ _))
    have ih2 := ih fun d hd => hw d (List.mem_cons_of_mem _ hd)
    simp [preprocess_pipes_loop, h1, h2, h4, ih2]

theorem preprocess_pipes_loop_space (c : Char) (p : CStr) (hc : is_tok_space c = true) :
    preprocess_pipes_loop false false (c :: p) = c :: preprocess_pipes_loop false false p := by
  have h1 : c ≠ '\'' := by rintro rfl; simp [is_tok_space] at hc
  have h2 : c ≠ '"' := by rintro rfl; simp [is_tok_space] at hc
  have h3 : c ≠ '|' := by rintro rfl; simp [is_tok_space] at hc
  simp [preprocess_pipes_loop, h1, h2, h3]

theorem preprocess_pipes_loop_pipe (p : CStr) :
    preprocess_pipes_loop false false ('|' :: p)
      = ' ' :: '|' :: ' ' :: preprocess_pipes_loop false false p := by
  simp [preprocess_pipes_loop]

theorem at_word_end_preprocess (p : CStr) (hp : after_word p) :
    at_word_end (preprocess_pipes_loop false false p) := by
  rcases hp with rfl | ⟨c, q, rfl, hc | rfl⟩
  · left; rfl
  · right; exact ⟨c, _, preprocess_pipes_loop_space c q hc, hc⟩
  · right; exact ⟨' ', _, preprocess_pipes_loop_pipe q, by decide⟩

theorem dropWhile_head_false (f : Char → Bool) (l : CStr) (d : Char) (q : CStr)
    (h : l.dropWhile f = d :: q) : f d = false := by
  induction l with
  | nil => simp at h
  | cons c l ih =>
    rw [List.dropWhile_cons] at h
    by_cases hc : f c = true
    · rw [if_pos hc] at h; exact ih h
    · rw [if_neg hc] at h
      have := (List.cons.inj h).1
      subst this
      simpa using hc

/-- Induction over a plain line: the empty line, a leading separator, a
leading `|`, or a leading word followed by the rest. -/
theorem plain_line_induction (P : CStr → Prop) (hnil : P [])
    (hspace : ∀ c p, is_tok_space c = true → P p → P (c :: p))
    (hpipe : ∀ p, P p → P ('|' :: p))
    (hword : ∀ w p, plain_word w → after_word p → P p → P (w ++ p))
    (line : CStr) (hline : plain_line line) : P line := by
  suffices hall : ∀ n : Nat, ∀ l : CStr, l.length = n → plain_line l → P l from
    hall line.length line rfl hline
  intro n
  induction n using Nat.strong_induction_on with
  | _ n ih =>
    intro line hn hline
    cases line with
    | nil => exact hnil
    | cons c p =>
      have hp : plain_line p := fun d hd => hline d (List.mem_cons_of_mem _ hd)
      rcases hline c (List.mem_cons_self _ _) with hc | hc | rfl
      · -- a word starts here
        set w := (c :: p).takeWhile plain_char with hwdef
        set q := (c :: p).dropWhile plain_char with hqdef
        have hsplit : w ++ q = c :: p := List.takeWhile_append_dropWhile _ _
        have hwne : w ≠ [] := by
          rw [hwdef, List.takeWhile_cons, if_pos hc]; simp
        have hwplain : ∀ d ∈ w, plain_char d = true := fun d hd => List.mem_takeWhile_imp hd
        have hqline : plain_line q := fun d hd =>
          hline d (by rw [← hsplit]; exact List.mem_append_right _ hd)
        have hq : after_word q := by
          cases hq0 : q with
          | nil => left; rfl
          | cons d q2 =>
            right
            refine ⟨d, q2, rfl, ?_⟩
            have hd : plain_char d = false :=
              dropWhile_head_false plain_char (c :: p) d q2 (by rw [← hqdef, hq0])
            rcases hqline d (by rw [hq0]; exact List.mem_cons_self _ _) with h | h | h
            · rw [hd] at h; exact absurd h (by decide)
            · left; exact h
            · right; exact h
        have hlt : q.length < n := by
          have := congrArg List.length hsplit
          have hwpos : 0 < w.length := List.length_pos.2 hwne
          simp only [List.length_append] at this
          omega
        rw [← hsplit]
        exact hword w q ⟨hwne, hwplain⟩ hq (ih q.length hlt q rfl hqline)
      · exact hspace c p hc (ih p.length (by simp at hn; omega) p rfl hp)
      · exact hpipe p (ih p.length (by simp at hn; omega) p rfl hp)

theorem splitOnP_append_left (f : Char → Bool) (w p : CStr) (hw : ∀ c ∈ w, f c = false) :
    (w ++ p).splitOnP f = (p.splitOnP f).modifyHead fun s => w ++ s := by
  induction w with
  | nil =>
    show p.splitOnP f = (p.splitOnP f).modifyHead fun s => [] ++ s
    cases h : p.splitOnP f with
    | nil => rfl
    | cons a l => simp
  | cons c w ih =>
    have hc := hw c (List.mem_cons_self _ _)
    rw [List.cons_append, List.splitOnP_cons, ih fun d hd => hw d (List.mem_cons_of_mem _ hd)]
    simp only [hc, Bool.false_eq_true, if_false, List.modifyHead_modifyHead]
    rfl

theorem words_spec_nil : words_spec [] = [] := by
  simp [words_spec, List.splitOnP_nil]

theorem words_spec_space (c : Char) (seg : CStr) (hc : is_tok_space c = true) :
    words_spec (c :: seg) = words_spec seg := by
  simp [words_spec, List.splitOnP_cons, hc]

theorem words_spec_word (w seg : CStr) (hne : w ≠ [])
    (hw : ∀ c ∈ w, is_tok_space c = false) (hseg : at_word_end seg) :
    words_spec (w ++ seg) = w :: words_spec seg := by
  have hwe : w.isEmpty = false := by cases w <;> simp at hne ⊢
  unfold words_spec
  rw [splitOnP_append_left _ w seg hw]
  rcases hseg with rfl | ⟨c, q, rfl, hc⟩
  · simp [List.splitOnP_nil, hwe]
  · simp [List.splitOnP_cons, hc, hwe]

theorem stages_spec_nil : stages_spec [] = [[]] := by
  simp [stages_spec, List.splitOnP_nil, words_spec_nil]

theorem stages_spec_ne_nil (line : CStr) : stages_spec line ≠ [] := by
  simp [stages_spec, List.splitOnP_ne_nil]

theorem stages_spec_pipe (p : CStr) : stages_spec ('|' :: p) = [] :: stages_spec p := by
  simp [stages_spec, List.splitOnP_cons, words_spec_nil]

theorem stages_spec_space (c : Char) (p : CStr) (hc : is_tok_space c = true) :
    stages_spec (c :: p) = stages_spec p := by
  have h3 : c ≠ '|' := by rintro rfl; simp [is_tok_space] at hc
  unfold stages_spec
  rw [List.splitOnP_cons]
  simp only [beq_iff_eq, h3, if_false]
  cases h : List.splitOnP (fun c => c == '|') p with
  | nil => rfl
  | cons a l => simp [words_spec_space c a hc]

theorem head_segment_at_word_end (p : CStr) (hp : after_word p) :
    ∃ seg tl, p.splitOnP (fun c => c == '|') = seg :: tl ∧ at_word_end seg := by
  rcases hp with rfl | ⟨c, q, rfl, hc | rfl⟩
  · exact ⟨[], [], by simp [List.splitOnP_nil], Or.inl rfl⟩
  · have h3 : c ≠ '|' := by rintro rfl; simp [is_tok_space] at hc
    rw [List.splitOnP_cons]
    simp only [beq_iff_eq, h3, if_false]
    cases h : List.splitOnP (fun c => c == '|') q with
    | nil => exact absurd h (List.splitOnP_ne_nil _ _)
    | cons a l => exact ⟨c :: a, l, by simp, Or.inr ⟨c, a, rfl, hc⟩⟩
  · exact ⟨[], q.splitOnP fun c => c == '|', by rw [List.splitOnP_cons]; simp, Or.inl rfl⟩

theorem stages_spec_word (w p : CStr) (hw : plain_word w) (hp : after_word p) :
    stages_spec (w ++ p) = (stages_spec p).modifyHead fun s => w :: s := by
  obtain ⟨seg, tl, hsplit, hseg⟩ := head_segment_at_word_end p hp
  have hnopipe : ∀ c ∈ w, (fun c => c == '|') c = false := fun c hc => by
    simpa using (plain_char_ne (hw.2 c hc)).2.2.2.1
  have hnospace : ∀ c ∈ w, is_tok_space c = false := fun c hc =>
    plain_char_not_tok_space (hw.2 c hc)
  unfold stages_spec
  rw [splitOnP_append_left _ w p hnopipe, hsplit]
  simp [words_spec_word w seg hw.1 hnospace hseg]

theorem stages_spec_length (line : CStr) :
    (stages_spec line).length = line.count '|' + 1 := by
  unfold stages_spec
  rw [List.length_map]
  induction line with
  | nil => simp [List.splitOnP_nil]
  | cons c p ih =>
    rw [List.splitOnP_cons]
    by_cases hc : c = '|'
    · subst hc; simp [ih]
    · have hc2 : ¬ '|' = c := fun h => hc h.symm
      simp [hc, ih, List.count_cons, hc2]

theorem join_stages_modifyHead (w : CStr) (S : List (List CStr)) (hS : S ≠ []) :
    join_stages (S.modifyHead fun s => w :: s) = w :: join_stages S := by
  match S, hS with
  | [s], _ => rfl
  | s :: t :: r, _ => rfl

theorem join_stages_nil_cons (S : List (List CStr)) (hS : S ≠ []) :
    join_stages ([] :: S) = ['|'] :: join_stages S := by
  match S, hS with
  | s :: r, _ => rfl

theorem line_tokens_nil : line_tokens [] = [] := by
  rw [line_tokens, stages_spec_nil]; rfl

theorem line_tokens_space (c : Char) (p : CStr) (hc : is_tok_space c = true) :
    line_tokens (c :: p) = line_tokens p := by
  rw [line_tokens, stages_spec_space c p hc]; rfl

theorem line_tokens_pipe (p : CStr) : line_tokens ('|' :: p) = ['|'] :: line_tokens p := by
  rw [line_tokens, stages_spec_pipe, join_stages_nil_cons _ (stages_spec_ne_nil p)]; rfl

theorem line_tokens_word (w p : CStr) (hw : plain_word w) (hp : after_word p) :
    line_tokens (w ++ p) = w :: line_tokens p := by
  rw [line_tokens, stages_spec_word w p hw hp,
    join_stages_modifyHead _ _ (stages_spec_ne_nil p)]; rfl

theorem line_tokens_plain (line : CStr) (hline : plain_line line) :
    ∀ t ∈ line_tokens line, plain_word t ∨ t = ['|'] := by
  refine plain_line_induction (fun l => ∀ t ∈ line_tokens l, plain_word t ∨ t = ['|'])
    ?_ ?_ ?_ ?_ line hline
  · simp [line_tokens_nil]
  · intro c p hc ih; rwa [line_tokens_space c p hc]
  · intro p ih t ht
    rw [line_tokens_pipe] at ht
    rcases List.mem_cons.1 ht with rfl | ht
    · right; rfl
    · exact ih t ht
  · intro w p hw hp ih t ht
    rw [line_tokens_word w p hw hp] at ht
    rcases List.mem_cons.1 ht with rfl | ht
    · left; exact hw
    · exact ih t ht

theorem tokenize_plain_line (line : CStr) (hline : plain_line line) :
    ∀ n, (∀ t ∈ line_tokens line, t.length ≤ TMP_SIZE - 2) →
      tokenize_loop n (preprocess_pipes_loop false false line) = (line_tokens line).take n := by
  refine plain_line_induction
    (fun l => ∀ n, (∀ t ∈ line_tokens l, t.length ≤ TMP_SIZE - 2) →
      tokenize_loop n (preprocess_pipes_loop false false l) = (line_tokens l).take n)
    ?_ ?_ ?_ ?_ line hline
  · intro n _
    simp [preprocess_pipes_loop, tokenize_loop_nil, line_tokens_nil]
  · intro c p hc ih n hlen
    rw [line_tokens_space c p hc] at hlen ⊢
    rw [preprocess_pipes_loop_space c p hc, tokenize_loop_space n c _ hc]
    exact ih n hlen
  · intro p ih n hlen
    rw [line_tokens_pipe] at hlen ⊢
    rw [preprocess_pipes_loop_pipe, tokenize_loop_space n ' ' _ (by decide)]
    cases n with
    | zero => rfl
    | succ n =>
      have hend : at_word_end (' ' :: preprocess_pipes_loop false false p) :=
        Or.inr ⟨' ', _, rfl, by decide⟩
      have := tokenize_loop_word n ['|'] (' ' :: preprocess_pipes_loop false false p)
        (by simp) (by simp [word_char, is_tok_space]) hend (by simp [TMP_SIZE])
      simp only [List.singleton_append] at this
      rw [this, tokenize_loop_space n ' ' _ (by decide), List.take_succ_cons,
        ih n fun t ht => hlen t (List.mem_cons_of_mem _ ht)]
  · intro w p hw hp ih n hlen
    rw [line_tokens_word w p hw hp] at hlen ⊢
    rw [preprocess_pipes_loop_plain w p hw.2]
    cases n with
    | zero => rfl
    | succ n =>
      rw [tokenize_loop_word n w _ hw.1 (fun c hc => plain_char_word_char (hw.2 c hc))
        (at_word_end_preprocess p hp) (hlen w (List.mem_cons_self _ _)), List.take_succ_cons,
        ih n fun t ht => hlen t (List.mem_cons_of_mem _ ht)]

theorem parse_loop_plain_word (m : Nat) (w : CStr) (rest : List CStr) (done : List Cmd)
    (cur : Cmd) (hw : plain_word w) :
    parse_loop m (w :: rest) done cur
      = parse_loop m rest done { cur with argv := cur.argv ++ [w] } := by
  obtain ⟨hne, hall⟩ := hw
  cases w with
  | nil => exact absurd rfl hne
  | cons c t =>
    obtain ⟨-, -, -, h4, h5, h6⟩ := plain_char_ne (hall c (List.mem_cons_self _ _))
    have h5 : ¬ c = '<' := h5
    have h6 : ¬ c = '>' := h6
    have h4 : ¬ c = '|' := h4
    conv_lhs => unfold parse_loop
    simp [h4, h5, h6]

theorem parse_loop_pipe (m : Nat) (rest : List CStr) (done : List Cmd) (cur : Cmd)
    (hlen : done.length + 1 < m) :
    parse_loop m (['|'] :: rest) done cur = parse_loop m rest (done ++ [cur]) Cmd.empty := by
  conv_lhs => unfold parse_loop
  simp only [if_true, ge_iff_le]
  rw [if_neg (by omega)]

theorem parse_plain_line (m : Nat) (line : CStr) (hline : plain_line line) :
    ∀ (done : List Cmd) (cur : Cmd), done.length + (stages_spec line).length ≤ m →
      parse_loop m (line_tokens line) done cur
        = some (done ++ { cur with argv := cur.argv ++ (stages_spec line).headD [] } ::
            (stages_spec line).tail.map Cmd.plain) := by
  refine plain_line_induction
    (fun l => ∀ (done : List Cmd) (cur : Cmd), done.length + (stages_spec l).length ≤ m →
      parse_loop m (line_tokens l) done cur
        = some (done ++ { cur with argv := cur.argv ++ (stages_spec l).headD [] } ::
            (stages_spec l).tail.map Cmd.plain))
    ?_ ?_ ?_ ?_ line hline
  · intro done cur _
    rw [line_tokens_nil, stages_spec_nil]
    simp [parse_loop]
  · intro c p hc ih done cur hlen
    rw [line_tokens_space c p hc, stages_spec_space c p hc] at *
    exact ih done cur hlen
  · intro p ih done cur hlen
    rw [stages_spec_pipe] at hlen ⊢
    rw [line_tokens_pipe]
    have hpos : 0 < (stages_spec p).length := List.length_pos.2 (stages_spec_ne_nil p)
    simp only [List.length_cons] at hlen
    rw [parse_loop_pipe m _ done cur (by omega), ih (done ++ [cur]) Cmd.empty (by simp; omega)]
    cases h : stages_spec p with
    | nil => exact absurd h (stages_spec_ne_nil p)
    | cons a l => simp [Cmd.empty, Cmd.plain]
  · intro w p hw hp ih done cur hlen
    rw [stages_spec_word w p hw hp] at hlen ⊢
    rw [line_tokens_word w p hw hp, parse_loop_plain_word m w _ done cur hw]
    simp only [List.length_modifyHead] at hlen
    rw [ih done _ hlen]
    cases h : stages_spec p with
    | nil => exact absurd h (stages_spec_ne_nil p)
    | cons a l => simp

theorem store_token_some (newt : List CStr) (cap : Nat) (tk : CStr) (h : newt.length < cap) :
    store_token newt cap tk = some (newt ++ [tk]) := by
  unfold store_token
  rw [if_pos h]

theorem store_token_none (newt : List CStr) (cap : Nat) (tk : CStr) (h : cap ≤ newt.length) :
    store_token newt cap tk = none := by
  unfold store_token
  rw [if_neg (by omega)]

theorem store_token_eq (newt : List CStr) (cap : Nat) (tk : CStr) (n2 : List CStr)
    (h : store_token newt cap tk = some n2) : n2 = newt ++ [tk] := by
  unfold store_token at h
  by_cases hc : newt.length < cap
  · rw [if_pos hc] at h
    exact (Option.some.inj h).symm
  · rw [if_neg hc] at h
    exact absurd h (by simp)

/-- The loop over the matches never leaves the block (which it doubles in
time) when it starts inside a block of at least two pointers; it stores the
matches in order, and after a store it leaves a free slot. -/
theorem store_matches_ok (ms : List CStr) :
    ∀ (newt : List CStr) (cap : Nat), newt.length ≤ cap → 2 ≤ cap →
      ∃ cap2, store_matches ms newt cap = some (newt ++ ms, cap2) ∧ cap ≤ cap2 ∧
        (newt ++ ms).length ≤ cap2 ∧ (ms ≠ [] → (newt ++ ms).length < cap2) := by
  induction ms with
  | nil =>
    intro newt cap h1 _
    exact ⟨cap, by simp [store_matches], Nat.le_refl _, by simpa using h1, fun h => absurd rfl h⟩
  | cons m ms ih =>
    intro newt cap h1 h2
    by_cases hd : newt.length + 1 ≥ cap
    · have hlt : newt.length < cap * 2 := by omega
      obtain ⟨c2, e, hc, hl, hn⟩ := ih (newt ++ [m]) (cap * 2)
        (by simp only [List.length_append, List.length_singleton]; omega) (by omega)
      refine ⟨c2, ?_, by omega, ?_, ?_⟩
      · simp only [store_matches, if_pos hd, store_token_some newt (cap * 2) m hlt]
        rw [e, List.append_assoc, List.singleton_append]
      · rw [List.append_assoc, List.singleton_append] at hl
        exact hl
      · intro _
        cases ms with
        | nil =>
          simp only [store_matches, Option.some.injEq, Prod.mk.injEq] at e
          simp only [List.length_append, List.length_singleton]
          omega
        | cons a l =>
          have := hn (List.cons_ne_nil _ _)
          rw [List.append_assoc, List.singleton_append] at this
          exact this
    · have hlt : newt.length < cap := by omega
      obtain ⟨c2, e, hc, hl, hn⟩ := ih (newt ++ [m]) cap
        (by simp only [List.length_append, List.length_singleton]; omega) h2
      refine ⟨c2, ?_, hc, ?_, ?_⟩
      · simp only [store_matches, if_neg hd, store_token_some newt cap m hlt]
        rw [e, List.append_assoc, List.singleton_append]
      · rw [List.append_assoc, List.singleton_append] at hl
        exact hl
      · intro _
        cases ms with
        | nil =>
          simp only [store_matches, Option.some.injEq, Prod.mk.injEq] at e
          simp only [List.length_append, List.length_singleton]
          omega
        | cons a l =>
          have := hn (List.cons_ne_nil _ _)
          rw [List.append_assoc, List.singleton_append] at this
          exact this

/-- What the loop over the matches returns is the array followed by the
matches. -/
theorem store_matches_sound (ms : List CStr) :
    ∀ (newt : List CStr) (cap : Nat) (r : List CStr × Nat),
      store_matches ms newt cap = some r → r.1 = newt ++ ms := by
  induction ms with
  | nil =>
    intro newt cap r h
    simp only [store_matches, Option.some.injEq] at h
    rw [← h, List.append_nil]
  | cons m ms ih =>
    intro newt cap r h
    simp only [store_matches] at h
    cases hs : store_token newt (if newt.length + 1 ≥ cap then cap * 2 else cap) m with
    | none => rw [hs] at h; exact absurd h (by simp)
    | some n2 =>
      rw [hs] at h
      have hn2 : n2 = newt ++ [m] := store_token_eq _ _ _ _ hs
      rw [ih _ _ _ h, hn2, List.append_assoc, List.singleton_append]

/-- Whenever the expansion loop stays inside its block, the array it returns is
the array it started with followed by `expanded_tokens`. -/
theorem expand_loop_sound (fs : CStr → Option (List CStr)) (tokens : List CStr) :
    ∀ (newt : List CStr) (cap : Nat) (out : List CStr),
      expand_loop fs tokens newt cap = some out → out = newt ++ expanded_tokens fs tokens := by
  induction tokens with
  | nil =>
    intro newt cap out h
    simp only [expand_loop, Option.some.injEq] at h
    rw [← h, expanded_tokens, List.append_nil]
  | cons tk rest ih =>
    intro newt cap out h
    have hst : ∀ n2, store_token newt cap tk = some n2 → n2 = newt ++ [tk] :=
      fun n2 hs => store_token_eq _ _ _ _ hs
    unfold expand_loop at h
    unfold expanded_tokens
    split at h
    · rename_i hc
      rw [if_pos hc]
      cases hs : store_token newt cap tk with
      | none => rw [hs] at h; exact absurd h (by simp)
      | some n2 =>
        rw [hs] at h
        rw [ih _ _ _ h, hst n2 hs, List.append_assoc]
    · rename_i hc
      rw [if_neg hc]
      split at h
      · rename_i hg
        rw [if_pos hg]
        cases hs : store_matches (glob fs tk).2 newt cap with
        | none => rw [hs] at h; exact absurd h (by simp)
        | some r =>
          rw [hs] at h
          rw [ih _ _ _ h, store_matches_sound _ _ _ _ hs, List.append_assoc]
      · rename_i hg
        rw [if_neg hg]
        cases hs : store_token newt cap tk with
        | none => rw [hs] at h; exact absurd h (by simp)
        | some n2 =>
          rw [hs] at h
          rw [ih _ _ _ h, hst n2 hs, List.append_assoc]

/-- Whenever `expand_tokens_with_glob` stays inside its block, it returns
`expanded_tokens`. -/
theorem expand_tokens_sound (fs : CStr → Option (List CStr)) (tokens out : List CStr)
    (h : expand_tokens_with_glob fs tokens = some out) : out = expanded_tokens fs tokens := by
  have := expand_loop_sound fs tokens [] _ out h
  rw [List.nil_append] at this
  exact this

/-- A run of tokens that are stored as they are (operators, tokens without a
glob character, tokens for which `glob` fails) stays inside the block when the
block has room for them. -/
theorem expand_loop_kept (fs : CStr → Option (List CStr)) (tokens : List CStr) :
    ∀ (newt : List CStr) (cap : Nat), newt.length + tokens.length ≤ cap →
      (∀ t ∈ tokens, is_operator_token t = true ∨ contains_glob_chars t = false ∨
        (glob fs t).1 ≠ 0) →
      expand_loop fs tokens newt cap = some (newt ++ tokens) := by
  induction tokens with
  | nil =>
    intro newt cap _ _
    simp [expand_loop]
  | cons t rest ih =>
    intro newt cap hcap h
    have hcap2 : newt.length + (rest.length + 1) ≤ cap := hcap
    have hlt : newt.length < cap := by omega
    have hlen : (newt ++ [t]).length + rest.length ≤ cap := by
      rw [List.length_append, List.length_singleton]
      omega
    have hrest := ih (newt ++ [t]) cap hlen (fun u hu => h u (List.mem_cons_of_mem _ hu))
    rw [List.append_assoc, List.singleton_append] at hrest
    unfold expand_loop
    rw [store_token_some newt cap t hlt]
    rcases h t (List.mem_cons_self _ _) with h1 | h1 | h1
    · rw [if_pos (by simp [h1])]
      exact hrest
    · rw [if_pos (by simp [h1])]
      exact hrest
    · by_cases hc : (is_operator_token t || !contains_glob_chars t) = true
      · rw [if_pos hc]
        exact hrest
      · rw [if_neg hc, if_neg h1]
        exact hrest

theorem expand_tokens_no_glob (fs : CStr → Option (List CStr)) (tokens : List CStr)
    (h : ∀ t ∈ tokens, is_operator_token t = true ∨ contains_glob_chars t = false) :
    expand_tokens_with_glob fs tokens = some tokens := by
  unfold expand_tokens_with_glob
  have := expand_loop_kept fs tokens [] (tokens.length * 4 + 16)
    (by simp only [List.length_nil]; omega)
    (fun t ht => (h t ht).elim Or.inl fun h2 => Or.inr (Or.inl h2))
  rw [List.nil_append] at this
  exact this

/-- The parsing path on a line whose tokens and whose expansion are known. -/
theorem cmd_exec_parse_of_tokens (fs : CStr → Option (List CStr)) (cmdline : CStr)
    (tokens out : List CStr)
    (htok : tokenize_quoted (preprocess_pipes cmdline) 512 = tokens) (hne : tokens ≠ [])
    (hexp : expand_tokens_with_glob fs tokens = some out) (hne2 : out ≠ []) :
    cmd_exec_parse fs cmdline = some (parse_tokens_into_cmds out 64) := by
  have h1 : ¬ tokens.length ≤ 0 := by
    have := List.length_pos.2 hne
    omega
  have h2 : ¬ out.length ≤ 0 := by
    have := List.length_pos.2 hne2
    omega
  unfold cmd_exec_parse
  simp only [htok, hexp, if_neg h1, if_neg h2]

theorem plain_word_no_glob (w : CStr) (hw : plain_word w) : contains_glob_chars w = false := by
  unfold contains_glob_chars
  rw [List.any_eq_false]
  intro c hc
  obtain ⟨h1, h2, h3⟩ := plain_char_no_glob (hw.2 c hc)
  simp [h1, h2, h3]

/-- C1 (amended): for every line made of plain words, separators and `k` unquoted
`|` (`k <= 63`, no redirection, no glob characters) that has at most 511 tokens
(words and `|`) and no word longer than 8190 bytes, `preprocess_pipes`, then
`tokenize_quoted` (whose tokens glob expansion leaves unchanged), then
`parse_tokens_into_cmds` yields exactly `k + 1` stages, and the argv of stage
`j` is the list of the words between the `j`-th and the `(j+1)`-th `|`. -/
theorem parse_splits_at_pipes (fs : CStr → Option (List CStr)) (line : CStr)
    (hline : plain_line line) (hk : line.count '|' ≤ 63)
    (hcount : (line_tokens line).length ≤ 511)
    (hlen : ∀ t ∈ line_tokens line, t.length ≤ TMP_SIZE - 2) :
    expand_tokens_with_glob fs (tokenize_quoted (preprocess_pipes line) 512)
        = some (tokenize_quoted (preprocess_pipes line) 512) ∧
      parse_tokens_into_cmds (tokenize_quoted (preprocess_pipes line) 512) 64
        = some ((stages_spec line).map Cmd.plain) ∧
      (stages_spec line).length = line.count '|' + 1 := by
  have htok : tokenize_quoted (preprocess_pipes line) 512 = line_tokens line := by
    unfold tokenize_quoted preprocess_pipes
    rw [tokenize_plain_line line hline _ hlen]
    exact List.take_of_length_le hcount
  rw [htok]
  refine ⟨?_, ?_, stages_spec_length line⟩
  · apply expand_tokens_no_glob
    intro t ht
    rcases line_tokens_plain line hline t ht with h | rfl
    · right; exact plain_word_no_glob t h
    · left; rfl
  · unfold parse_tokens_into_cmds
    rw [if_neg (by decide), parse_plain_line 64 line hline [] Cmd.empty
      (by rw [stages_spec_length]; simp; omega)]
    cases h : stages_spec line with
    | nil => exact absurd h (stages_spec_ne_nil line)
    | cons a l => simp [Cmd.empty, Cmd.plain]

theorem parse_splits_at_pipes_witness :
    parse_tokens_into_cmds (tokenize_quoted (preprocess_pipes "echo a | wc -l".toList) 512) 64
      = some [Cmd.plain ["echo".toList, "a".toList], Cmd.plain ["wc".toList, "-l".toList]] :=
  (parse_splits_at_pipes (fun _ => none) "echo a | wc -l".toList (by decide) (by decide)
    (by decide) (by decide)).2.1

theorem plain_word_a : plain_word ['a'] := by decide

theorem many_words_succ (n : Nat) : many_words (n + 1) = ['a'] ++ (' ' :: many_words n) := rfl

theorem plain_line_many_words (n : Nat) : plain_line (many_words n) := by
  induction n with
  | zero => intro c hc; simp [many_words] at hc
  | succ n ih =>
    intro c hc
    simp only [many_words, List.mem_cons] at hc
    rcases hc with rfl | rfl | hc
    · left; decide
    · right; left; decide
    · exact ih c hc

theorem stages_spec_many_words (n : Nat) :
    stages_spec (many_words n) = [List.replicate n ['a']] := by
  induction n with
  | zero => simp [many_words, stages_spec_nil]
  | succ n ih =>
    rw [many_words_succ, stages_spec_word _ _ plain_word_a (Or.inr ⟨' ', _, rfl, Or.inl (by decide)⟩),
      stages_spec_space _ _ (by decide), ih]
    rfl

theorem line_tokens_many_words (n : Nat) : line_tokens (many_words n) = List.replicate n ['a'] := by
  rw [line_tokens, stages_spec_many_words]; rfl

theorem count_pipe_many_words (n : Nat) : (many_words n).count '|' = 0 := by
  induction n with
  | zero => rfl
  | succ n ih => simp [many_words, List.count_cons, ih]

/-- C1 (counterexample): a line of 512 one-letter words and no `|` is parsed into
one stage that holds only the first 511 words, because `tokenize_quoted`
stops at `max_args - 1 = 511` tokens. -/
theorem parse_drops_words_beyond_511 :
    plain_line (many_words 512) ∧ (many_words 512).count '|' ≤ 63 ∧
      parse_tokens_into_cmds (tokenize_quoted (preprocess_pipes (many_words 512)) 512) 64
        ≠ some ((stages_spec (many_words 512)).map Cmd.plain) := by
  refine ⟨plain_line_many_words 512, by rw [count_pipe_many_words]; omega, ?_⟩
  have htok : tokenize_quoted (preprocess_pipes (many_words 512)) 512
      = line_tokens (many_words 511) := by
    unfold tokenize_quoted preprocess_pipes
    rw [tokenize_plain_line _ (plain_line_many_words 512) _ (by
      rw [line_tokens_many_words]
      intro t ht
      rw [List.eq_of_mem_replicate ht]
      simp [TMP_SIZE])]
    rw [line_tokens_many_words, line_tokens_many_words, List.take_replicate]
    congr 1
  rw [htok]
  unfold parse_tokens_into_cmds
  rw [if_neg (by decide), parse_plain_line 64 _ (plain_line_many_words 511) [] Cmd.empty
      (by rw [stages_spec_many_words]; show 0 + 1 ≤ 64; omega)]
  rw [stages_spec_many_words, stages_spec_many_words]
  intro h
  have h1 : Cmd.plain (List.replicate 511 ['a']) = Cmd.plain (List.replicate 512 ['a']) :=
    (List.cons.inj (Option.some.inj h)).1
  have h2 : (List.replicate 511 ['a']).length = (List.replicate 512 ['a']).length :=
    congrArg (fun c => c.argv.length) h1
  rw [List.length_replicate, List.length_replicate] at h2
  omega

theorem preprocess_pipes_loop_id (s : CStr) (h : ∀ c ∈ s, c ≠ '\'' ∧ c ≠ '"' ∧ c ≠ '|') :
    preprocess_pipes_loop false false s = s := by
  induction s with
  | nil => rfl
  | cons c s ih =>
    obtain ⟨h1, h2, h3⟩ := h c (List.mem_cons_self _ _)
    have ih2 := ih fun d hd => h d (List.mem_cons_of_mem _ hd)
    simp [preprocess_pipes_loop, h1, h2, h3, ih2]

theorem plain_word_no_quote_pipe (w : CStr) (hw : plain_word w) :
    ∀ c ∈ w, c ≠ '\'' ∧ c ≠ '"' ∧ c ≠ '|' := fun c hc =>
  ⟨(plain_char_ne (hw.2 c hc)).1, (plain_char_ne (hw.2 c hc)).2.1,
    (plain_char_ne (hw.2 c hc)).2.2.2.1⟩

theorem dropWhile_eq_self_of_head (f : Char → Bool) (c : Char) (t : CStr) (h : f c = false) :
    (c :: t).dropWhile f = c :: t := by
  simp [List.dropWhile_cons, h]

theorem sanitize_filename_plain (f : CStr) (hf : plain_word f) : sanitize_filename f = f := by
  obtain ⟨hne, hall⟩ := hf
  unfold sanitize_filename
  have h1 : f.dropWhile isspace = f := by
    cases f with
    | nil => rfl
    | cons c t =>
      exact dropWhile_eq_self_of_head _ c t (plain_char_not_isspace (hall c (List.mem_cons_self _ _)))
  rw [h1]
  have h2 : (f.reverse.dropWhile fun c => isspace c || c == '\r') = f.reverse := by
    cases hr : f.reverse with
    | nil => rfl
    | cons c t =>
      have hc : c ∈ f := by
        have : c ∈ f.reverse := by rw [hr]; exact List.mem_cons_self _ _
        exact List.mem_reverse.1 this
      have hsp := plain_char_not_isspace (hall c hc)
      have hcr : c ≠ '\r' := by
        rintro rfl
        simp [isspace] at hsp
      exact dropWhile_eq_self_of_head _ c t (by simp [hsp, hcr])
  rw [h2, List.reverse_reverse]

theorem word_char_of_plain_word (w : CStr) (hw : plain_word w) : ∀ c ∈ w, word_char c :=
  fun c hc => plain_char_word_char (hw.2 c hc)

theorem tokenize_redirect_line (c op f : CStr) (hc : plain_word c) (hf : plain_word f)
    (hop : op ≠ [] ∧ ∀ x ∈ op, x = '>')
    (hclen : c.length ≤ TMP_SIZE - 2) (hflen : f.length ≤ TMP_SIZE - 2)
    (hoplen : op.length ≤ 2) :
    tokenize_quoted (preprocess_pipes (c ++ ' ' :: (op ++ ' ' :: f))) 512 = [c, op, f] := by
  have hopw : ∀ x ∈ op, word_char x := fun x hx => by
    rw [hop.2 x hx]; simp [word_char, is_tok_space]
  have hpre : preprocess_pipes (c ++ ' ' :: (op ++ ' ' :: f)) = c ++ ' ' :: (op ++ ' ' :: f) := by
    apply preprocess_pipes_loop_id
    intro x hx
    simp only [List.mem_append, List.mem_cons] at hx
    rcases hx with hx | rfl | hx | rfl | hx
    · exact plain_word_no_quote_pipe c hc x hx
    · decide
    · rw [hop.2 x hx]; decide
    · decide
    · exact plain_word_no_quote_pipe f hf x hx
  rw [hpre]
  unfold tokenize_quoted
  show tokenize_loop (510 + 1) _ = _
  rw [tokenize_loop_word 510 c _ hc.1 (word_char_of_plain_word c hc)
    (Or.inr ⟨' ', _, rfl, by decide⟩) hclen, tokenize_loop_space _ _ _ (by decide)]
  show _ :: tokenize_loop (509 + 1) _ = _
  rw [tokenize_loop_word 509 op _ hop.1 hopw (Or.inr ⟨' ', _, rfl, by decide⟩)
    (by simp [TMP_SIZE]; omega), tokenize_loop_space _ _ _ (by decide)]
  have hf2 := tokenize_loop_word 508 f [] hf.1 (word_char_of_plain_word f hf) (Or.inl rfl) hflen
  rw [List.append_nil] at hf2
  show _ :: _ :: tokenize_loop (508 + 1) _ = _
  rw [hf2, tokenize_loop_nil]

/-- C2 (amended): for every plain command word `c` and plain filename `f` of at
most 8190 bytes each, parsing `c > f` yields one stage with argv `[c]`, no
input file, output file `f` and `append = false`, and parsing `c >> f` yields
the same stage with `append = true`. -/
theorem parse_output_redirection (fs : CStr → Option (List CStr)) (c f : CStr)
    (hc : plain_word c) (hf : plain_word f)
    (hclen : c.length ≤ TMP_SIZE - 2) (hflen : f.length ≤ TMP_SIZE - 2) :
    cmd_exec_parse fs (c ++ " > ".toList ++ f) = some (some [⟨[c], none, some f, false⟩]) ∧
      cmd_exec_parse fs (c ++ " >> ".toList ++ f)
        = some (some [⟨[c], none, some f, true⟩]) := by
  have hcg := plain_word_no_glob c hc
  have hfg := plain_word_no_glob f hf
  have hparse := parse_loop_plain_word 64 c
  constructor
  · have htok := tokenize_redirect_line c ['>'] f hc hf (by simp) hclen hflen (by simp)
    have hline : c ++ " > ".toList ++ f = c ++ ' ' :: (['>'] ++ ' ' :: f) := by simp
    unfold cmd_exec_parse
    rw [hline, htok]
    have hexp : expand_tokens_with_glob fs [c, ['>'], f] = some [c, ['>'], f] := by
      apply expand_tokens_no_glob
      intro t ht
      simp only [List.mem_cons, List.mem_singleton, List.not_mem_nil, or_false] at ht
      rcases ht with rfl | rfl | rfl
      · right; exact hcg
      · left; rfl
      · right; exact hfg
    simp only [hexp, parse_tokens_into_cmds]
    rw [if_neg (by simp), if_neg (by simp), if_neg (by decide), hparse _ _ _ hc]
    unfold parse_loop
    simp [sanitize_filename_plain f hf, Cmd.empty, parse_loop]
  · have htok := tokenize_redirect_line c ['>', '>'] f hc hf (by simp) hclen hflen (by simp)
    have hline : c ++ " >> ".toList ++ f = c ++ ' ' :: (['>', '>'] ++ ' ' :: f) := by simp
    unfold cmd_exec_parse
    rw [hline, htok]
    have hexp : expand_tokens_with_glob fs [c, ['>', '>'], f] = some [c, ['>', '>'], f] := by
      apply expand_tokens_no_glob
      intro t ht
      simp only [List.mem_cons, List.mem_singleton, List.not_mem_nil, or_false] at ht
      rcases ht with rfl | rfl | rfl
      · right; exact hcg
      · left; rfl
      · right; exact hfg
    simp only [hexp, parse_tokens_into_cmds]
    rw [if_neg (by simp), if_neg (by simp), if_neg (by decide), hparse _ _ _ hc]
    unfold parse_loop
    simp [sanitize_filename_plain f hf, Cmd.empty, parse_loop]

theorem parse_output_redirection_witness :
    cmd_exec_parse (fun _ => none) "cmd > out.txt".toList
        = some (some [⟨["cmd".toList], none, some "out.txt".toList, false⟩]) ∧
      cmd_exec_parse (fun _ => none) "cmd >> out.txt".toList
        = some (some [⟨["cmd".toList], none, some "out.txt".toList, true⟩]) :=
  parse_output_redirection (fun _ => none) "cmd".toList "out.txt".toList
    (by decide) (by decide) (by decide) (by decide)

theorem scan_token_cut (w rest tmp : CStr) (hw : ∀ c ∈ w, word_char c) (hne : w ≠ [])
    (hlen : (tmp ++ w).length = TMP_SIZE - 2) :
    scan_token false false tmp (w ++ rest) = (tmp ++ w, rest) := by
  induction w generalizing tmp with
  | nil => exact absurd rfl hne
  | cons c w ih =>
    obtain ⟨h1, h2, h3, h4⟩ := hw c (List.mem_cons_self _ _)
    have hw2 : ∀ d ∈ w, word_char d := fun d hd => hw d (List.mem_cons_of_mem _ hd)
    simp only [List.cons_append]
    unfold scan_token
    simp only [h1, h2, h3, h4, Bool.not_false, Bool.true_and, beq_iff_eq, if_false,
      Bool.and_false, Bool.false_eq_true]
    by_cases hwnil : w = []
    · subst hwnil
      have hfull : (tmp ++ [c]).length ≥ TMP_SIZE - 2 := by rw [hlen]
      simp only [hfull, if_true, List.nil_append]
    · have hpos : 0 < w.length := List.length_pos.2 hwnil
      have hfull : ¬ (tmp ++ [c]).length ≥ TMP_SIZE - 2 := by
        simp only [List.length_append, List.length_cons, List.length_nil] at hlen ⊢
        omega
      simp only [hfull, if_false]
      have := ih (tmp ++ [c]) hw2 hwnil (by simpa using hlen)
      simpa using this

theorem tokenize_loop_cut (n : Nat) (w rest : CStr) (hne : w ≠ [])
    (hw : ∀ c ∈ w, word_char c) (hlen : w.length = TMP_SIZE - 2) :
    tokenize_loop (n + 1) (w ++ rest) = w :: tokenize_loop n rest := by
  cases w with
  | nil => exact absurd rfl hne
  | cons c w =>
    have hc := (hw c (List.mem_cons_self _ _)).1
    have hskip : skip_spaces ((c :: w) ++ rest) = c :: (w ++ rest) := by
      simp [skip_spaces, hc]
    have hscan := scan_token_cut (c :: w) rest [] hw hne (by simpa using hlen)
    simp only [List.nil_append, List.cons_append] at hscan
    simp only [tokenize_loop, hskip, hscan]

theorem plain_word_long_word (n : Nat) (hn : 0 < n) : plain_word (long_word n) := by
  constructor
  · intro h
    have := congrArg List.length h
    simp [long_word] at this
    omega
  · intro c hc
    rw [List.eq_of_mem_replicate hc]
    decide

theorem long_word_succ (n : Nat) : long_word (n + 1) = long_word n ++ ['a'] := by
  simp [long_word, List.replicate_succ']

/-- C2 (counterexample): for the command word of 8191 letters `a` and the filename
`f`, parsing `c > f` gives argv of two words, the first 8190 letters and the
last letter, since the token buffer is cut at 8190 bytes. -/
theorem long_command_word_is_split :
    plain_word (long_word 8191) ∧ plain_word "f".toList ∧
      cmd_exec_parse (fun _ => none) (long_word 8191 ++ " > ".toList ++ "f".toList)
        = some (some [⟨[long_word 8190, ['a']], none, some "f".toList, false⟩]) ∧
      cmd_exec_parse (fun _ => none) (long_word 8191 ++ " > ".toList ++ "f".toList)
        ≠ some (some [⟨[long_word 8191], none, some "f".toList, false⟩]) := by
  have hW : plain_word (long_word 8190) := plain_word_long_word 8190 (by omega)
  have hWg := plain_word_no_glob _ hW
  have heq : cmd_exec_parse (fun _ => none) (long_word 8191 ++ " > ".toList ++ "f".toList)
      = some (some [⟨[long_word 8190, ['a']], none, some "f".toList, false⟩]) := by
    have hline : long_word 8191 ++ " > ".toList ++ "f".toList
        = long_word 8190 ++ "a > f".toList := by
      rw [long_word_succ 8190]; simp
    have hpre : preprocess_pipes (long_word 8190 ++ "a > f".toList)
        = long_word 8190 ++ "a > f".toList := by
      unfold preprocess_pipes
      rw [preprocess_pipes_loop_plain _ _ hW.2]
      rfl
    have htok : tokenize_quoted (long_word 8190 ++ "a > f".toList) 512
        = long_word 8190 :: tokenize_loop 510 "a > f".toList :=
      tokenize_loop_cut 510 (long_word 8190) _ hW.1 (word_char_of_plain_word _ hW)
        (by rw [long_word, List.length_replicate]; rfl)
    have htok2 : tokenize_loop 510 "a > f".toList = [['a'], ['>'], ['f']] := by decide
    have hexp : expand_tokens_with_glob (fun _ => none) [long_word 8190, ['a'], ['>'], ['f']]
        = some [long_word 8190, ['a'], ['>'], ['f']] := by
      apply expand_tokens_no_glob
      intro t ht
      simp only [List.mem_cons, List.mem_singleton, List.not_mem_nil, or_false] at ht
      rcases ht with rfl | rfl | rfl | rfl
      · right; exact hWg
      · right; rfl
      · left; rfl
      · right; rfl
    rw [cmd_exec_parse_of_tokens _ _ _ _ (by rw [hline, hpre, htok, htok2])
      (List.cons_ne_nil _ _) hexp (List.cons_ne_nil _ _)]
    unfold parse_tokens_into_cmds
    rw [if_neg (by decide),
      parse_loop_plain_word 64 _ _ _ _ hW]
    rfl
  refine ⟨plain_word_long_word 8191 (by omega), by decide, heq, ?_⟩
  rw [heq]
  intro h
  have h1 := congrArg
    (fun r => r.map fun o => o.map fun l => l.map fun c => c.argv.length) h
  exact absurd h1 (by decide)

theorem expanded_tokens_append (fs : CStr → Option (List CStr)) (xs ys : List CStr) :
    expanded_tokens fs (xs ++ ys) = expanded_tokens fs xs ++ expanded_tokens fs ys := by
  induction xs with
  | nil => rfl
  | cons t xs ih =>
    show _ ++ expanded_tokens fs (xs ++ ys) = (_ ++ expanded_tokens fs xs) ++ expanded_tokens fs ys
    rw [ih, List.append_assoc]

/-- A token list in which every token with a glob character that is not an
operator has no match, or makes `glob` fail, is expanded inside the block, to
itself: no token vanishes and none is added. -/
theorem expand_loop_unmatched (fs : CStr → Option (List CStr)) (tokens : List CStr) :
    ∀ (newt : List CStr) (cap : Nat), newt.length + tokens.length ≤ cap →
      (∀ t ∈ tokens, is_operator_token t = true ∨ contains_glob_chars t = false ∨
        fs t = some [] ∨ fs t = none) →
      expand_loop fs tokens newt cap = some (newt ++ tokens) := by
  induction tokens with
  | nil =>
    intro newt cap _ _
    simp [expand_loop]
  | cons t rest ih =>
    intro newt cap hcap h
    have hcap2 : newt.length + (rest.length + 1) ≤ cap := hcap
    have hlt : newt.length < cap := by omega
    have hlen : ∀ c2, cap ≤ c2 → (newt ++ [t]).length + rest.length ≤ c2 := by
      intro c2 hc2
      rw [List.length_append, List.length_singleton]
      omega
    have hrest : ∀ c2, cap ≤ c2 → expand_loop fs rest (newt ++ [t]) c2
        = some (newt ++ t :: rest) := by
      intro c2 hc2
      have := ih (newt ++ [t]) c2 (hlen c2 hc2) (fun u hu => h u (List.mem_cons_of_mem _ hu))
      rw [List.append_assoc, List.singleton_append] at this
      exact this
    unfold expand_loop
    rw [store_token_some newt cap t hlt]
    by_cases hc : (is_operator_token t || !contains_glob_chars t) = true
    · rw [if_pos hc]
      exact hrest cap (Nat.le_refl _)
    · rw [if_neg hc]
      rcases h t (List.mem_cons_self _ _) with h1 | h1 | h1 | h1
      · exact absurd (by simp [h1]) hc
      · exact absurd (by simp [h1]) hc
      · have hg : glob fs t = (0, [t]) := by simp [glob, h1]
        rw [hg, if_pos rfl]
        by_cases hd : newt.length + 1 ≥ cap
        · simp only [store_matches, if_pos hd, store_token_some newt (cap * 2) t (by omega)]
          exact hrest (cap * 2) (by omega)
        · simp only [store_matches, if_neg hd, store_token_some newt cap t hlt]
          exact hrest cap (Nat.le_refl _)
      · have hg : glob fs t = (1, []) := by simp [glob, h1]
        rw [hg, if_neg (by decide)]
        exact hrest cap (Nat.le_refl _)

theorem expand_tokens_unmatched (fs : CStr → Option (List CStr)) (tokens : List CStr)
    (h : ∀ t ∈ tokens, is_operator_token t = true ∨ contains_glob_chars t = false ∨
      fs t = some [] ∨ fs t = none) :
    expand_tokens_with_glob fs tokens = some tokens := by
  unfold expand_tokens_with_glob
  have := expand_loop_unmatched fs tokens [] (tokens.length * 4 + 16)
    (by simp only [List.length_nil]; omega) h
  rw [List.nil_append] at this
  exact this

/-- Whenever the expansion of a token list stays inside its block, a
non-operator token `t` with a glob character for which the filesystem has no
match, or for which globbing reports an error, is emitted as exactly the token
`t` at its position: the result is what the tokens before expand to, then `t`,
then what the tokens after expand to. -/
theorem glob_without_match_kept_in_block (fs : CStr → Option (List CStr))
    (before after out : List CStr) (t : CStr)
    (hop : is_operator_token t = false) (hglob : contains_glob_chars t = true)
    (hfs : fs t = some [] ∨ fs t = none)
    (hin : expand_tokens_with_glob fs (before ++ t :: after) = some out) :
    out = expanded_tokens fs before ++ t :: expanded_tokens fs after := by
  rw [expand_tokens_sound fs _ out hin, expanded_tokens_append]
  congr 1
  have hcond : (is_operator_token t || !contains_glob_chars t) = false := by simp [hop, hglob]
  rcases hfs with h | h
  · simp [expanded_tokens, hcond, glob, h]
  · simp [expanded_tokens, hcond, glob, h]

/-- C3 (failing input): on the token list `ls * a b nonexist*.xyz`, in a
directory where `*` matches 34 names and `nonexist*.xyz` matches none,
`expand_tokens_with_glob` allocates a block of `5 * 4 + 16 = 36` pointers, the
loop over the matches fills it up to index 34 without reaching its doubling
test, `a` is stored at index 35 and `b` is stored at index 36, past the end
of the block, by the branch that stores without a capacity test: the
expansion has left defined behaviour before it reaches the token
`nonexist*.xyz`, which is therefore not emitted, and so has the parse of the
line. With 33 names the same list stays inside the block and keeps the token. -/
theorem glob_block_overrun :
    many_files 34 "nonexist*.xyz".toList = some [] ∧
      (many_files 34 "*".toList).map List.length = some 34 ∧
      expand_tokens_with_glob (many_files 34)
        ["ls".toList, "*".toList, "a".toList, "b".toList, "nonexist*.xyz".toList] = none ∧
      cmd_exec_parse (many_files 34) "ls * a b nonexist*.xyz".toList = none ∧
      expand_tokens_with_glob (many_files 33)
        ["ls".toList, "*".toList, "a".toList, "b".toList, "nonexist*.xyz".toList]
        = some ("ls".toList :: (file_names 33 ++
            ["a".toList, "b".toList, "nonexist*.xyz".toList])) := by
  decide

/-- The example of the specification: without a match the pattern stays in argv. -/
theorem parse_glob_without_match :
    cmd_exec_parse (fun _ => some []) "ls nonexist*.xyz".toList
      = some (some [Cmd.plain ["ls".toList, "nonexist*.xyz".toList]]) := by decide

/-! ## Theorems: history search -/

theorem common_prefix_len_nil_left (y : CStr) : common_prefix_len [] y = 0 := by
  cases y <;> rfl

theorem common_prefix_len_nil_right (x : CStr) : common_prefix_len x [] = 0 := by
  cases x <;> rfl

theorem suffix_row_eq_cons (ra rb bs : CStr) :
    suffix_row ra rb bs = common_prefix_len ra rb :: (suffix_row ra rb bs).tail := by
  cases bs <;> rfl

theorem suffix_row_nil (rb bs : CStr) :
    suffix_row [] rb bs = List.replicate (bs.length + 1) 0 := by
  induction bs generalizing rb with
  | nil => simp [suffix_row, common_prefix_len_nil_left, List.replicate]
  | cons bj bs ih =>
    simp [suffix_row, common_prefix_len_nil_left, ih, List.replicate_succ]

theorem mem_suffix_row {ra rb bs : CStr} {v : Nat} :
    v ∈ suffix_row ra rb bs ↔
      ∃ p s, bs = p ++ s ∧ v = common_prefix_len ra (p.reverse ++ rb) := by
  induction bs generalizing rb with
  | nil =>
    simp only [suffix_row, List.mem_singleton]
    constructor
    · intro h; exact ⟨[], [], rfl, by simpa using h⟩
    · rintro ⟨p, s, hps, hv⟩
      have hp : p = [] := by
        cases p with
        | nil => rfl
        | cons _ _ => simp at hps
      subst hp; simpa using hv
  | cons bj bs ih =>
    simp only [suffix_row, List.mem_cons, ih]
    constructor
    · rintro (h | ⟨p, s, hps, hv⟩)
      · exact ⟨[], bj :: bs, rfl, by simpa using h⟩
      · exact ⟨bj :: p, s, by simp [hps], by simpa using hv⟩
    · rintro ⟨p, s, hps, hv⟩
      cases p with
      | nil => left; simpa using hv
      | cons c p =>
        right
        simp only [List.cons_append, List.cons.injEq] at hps
        obtain ⟨rfl, rfl⟩ := hps
        exact ⟨p, s, rfl, by simpa using hv⟩

theorem foldl_max_ge (l : List Nat) (b : Nat) : b ≤ l.foldl max b := by
  induction l generalizing b with
  | nil => simp
  | cons x xs ih => exact le_trans (le_max_left b x) (ih (max b x))

theorem foldl_max_ge_of_mem (l : List Nat) (b v : Nat) (hv : v ∈ l) : v ≤ l.foldl max b := by
  induction l generalizing b with
  | nil => simp at hv
  | cons x xs ih =>
    rcases List.mem_cons.1 hv with rfl | h
    · exact le_trans (le_max_right b v) (foldl_max_ge xs (max b v))
    · exact ih (max b x) h

theorem foldl_max_mem (l : List Nat) (b : Nat) : l.foldl max b = b ∨ l.foldl max b ∈ l := by
  induction l generalizing b with
  | nil => simp
  | cons x xs ih =>
    simp only [List.foldl_cons]
    rcases ih (max b x) with h | h
    · rcases max_choice b x with hb | hx
      · left; rw [h, hb]
      · right; rw [h, hx]; exact List.mem_cons_self _ _
    · right; exact List.mem_cons_of_mem _ h

theorem lcs_row_eq (ai : Char) (ra rb bs : CStr) (best : Nat) :
    lcs_row ai bs (suffix_row ra rb bs) best
      = ((suffix_row (ai :: ra) rb bs).tail,
         (suffix_row (ai :: ra) rb bs).tail.foldl max best) := by
  induction bs generalizing rb best with
  | nil => simp [lcs_row, suffix_row]
  | cons bj bs ih =>
    have hrow : (suffix_row ra rb (bj :: bs)).tail = suffix_row ra (bj :: rb) bs := rfl
    have hhd : (suffix_row ra rb (bj :: bs)).headD 0 = common_prefix_len ra rb := rfl
    have hrow2 : (suffix_row (ai :: ra) rb (bj :: bs)).tail
        = suffix_row (ai :: ra) (bj :: rb) bs := rfl
    rw [hrow2, suffix_row_eq_cons (ai :: ra) (bj :: rb) bs]
    unfold lcs_row
    by_cases h : ai = bj
    · subst h
      have hv : common_prefix_len (ai :: ra) (ai :: rb) = common_prefix_len ra rb + 1 := by
        simp [common_prefix_len]
      simp only [if_true, hrow, hhd, ih, hv, List.foldl_cons]
      rcases Nat.lt_or_ge best (common_prefix_len ra rb + 1) with hlt | hge
      · simp [hlt, max_eq_right (le_of_lt hlt)]
      · simp [not_lt.2 hge, max_eq_left hge]
    · have hv : common_prefix_len (ai :: ra) (bj :: rb) = 0 := by
        simp [common_prefix_len, h]
      simp only [h, if_false, hrow, ih, hv, List.foldl_cons, Nat.max_zero]

theorem lcs_rows_spec (b : CStr) (as ra : CStr) (best : Nat) :
    best ≤ lcs_rows as b (suffix_row ra [] b) best ∧
    (∀ pre suf, as = pre ++ suf → pre ≠ [] →
      ∀ v ∈ suffix_row (pre.reverse ++ ra) [] b,
        v ≤ lcs_rows as b (suffix_row ra [] b) best) ∧
    (lcs_rows as b (suffix_row ra [] b) best = best ∨
      ∃ pre suf, as = pre ++ suf ∧ pre ≠ [] ∧
        lcs_rows as b (suffix_row ra [] b) best ∈ suffix_row (pre.reverse ++ ra) [] b) := by
  induction as generalizing ra best with
  | nil =>
    refine ⟨le_refl _, ?_, Or.inl rfl⟩
    intro pre suf h hne
    cases pre with
    | nil => exact absurd rfl hne
    | cons _ _ => simp at h
  | cons ai as ih =>
    have hnext : (0 :: (suffix_row (ai :: ra) [] b).tail) = suffix_row (ai :: ra) [] b := by
      rw [suffix_row_eq_cons (ai :: ra) [] b, common_prefix_len_nil_right]; rfl
    have hstep : lcs_rows (ai :: as) b (suffix_row ra [] b) best
        = lcs_rows as b (suffix_row (ai :: ra) [] b)
            ((suffix_row (ai :: ra) [] b).tail.foldl max best) := by
      simp only [lcs_rows, lcs_row_eq, hnext]
    rw [hstep]
    obtain ⟨h1, h2, h3⟩ := ih (ai :: ra) ((suffix_row (ai :: ra) [] b).tail.foldl max best)
    refine ⟨le_trans (foldl_max_ge _ _) h1, ?_, ?_⟩
    · intro pre suf hps hne v hv
      cases pre with
      | nil => exact absurd rfl hne
      | cons c pre =>
        simp only [List.cons_append, List.cons.injEq] at hps
        obtain ⟨rfl, rfl⟩ := hps
        cases pre with
        | nil =>
          simp only [List.reverse_cons, List.reverse_nil, List.nil_append,
            List.singleton_append] at hv
          rw [← hnext] at hv
          rcases List.mem_cons.1 hv with rfl | hv
          · exact Nat.zero_le _
          · exact le_trans (foldl_max_ge_of_mem _ _ _ hv) h1
        | cons d pre =>
          have := h2 (d :: pre) suf rfl (by simp) v (by simpa using hv)
          exact this
    · rcases h3 with h3 | ⟨pre, suf, hps, hne, hmem⟩
      · rw [h3]
        rcases foldl_max_mem (suffix_row (ai :: ra) [] b).tail best with h | h
        · left; exact h
        · right
          refine ⟨[ai], as, rfl, by simp, ?_⟩
          simpa using List.mem_of_mem_tail h
      · right
        exact ⟨ai :: pre, suf, by simp [hps], by simp, by simpa using hmem⟩

theorem common_prefix_len_append (x y z : CStr) :
    x.length ≤ common_prefix_len (x ++ y) (x ++ z) := by
  induction x with
  | nil => simp
  | cons c x ih => simpa [common_prefix_len] using ih

theorem common_prefix_len_le_left (x y : CStr) : common_prefix_len x y ≤ x.length := by
  induction x generalizing y with
  | nil => simp [common_prefix_len_nil_left]
  | cons c x ih =>
    cases y with
    | nil => simp [common_prefix_len]
    | cons d y =>
      by_cases h : c = d
      · simpa [common_prefix_len, h] using ih y
      · simp [common_prefix_len, h]

theorem take_common_prefix (x y : CStr) :
    x.take (common_prefix_len x y) = y.take (common_prefix_len x y) := by
  induction x generalizing y with
  | nil => simp [common_prefix_len_nil_left]
  | cons c x ih =>
    cases y with
    | nil => simp [common_prefix_len]
    | cons d y =>
      by_cases h : c = d
      · subst h; simpa [common_prefix_len] using ih y
      · simp [common_prefix_len, h]

/-- C5: `lcs_len a b` is the length of the longest common contiguous substring
of `a` and `b`: some string of that length occurs in both, and no string that
occurs in both is longer. -/
theorem lcs_len_is_longest_common_substring (a b : CStr) :
    (∃ s : CStr, s.length = lcs_len a b ∧ s <:+: a ∧ s <:+: b) ∧
    (∀ s : CStr, s <:+: a → s <:+: b → s.length ≤ lcs_len a b) := by
  unfold lcs_len
  by_cases h0 : a.length = 0 ∨ b.length = 0
  · rw [if_pos h0]
    refine ⟨⟨[], rfl, List.nil_infix, List.nil_infix⟩, ?_⟩
    intro s ha hb
    rcases h0 with h | h
    · have := ha.length_le; omega
    · have := hb.length_le; omega
  · rw [if_neg h0, ← suffix_row_nil [] b]
    obtain ⟨-, h2, h3⟩ := lcs_rows_spec b a [] 0
    constructor
    · rcases h3 with h3 | ⟨pre, suf, hps, -, hmem⟩
      · rw [h3]; exact ⟨[], rfl, List.nil_infix, List.nil_infix⟩
      · obtain ⟨p, q, hpq, hv⟩ := mem_suffix_row.1 hmem
        simp only [List.append_nil] at hv
        set k := lcs_rows a b (suffix_row [] [] b) 0 with hk
        refine ⟨(pre.reverse.take k).reverse, ?_, ?_, ?_⟩
        · have := common_prefix_len_le_left pre.reverse p.reverse
          simp only [List.length_reverse, List.length_take]
          rw [← hv] at this
          simp only [List.length_reverse] at this
          omega
        · have hsuf : (pre.reverse.take k).reverse <:+ pre := by
            have := (List.take_prefix k pre.reverse)
            simpa using List.reverse_suffix.2 this
          rw [hps]
          exact (hsuf.isInfix).trans (List.infix_append' [] pre suf |> fun h => by simpa using h)
        · have hsuf : (pre.reverse.take k).reverse <:+ p := by
            have h1 : pre.reverse.take k = p.reverse.take k := by
              rw [hv]; exact take_common_prefix _ _
            rw [h1]
            have := (List.take_prefix k p.reverse)
            simpa using List.reverse_suffix.2 this
          rw [hpq]
          exact (hsuf.isInfix).trans (List.infix_append' [] p q |> fun h => by simpa using h)
    · intro s ha hb
      by_cases hs : s = []
      · simp [hs]
      obtain ⟨p, q, hpq⟩ := ha
      obtain ⟨p2, q2, hpq2⟩ := hb
      have hmem : common_prefix_len ((p ++ s).reverse ++ []) ((p2 ++ s).reverse ++ [])
          ∈ suffix_row ((p ++ s).reverse ++ []) [] b :=
        mem_suffix_row.2 ⟨p2 ++ s, q2, hpq2.symm, rfl⟩
      have hle := h2 (p ++ s) q hpq.symm (by simp [hs]) _ hmem
      have hlen := common_prefix_len_append s.reverse p.reverse p2.reverse
      simp only [List.append_nil, List.reverse_append] at hle
      simp only [List.length_reverse] at hlen
      exact le_trans hlen hle

theorem mem_history_entries {h : History} {s : CStr} :
    s ∈ history_entries h ↔ ∃ i, i < h.hist_count ∧ hist_index h i = some s := by
  simp [history_entries, List.mem_filterMap]

theorem history_find_exact_loop_none (h : History) (term : CStr) (n : Nat)
    (hno : ∀ i, i < n → hist_index h i ≠ some term) :
    history_find_exact_loop h term n = none := by
  induction n with
  | zero => rfl
  | succ n ih =>
    unfold history_find_exact_loop
    have ih2 := ih fun i hi => hno i (Nat.lt_succ_of_lt hi)
    cases hn : hist_index h n with
    | none => exact ih2
    | some s =>
      have hs : s ≠ term := fun e => hno n (Nat.lt_succ_self n) (by rw [hn, e])
      simp only [hs, if_false]; exact ih2

theorem history_find_exact_of_not_mem (h : History) (term : CStr)
    (hno : term ∉ history_entries h) : history_find_exact h term = none := by
  unfold history_find_exact
  split
  · rfl
  · exact history_find_exact_loop_none h term _
      fun i hi e => hno (mem_history_entries.2 ⟨i, hi, e⟩)

theorem best_lcs_upto_succ_none (h : History) (term : CStr) (n : Nat)
    (hn : hist_index h n = none) : best_lcs_upto h term (n + 1) = best_lcs_upto h term n := by
  simp [best_lcs_upto, List.range_succ, List.filterMap_append, hn]

theorem best_lcs_upto_succ_some (h : History) (term : CStr) (n : Nat) (s : CStr)
    (hn : hist_index h n = some s) :
    best_lcs_upto h term (n + 1) = max (best_lcs_upto h term n) (lcs_len s term) := by
  simp [best_lcs_upto, List.range_succ, List.filterMap_append, hn, List.foldl_append]

theorem lcs_le_best_lcs_upto (h : History) (term : CStr) (n i : Nat) (s : CStr)
    (hi : i < n) (his : hist_index h i = some s) :
    lcs_len s term ≤ best_lcs_upto h term n := by
  apply foldl_max_ge_of_mem
  simp only [List.mem_map, List.mem_filterMap, List.mem_range]
  exact ⟨s, ⟨i, hi, his⟩, rfl⟩

theorem cands_upto_succ (h : History) (term : CStr) (m n : Nat) :
    cands_upto h term m (n + 1) = cands_upto h term m n ++
      (match hist_index h n with
       | some s => if lcs_len s term = m then [n] else []
       | none => []) := by
  unfold cands_upto
  rw [List.range_succ, List.filter_append]
  congr 1
  cases hn : hist_index h n with
  | none => simp [List.filter, hn]
  | some s => by_cases hs : lcs_len s term = m <;> simp [List.filter, hn, hs]

theorem cands_upto_eq_nil (h : History) (term : CStr) (m n : Nat)
    (hlt : best_lcs_upto h term n < m) : cands_upto h term m n = [] := by
  unfold cands_upto
  rw [List.filter_eq_nil_iff]
  intro i hi
  have hi2 := List.mem_range.1 hi
  cases his : hist_index h i with
  | none => simp
  | some s =>
    have := lcs_le_best_lcs_upto h term n i s hi2 his
    simp only [decide_eq_true_eq]
    omega

theorem search_loop_eq (h : History) (term : CStr) (n : Nat) :
    (List.range n).foldl (search_step h term) (0, [])
      = (best_lcs_upto h term n,
         if best_lcs_upto h term n = 0 then []
         else cands_upto h term (best_lcs_upto h term n) n) := by
  induction n with
  | zero => simp [best_lcs_upto]
  | succ n ih =>
    rw [List.range_succ, List.foldl_append, ih]
    simp only [List.foldl_cons, List.foldl_nil]
    unfold search_step
    cases hn : hist_index h n with
    | none =>
      simp only [best_lcs_upto_succ_none h term n hn, cands_upto_succ, hn, List.append_nil]
    | some s =>
      simp only [best_lcs_upto_succ_some h term n s hn, cands_upto_succ, hn]
      rcases Nat.lt_trichotomy (best_lcs_upto h term n) (lcs_len s term) with hlt | heq | hgt
      · have hmax : max (best_lcs_upto h term n) (lcs_len s term) = lcs_len s term :=
          max_eq_right (le_of_lt hlt)
        have hpos : lcs_len s term ≠ 0 := by omega
        simp only [hlt, if_true, hmax, hpos, if_false,
          cands_upto_eq_nil h term _ n hlt, List.nil_append]
      · have hmax : max (best_lcs_upto h term n) (lcs_len s term) = best_lcs_upto h term n := by
          rw [heq]; exact max_self _
        by_cases h0 : best_lcs_upto h term n = 0
        · have h0s : lcs_len s term = 0 := by omega
          simp [hmax, h0, h0s]
        · have hpos : lcs_len s term > 0 := by omega
          have hne0 : lcs_len s term ≠ 0 := by omega
          simp [hmax, heq, hpos, hne0]
      · have hmax : max (best_lcs_upto h term n) (lcs_len s term) = best_lcs_upto h term n :=
          max_eq_left (le_of_lt hgt)
        have h1 : ¬ lcs_len s term > best_lcs_upto h term n := by omega
        have h2 : ¬ lcs_len s term = best_lcs_upto h term n := by omega
        have h0 : best_lcs_upto h term n ≠ 0 := by omega
        simp [hmax, h1, h2, h0]

theorem cands_upto_ne_nil (h : History) (term : CStr) (n : Nat)
    (hpos : 0 < best_lcs_upto h term n) :
    cands_upto h term (best_lcs_upto h term n) n ≠ [] := by
  have hmem := foldl_max_mem
    (((List.range n).filterMap (hist_index h)).map fun s => lcs_len s term) 0
  rcases hmem with h0 | hmem
  · unfold best_lcs_upto at hpos; omega
  · simp only [List.mem_map, List.mem_filterMap, List.mem_range] at hmem
    obtain ⟨s, ⟨i, hi, his⟩, hs⟩ := hmem
    intro hnil
    have : i ∈ cands_upto h term (best_lcs_upto h term n) n := by
      unfold cands_upto
      rw [List.mem_filter]
      refine ⟨List.mem_range.2 hi, ?_⟩
      simp only [his, decide_eq_true_eq]
      exact hs
    rw [hnil] at this
    exact List.not_mem_nil _ this

theorem candidates_header_ne (tab : Int) (m : Nat) :
    append_fmt tab 256 (candidates_header m)
      ≠ append_msg tab "No match for search term in history\n".toList := by
  intro he
  have hb : (append_fmt tab 256 (candidates_header m)).buf.take 4
      = (append_msg tab "No match for search term in history\n".toList).buf.take 4 := by
    rw [he]
  have h1 : (append_fmt tab 256 (candidates_header m)).buf.take 4 = ['N', 'o', ' ', 'e'] := rfl
  have h2 : (append_msg tab "No match for search term in history\n".toList).buf.take 4
      = ['N', 'o', ' ', 'm'] := rfl
  rw [h1, h2] at hb
  exact absurd hb (by decide)

/-- C7: for every history and every non-empty term that equals no entry, the
output of `history_search_and_output` is the single "no match" message if and
only if the largest `lcs_len` of an entry with the term is at most 2. -/
theorem history_search_no_match_iff (h : History) (tab_idx : Int) (term : CStr)
    (hne : term ≠ []) (hno : term ∉ history_entries h) :
    history_search_and_output h tab_idx term
        = [append_msg tab_idx "No match for search term in history\n".toList]
      ↔ best_lcs h term ≤ 2 := by
  unfold history_search_and_output
  rw [if_neg hne, history_find_exact_of_not_mem h term hno]
  simp only [search_loop_eq]
  unfold best_lcs
  constructor
  · intro hout
    by_contra hgt
    have hpos : 0 < best_lcs_upto h term h.hist_count := by omega
    have h0 : best_lcs_upto h term h.hist_count ≠ 0 := by omega
    have hc := cands_upto_ne_nil h term h.hist_count hpos
    have hlen : ¬ (cands_upto h term (best_lcs_upto h term h.hist_count) h.hist_count).length = 0 := by
      rwa [List.length_eq_zero]
    rw [if_neg h0, if_neg (by tauto)] at hout
    have := (List.cons.inj hout).1
    exact candidates_header_ne tab_idx _ this
  · intro hle
    rw [if_pos (Or.inl hle)]

theorem history_search_no_match_iff_witness :
    best_lcs hist_hello "xy".toList ≤ 2 ∧
      history_search_and_output hist_hello 0 "xy".toList
        = [append_msg 0 "No match for search term in history\n".toList] :=
  ⟨by decide,
    (history_search_no_match_iff hist_hello 0 "xy".toList (by decide) (by decide)).2 (by decide)⟩

/-- The example of the specification: `hello` is the longest common substring. -/
theorem lcs_len_hello : lcs_len "hello world".toList "xyzhelloabc".toList = 5 := by decide

/-! ## Theorems: execution and job control -/

/-- C4: `cmd_exec_interrupt_tab` on a tab without a recorded foreground job (a
tab index outside the table, or job id 0) returns -1, sends no signal and
leaves the table `tab_pgid` unchanged. -/
theorem interrupt_without_job_fails (os : Os) (st : ExecState) (tab_idx : Int)
    (h : tab_idx < 0 ∨ (CMD_MAX_TABS : Int) ≤ tab_idx ∨ st.tab_pgid tab_idx.toNat = 0) :
    cmd_exec_interrupt_tab os st tab_idx = (-1, st, []) := by
  have hpg : get_tab_pgid st tab_idx = 0 := by
    unfold get_tab_pgid
    by_cases hr : tab_idx < 0 ∨ tab_idx ≥ (CMD_MAX_TABS : Int)
    · rw [if_pos hr]
    · rw [if_neg hr]
      rcases h with h | h | h
      · exact absurd (Or.inl h) hr
      · exact absurd (Or.inr h) hr
      · exact h
  unfold cmd_exec_interrupt_tab
  simp [hpg]

theorem interrupt_without_job_fails_witness :
    cmd_exec_interrupt_tab os_ok st_init 3 = (-1, st_init, []) ∧
      cmd_exec_interrupt_tab os_ok st_init 64 = (-1, st_init, []) :=
  ⟨interrupt_without_job_fails os_ok st_init 3 (Or.inr (Or.inr rfl)),
    interrupt_without_job_fails os_ok st_init 64 (Or.inr (Or.inl (by decide)))⟩

theorem mw_find_by_tab_none (l : List mw_state) (tab_idx : Int)
    (h : ∀ s ∈ l, s.tab_idx ≠ tab_idx) : mw_find_by_tab l tab_idx = none := by
  induction l with
  | nil => rfl
  | cons p rest ih =>
    have hp := h p (List.mem_cons_self _ _)
    simp only [mw_find_by_tab, hp, if_false, ih fun s hs => h s (List.mem_cons_of_mem _ hs),
      Option.map_none']

theorem mw_find_by_tab_single (l : List mw_state) (tab_idx : Int) (s : mw_state)
    (h : l.filter (fun x => decide (x.tab_idx = tab_idx)) = [s]) :
    ∃ k, mw_find_by_tab l tab_idx = some (k, s) ∧
      l.eraseIdx k = l.filter (fun x => decide (x.tab_idx ≠ tab_idx)) := by
  induction l with
  | nil => simp at h
  | cons p rest ih =>
    by_cases hp : p.tab_idx = tab_idx
    · rw [List.filter_cons_of_pos (by simpa using hp)] at h
      obtain ⟨rfl, hrest⟩ := List.cons.inj h
      refine ⟨0, by simp [mw_find_by_tab, hp], ?_⟩
      have hall : ∀ x ∈ rest, x.tab_idx ≠ tab_idx := by
        intro x hx hxt
        have : x ∈ rest.filter (fun x => decide (x.tab_idx = tab_idx)) :=
          List.mem_filter.2 ⟨hx, by simpa using hxt⟩
        rw [hrest] at this
        exact List.not_mem_nil _ this
      rw [List.eraseIdx_cons_zero, List.filter_cons_of_neg (by simpa using hp)]
      symm
      rw [List.filter_eq_self]
      intro x hx
      simpa using hall x hx
    · rw [List.filter_cons_of_neg (by simpa using hp)] at h
      obtain ⟨k, hk1, hk2⟩ := ih h
      refine ⟨k + 1, by simp [mw_find_by_tab, hp, hk1], ?_⟩
      rw [List.eraseIdx_cons_succ, hk2, List.filter_cons_of_pos (by simpa using hp)]

/-- C9: when the registry holds exactly one session for the tab and it is
running, `multiwatch_interrupt` returns 0 and removes that session (the other
sessions stay), and a second call right after returns -1 and changes nothing;
and for a tab without a session in the registry it returns -1 and changes
nothing. -/
theorem multiwatch_stop_not_repeatable (env1 env2 : MwEnv) (w : MwWorld) (tab_idx : Int) :
    (∀ s, w.mw_list.filter (fun x => decide (x.tab_idx = tab_idx)) = [s] → s.running = true →
      (multiwatch_interrupt env1 w tab_idx).1 = 0 ∧
      (multiwatch_interrupt env1 w tab_idx).2.mw_list
        = w.mw_list.filter (fun x => decide (x.tab_idx ≠ tab_idx)) ∧
      multiwatch_interrupt env2 (multiwatch_interrupt env1 w tab_idx).2 tab_idx
        = (-1, (multiwatch_interrupt env1 w tab_idx).2)) ∧
    ((∀ s ∈ w.mw_list, s.tab_idx ≠ tab_idx) →
      multiwatch_interrupt env1 w tab_idx = (-1, w)) := by
  constructor
  · intro s hs hrun
    obtain ⟨k, hk1, hk2⟩ := mw_find_by_tab_single w.mw_list tab_idx s hs
    have hres : (multiwatch_interrupt env1 w tab_idx).1 = 0 ∧
        (multiwatch_interrupt env1 w tab_idx).2.mw_list
          = w.mw_list.filter (fun x => decide (x.tab_idx ≠ tab_idx)) := by
      unfold multiwatch_interrupt
      simp only [hk1, hrun, Bool.true_eq_false, if_false, hk2, and_self]
    refine ⟨hres.1, hres.2, ?_⟩
    have hnone : mw_find_by_tab (multiwatch_interrupt env1 w tab_idx).2.mw_list tab_idx = none := by
      apply mw_find_by_tab_none
      intro x hx
      rw [hres.2] at hx
      simpa using (List.mem_filter.1 hx).2
    generalize (multiwatch_interrupt env1 w tab_idx).2 = w1 at hnone ⊢
    unfold multiwatch_interrupt
    simp only [hnone]
  · intro hall
    unfold multiwatch_interrupt
    simp only [mw_find_by_tab_none w.mw_list tab_idx hall]

theorem multiwatch_stop_not_repeatable_witness :
    (multiwatch_interrupt mw_env_ok
        (multiwatch_start mw_env_ok mw_world_init 0 ["echo a".toList, "echo b".toList]).2 0).1 = 0 ∧
      (multiwatch_interrupt mw_env_ok (multiwatch_interrupt mw_env_ok
        (multiwatch_start mw_env_ok mw_world_init 0 ["echo a".toList, "echo b".toList]).2 0).2 0).1
        = -1 ∧
      multiwatch_interrupt mw_env_ok mw_world_init 0 = (-1, mw_world_init) := by
  have h := multiwatch_stop_not_repeatable mw_env_ok mw_env_ok
    (multiwatch_start mw_env_ok mw_world_init 0 ["echo a".toList, "echo b".toList]).2 0
  have h1 := h.1
    { tab_idx := 0, n := 2, pids := [200, 201], cmds := ["echo a".toList, "echo b".toList],
      temp_paths := [some ".temp.200.txt".toList, some ".temp.201.txt".toList],
      offsets := [0, 0], running := true, monitor_started := true } (by decide) rfl
  refine ⟨h1.1, ?_, ?_⟩
  · rw [h1.2.2]
  · exact (multiwatch_stop_not_repeatable mw_env_ok mw_env_ok mw_world_init 0).2
      (fun s hs => absurd hs (List.not_mem_nil _))

/-! ## Theorems: operators and stage limit -/

theorem is_bare_redirect_iff (tk : CStr) :
    is_bare_redirect tk = true ↔ tk = ['<'] ∨ tk = ['>', '>'] ∨ tk = ['>'] := by
  simp [is_bare_redirect, or_assoc]

theorem parse_loop_bare_end (m : Nat) (tk : CStr) (done : List Cmd) (cur : Cmd)
    (h : is_bare_redirect tk = true) : parse_loop m [tk] done cur = none := by
  rcases (is_bare_redirect_iff tk).1 h with rfl | rfl | rfl <;>
    (unfold parse_loop; simp)

theorem parse_loop_bare (m : Nat) (tk f : CStr) (rest : List CStr) (done : List Cmd)
    (cur : Cmd) (h : is_bare_redirect tk = true) :
    parse_loop m (tk :: f :: rest) done cur = parse_loop m rest done (redirect_bare tk f cur) := by
  rcases (is_bare_redirect_iff tk).1 h with rfl | rfl | rfl <;>
    (conv_lhs => unfold parse_loop) <;> simp [redirect_bare]

theorem parse_loop_pipe_full (m : Nat) (rest : List CStr) (done : List Cmd) (cur : Cmd)
    (hlen : done.length + 1 ≥ m) : parse_loop m (['|'] :: rest) done cur = none := by
  conv_lhs => unfold parse_loop
  simp only [if_true]
  rw [if_pos hlen]

theorem parse_loop_single (m : Nat) (tk : CStr) (rest : List CStr) (done : List Cmd)
    (cur : Cmd) (hp : tk ≠ ['|']) (hb : is_bare_redirect tk = false) :
    parse_loop m (tk :: rest) done cur = parse_loop m rest done (single_token tk cur) := by
  have hb2 : tk ≠ ['<'] ∧ tk ≠ ['>', '>'] ∧ tk ≠ ['>'] := by
    simp only [is_bare_redirect, Bool.or_eq_false_iff, beq_eq_false_iff_ne, ne_eq] at hb
    exact ⟨hb.1.1, hb.1.2, hb.2⟩
  conv_lhs => unfold parse_loop
  simp only [hp, hb2.1, hb2.2.1, hb2.2.2, if_false]
  unfold single_token
  by_cases h1 : tk.head? = some '<'
  · simp only [h1, if_true]
  · simp only [h1, if_false]
    by_cases h2 : tk.take 2 = ['>', '>']
    · simp only [h2, if_true]
    · simp only [h2, if_false]
      by_cases h3 : tk.head? = some '>'
      · simp only [h3, if_true]
      · simp only [h3, if_false]

theorem pending_filename_append_bare (m : Nat) (op : CStr) (hop : is_bare_redirect op = true) :
    ∀ (n : Nat) (before : List CStr), before.length ≤ n → pending_filename before = false →
      ∀ (done : List Cmd) (cur : Cmd), parse_loop m (before ++ [op]) done cur = none := by
  intro n
  induction n with
  | zero =>
    intro before hn _ done cur
    have : before = [] := List.eq_nil_of_length_eq_zero (by omega)
    subst this
    exact parse_loop_bare_end m op done cur hop
  | succ n ih =>
    intro before hn hpend done cur
    cases before with
    | nil => exact parse_loop_bare_end m op done cur hop
    | cons tk rest =>
      have hlen : rest.length ≤ n := by simpa using hn
      by_cases hb : is_bare_redirect tk = true
      · cases rest with
        | nil => simp [pending_filename, hb] at hpend
        | cons f rest2 =>
          simp only [pending_filename, hb, if_true] at hpend
          have hlen2 : rest2.length ≤ n := by
            simp only [List.length_cons] at hlen; omega
          rw [List.cons_append, List.cons_append, parse_loop_bare m tk f _ done cur hb]
          exact ih rest2 hlen2 hpend done _
      · have hb2 : is_bare_redirect tk = false := by simpa using hb
        have hpend2 : pending_filename rest = false := by
          cases rest with
          | nil => rfl
          | cons f rest2 => simpa [pending_filename, hb2] using hpend
        rw [List.cons_append]
        by_cases hp : tk = ['|']
        · subst hp
          by_cases hfull : done.length + 1 ≥ m
          · exact parse_loop_pipe_full m _ done cur hfull
          · rw [parse_loop_pipe m _ done cur (by omega)]
            exact ih rest hlen hpend2 _ _
        · rw [parse_loop_single m tk _ done cur hp hb2]
          exact ih rest hlen hpend2 done _

theorem parse_trailing_redirect (max_cmds : Nat) (before : List CStr) (op : CStr)
    (hop : is_bare_redirect op = true) (hpend : pending_filename before = false) :
    parse_tokens_into_cmds (before ++ [op]) max_cmds = none := by
  unfold parse_tokens_into_cmds
  split
  · rfl
  · exact pending_filename_append_bare max_cmds op hop before.length before (le_refl _) hpend _ _

theorem parse_loop_congr_tail (m : Nat) (xs ys : List CStr)
    (hxy : ∀ (done : List Cmd) (cur : Cmd), parse_loop m xs done cur = parse_loop m ys done cur) :
    ∀ (n : Nat) (before : List CStr), before.length ≤ n → pending_filename before = false →
      ∀ (done : List Cmd) (cur : Cmd),
        parse_loop m (before ++ xs) done cur = parse_loop m (before ++ ys) done cur := by
  intro n
  induction n with
  | zero =>
    intro before hn _ done cur
    have : before = [] := List.eq_nil_of_length_eq_zero (by omega)
    subst this
    exact hxy done cur
  | succ n ih =>
    intro before hn hpend done cur
    cases before with
    | nil => exact hxy done cur
    | cons tk rest =>
      have hlen : rest.length ≤ n := by simpa using hn
      by_cases hb : is_bare_redirect tk = true
      · cases rest with
        | nil => simp [pending_filename, hb] at hpend
        | cons f rest2 =>
          simp only [pending_filename, hb, if_true] at hpend
          have hlen2 : rest2.length ≤ n := by
            simp only [List.length_cons] at hlen; omega
          simp only [List.cons_append]
          rw [parse_loop_bare m tk f _ done cur hb, parse_loop_bare m tk f _ done cur hb]
          exact ih rest2 hlen2 hpend done _
      · have hb2 : is_bare_redirect tk = false := by simpa using hb
        have hpend2 : pending_filename rest = false := by
          cases rest with
          | nil => rfl
          | cons f rest2 => simpa [pending_filename, hb2] using hpend
        simp only [List.cons_append]
        by_cases hp : tk = ['|']
        · subst hp
          by_cases hfull : done.length + 1 ≥ m
          · rw [parse_loop_pipe_full m _ done cur hfull, parse_loop_pipe_full m _ done cur hfull]
          · rw [parse_loop_pipe m _ done cur (by omega), parse_loop_pipe m _ done cur (by omega)]
            exact ih rest hlen hpend2 _ _
        · rw [parse_loop_single m tk _ done cur hp hb2, parse_loop_single m tk _ done cur hp hb2]
          exact ih rest hlen hpend2 done _

theorem parse_loop_glued (m : Nat) (op f : CStr) (after : List CStr) (hop : is_bare_redirect op = true)
    (hf : f ≠ []) (hgt : op = ['>'] → f.head? ≠ some '>') (done : List Cmd) (cur : Cmd) :
    parse_loop m ((op ++ f) :: after) done cur = parse_loop m (op :: f :: after) done cur := by
  obtain ⟨c, t, rfl⟩ := List.exists_cons_of_ne_nil hf
  rw [parse_loop_bare m op _ after done cur hop]
  rcases (is_bare_redirect_iff op).1 hop with rfl | rfl | rfl
  · rw [parse_loop_single m _ after done cur (by simp) (by simp [is_bare_redirect])]
    simp [single_token, redirect_bare]
  · rw [parse_loop_single m _ after done cur (by simp) (by simp [is_bare_redirect])]
    simp [single_token, redirect_bare]
  · have hc : c ≠ '>' := by
      have := hgt rfl
      simpa using this
    rw [parse_loop_single m _ after done cur (by simp) (by simp [is_bare_redirect, hc])]
    simp [single_token, redirect_bare, hc]

/-- C14 (amended): for every token list and every non-empty filename `f`, when
the operator is not itself taken as the filename of a bare operator right
before it, `parse_tokens_into_cmds` gives the same result for the single token
`<f` as for the two tokens `<`, `f`; for `>>f` as for `>>`, `f`; and, when `f`
does not begin with `>`, for `>f` as for `>`, `f`. -/
theorem glued_redirect_eq_spaced (max_cmds : Nat) (before after : List CStr) (op f : CStr)
    (hop : is_bare_redirect op = true) (hf : f ≠ [])
    (hgt : op = ['>'] → f.head? ≠ some '>') (hpend : pending_filename before = false) :
    parse_tokens_into_cmds (before ++ (op ++ f) :: after) max_cmds
      = parse_tokens_into_cmds (before ++ op :: f :: after) max_cmds := by
  unfold parse_tokens_into_cmds
  split
  · rfl
  · exact parse_loop_congr_tail max_cmds _ _
      (parse_loop_glued max_cmds op f after hop hf hgt) before.length before (le_refl _) hpend _ _

theorem glued_redirect_eq_spaced_witness :
    parse_tokens_into_cmds (["sort".toList] ++ ("<".toList ++ "in.txt".toList) :: [">>out".toList])
        64
      = parse_tokens_into_cmds
          (["sort".toList] ++ "<".toList :: "in.txt".toList :: [">>out".toList]) 64 :=
  glued_redirect_eq_spaced 64 ["sort".toList] [">>out".toList] "<".toList "in.txt".toList
    (by decide) (by decide) (by decide) (by decide)

/-- C14 (counterexample): after the tokens `cat`, `<` the single token `<x`
becomes the input file `<x`, while the two tokens `<`, `x` give the input file
`<` and the argument `x`. -/
theorem glued_redirect_after_bare_differs :
    parse_tokens_into_cmds (["cat".toList, "<".toList] ++ ("<".toList ++ "x".toList) :: []) 64
        = some [⟨["cat".toList], some "<x".toList, none, false⟩] ∧
      parse_tokens_into_cmds (["cat".toList, "<".toList] ++ "<".toList :: "x".toList :: []) 64
        = some [⟨["cat".toList, "x".toList], some "<".toList, none, false⟩] ∧
      parse_tokens_into_cmds (["cat".toList, "<".toList] ++ ("<".toList ++ "x".toList) :: []) 64
        ≠ parse_tokens_into_cmds
            (["cat".toList, "<".toList] ++ "<".toList :: "x".toList :: []) 64 := by
  decide

/-- C16 (code at the failing input): the line `echo a |` parses into two stages,
the second with an empty argv; it is not rejected. -/
theorem trailing_pipe_is_accepted :
    cmd_exec_parse (fun _ => none) "echo a |".toList
        = some (some [Cmd.plain ["echo".toList, "a".toList], Cmd.plain []]) ∧
      parse_tokens_into_cmds ["echo".toList, "a".toList, "|".toList] 64
        = some [Cmd.plain ["echo".toList, "a".toList], Cmd.plain []] := by
  decide

theorem not_bare_of_no_redirect_head (tk : CStr)
    (h : tk.head? ≠ some '<' ∧ tk.head? ≠ some '>') : is_bare_redirect tk = false := by
  cases hb : is_bare_redirect tk with
  | false => rfl
  | true =>
    rcases (is_bare_redirect_iff tk).1 hb with rfl | rfl | rfl
    · exact absurd rfl h.1
    · exact absurd rfl h.2
    · exact absurd rfl h.2

theorem parse_loop_stage_count (m : Nat) (tokens : List CStr)
    (hno : ∀ t ∈ tokens, t.head? ≠ some '<' ∧ t.head? ≠ some '>') :
    ∀ (done : List Cmd) (cur : Cmd), done.length + 1 ≤ m →
      (done.length + tokens.count ['|'] + 1 ≤ m →
        ∃ cmds, parse_loop m tokens done cur = some cmds ∧
          cmds.length = done.length + tokens.count ['|'] + 1) ∧
      (m < done.length + tokens.count ['|'] + 1 → parse_loop m tokens done cur = none) := by
  induction tokens with
  | nil =>
    intro done cur hd
    refine ⟨fun _ => ⟨done ++ [cur], by unfold parse_loop; rfl, by simp⟩, fun h => ?_⟩
    simp at h; omega
  | cons tk rest ih =>
    intro done cur hd
    have ih2 := ih fun t ht => hno t (List.mem_cons_of_mem _ ht)
    by_cases hp : tk = ['|']
    · subst hp
      have hcount : (['|'] :: rest).count ['|'] = rest.count ['|'] + 1 := by simp
      rw [hcount]
      by_cases hfull : done.length + 1 ≥ m
      · refine ⟨fun h => by omega, fun _ => parse_loop_pipe_full m rest done cur hfull⟩
      · rw [parse_loop_pipe m rest done cur (by omega)]
        obtain ⟨h1, h2⟩ := ih2 (done ++ [cur]) Cmd.empty (by simp; omega)
        simp only [List.length_append, List.length_singleton] at h1 h2
        refine ⟨fun h => ?_, fun h => h2 (by omega)⟩
        obtain ⟨cmds, hc1, hc2⟩ := h1 (by omega)
        exact ⟨cmds, hc1, by omega⟩
    · have hcount : (tk :: rest).count ['|'] = rest.count ['|'] := by
        rw [List.count_cons_of_ne]; exact fun h => hp h.symm
      rw [hcount, parse_loop_single m tk rest done cur hp
        (not_bare_of_no_redirect_head tk (hno tk (List.mem_cons_self _ _)))]
      exact ih2 done _ hd

theorem parse_loop_writes_lt (m : Nat) :
    ∀ (n : Nat) (tokens : List CStr), tokens.length ≤ n → ∀ idx, idx < m →
      ∀ i ∈ parse_loop_writes m tokens idx, i < m := by
  intro n
  induction n with
  | zero =>
    intro tokens hn idx hidx i hi
    have : tokens = [] := List.eq_nil_of_length_eq_zero (by omega)
    subst this
    simp only [parse_loop_writes, List.mem_singleton] at hi
    omega
  | succ n ih =>
    intro tokens hn idx hidx i hi
    cases tokens with
    | nil =>
      simp only [parse_loop_writes, List.mem_singleton] at hi
      omega
    | cons tk rest =>
      have hlen : rest.length ≤ n := by simpa using hn
      unfold parse_loop_writes at hi
      by_cases hp : tk = ['|']
      · simp only [hp, if_true, List.mem_cons] at hi
        rcases hi with rfl | hi
        · exact hidx
        · by_cases hfull : idx + 1 ≥ m
          · simp [hfull] at hi
          · simp only [hfull, if_false, List.mem_cons] at hi
            rcases hi with rfl | hi
            · omega
            · exact ih rest hlen (idx + 1) (by omega) i hi
      · simp only [hp, if_false] at hi
        by_cases hb : is_bare_redirect tk = true
        · simp only [hb, if_true] at hi
          cases rest with
          | nil => simp at hi
          | cons f rest2 =>
            simp only [List.mem_cons] at hi
            rcases hi with rfl | hi
            · exact hidx
            · exact ih rest2 (by simp only [List.length_cons] at hlen; omega) idx hidx i hi
        · simp only [hb, if_false, List.mem_cons, Bool.false_eq_true] at hi
          rcases hi with rfl | hi
          · exact hidx
          · exact ih rest hlen idx hidx i hi

/-- C17: for every token list without a redirection token that contains `k`
tokens `|`, `parse_tokens_into_cmds` with `max_cmds = 64` returns -1 when
`k >= 64` and returns `k + 1` stages when `k <= 63`, and every stage index it
stores into is below 64. -/
theorem parse_enforces_stage_limit (tokens : List CStr)
    (hno : ∀ t ∈ tokens, t.head? ≠ some '<' ∧ t.head? ≠ some '>') :
    (64 ≤ tokens.count ['|'] → parse_tokens_into_cmds tokens 64 = none) ∧
      (tokens.count ['|'] ≤ 63 →
        ∃ cmds, parse_tokens_into_cmds tokens 64 = some cmds ∧
          cmds.length = tokens.count ['|'] + 1) ∧
      (∀ i ∈ parse_writes tokens 64, i < 64) := by
  obtain ⟨h1, h2⟩ := parse_loop_stage_count 64 tokens hno [] Cmd.empty (by simp)
  simp only [List.length_nil, Nat.zero_add] at h1 h2
  refine ⟨fun hk => ?_, fun hk => ?_, ?_⟩
  · unfold parse_tokens_into_cmds
    rw [if_neg (by decide)]
    exact h2 (by omega)
  · unfold parse_tokens_into_cmds
    rw [if_neg (by decide)]
    exact h1 (by omega)
  · intro i hi
    unfold parse_writes at hi
    rw [if_neg (by decide)] at hi
    rcases List.mem_append.1 hi with hi | hi
    · exact List.mem_range.1 hi
    · rcases List.mem_cons.1 hi with rfl | hi
      · decide
      · exact parse_loop_writes_lt 64 tokens.length tokens (le_refl _) 0 (by decide) i hi

theorem parse_enforces_stage_limit_witness :
    (∃ cmds, parse_tokens_into_cmds ["a".toList, "|".toList, "b".toList, "|".toList, "c".toList]
        64 = some cmds ∧ cmds.length = 3) ∧
      parse_tokens_into_cmds (List.replicate 64 "|".toList) 64 = none :=
  ⟨(parse_enforces_stage_limit ["a".toList, "|".toList, "b".toList, "|".toList, "c".toList]
      (by decide)).2.1 (by decide),
    (parse_enforces_stage_limit (List.replicate 64 "|".toList) (by decide)).1 (by decide)⟩

/-! ## Theorems: quoting -/

theorem quote_char_ne_space (single : Bool) : is_tok_space (quote_char single) = false := by
  cases single <;> decide

theorem scan_token_open_quote (single : Bool) (tmp p : CStr) :
    scan_token false false tmp (quote_char single :: p) = scan_token single (!single) tmp p := by
  cases single
  · conv_lhs => unfold scan_token
    simp [quote_char]
  · conv_lhs => unfold scan_token
    simp [quote_char]

theorem scan_token_close_quote (single : Bool) (tmp p : CStr) :
    scan_token single (!single) tmp (quote_char single :: p) = scan_token false false tmp p := by
  cases single
  · conv_lhs => unfold scan_token
    simp [quote_char]
  · conv_lhs => unfold scan_token
    simp [quote_char]

theorem scan_token_in_quotes_lit (single : Bool) (tmp p : CStr) (c : Char)
    (hc : c ≠ quote_char single) (hb : c ≠ '\\') :
    scan_token single (!single) tmp (c :: p)
      = if (tmp ++ [c]).length ≥ TMP_SIZE - 2 then (tmp ++ [c], p)
        else scan_token single (!single) (tmp ++ [c]) p := by
  cases single
  · have hc2 : c ≠ '"' := hc
    conv_lhs => unfold scan_token
    simp [hc2, hb]
  · have hc2 : c ≠ '\'' := hc
    conv_lhs => unfold scan_token
    simp [hc2, hb]

theorem scan_token_in_quotes_esc (single : Bool) (tmp p : CStr) (d : Char) :
    scan_token single (!single) tmp ('\\' :: d :: p)
      = scan_token single (!single) (tmp ++ [unescape d]) p := by
  cases single
  · conv_lhs => unfold scan_token
    simp
  · conv_lhs => unfold scan_token
    simp

theorem scan_token_in_quotes (single : Bool) (items : List QItem) (tmp rest : CStr)
    (hq : quotable single items) (hlen : tmp.length + items.length ≤ TMP_SIZE - 3) :
    scan_token single (!single) tmp (render_items items ++ rest)
      = scan_token single (!single) (tmp ++ item_values items) rest := by
  induction items generalizing tmp with
  | nil => simp [render_items, item_values]
  | cons it items ih =>
    have hq2 : quotable single items := fun x hx => hq x (List.mem_cons_of_mem _ hx)
    have hit := hq it (List.mem_cons_self _ _)
    simp only [List.length_cons] at hlen
    cases it with
    | lit c =>
      simp only [QItem.ok, Bool.and_eq_true, bne_iff_ne, ne_eq] at hit
      have hnf : ¬ (tmp ++ [c]).length ≥ TMP_SIZE - 2 := by
        simp only [List.length_append, List.length_singleton, TMP_SIZE] at hlen ⊢
        omega
      simp only [render_items, QItem.render, List.singleton_append, List.cons_append,
        List.nil_append]
      rw [scan_token_in_quotes_lit single tmp _ c hit.1 hit.2, if_neg hnf,
        ih (tmp ++ [c]) hq2 (by simp only [List.length_append, List.length_singleton]; omega)]
      simp [item_values, QItem.value]
    | esc d =>
      simp only [render_items, QItem.render, List.cons_append, List.nil_append]
      rw [scan_token_in_quotes_esc single tmp _ d]
      by_cases hlast : tmp.length + 1 + items.length ≤ TMP_SIZE - 3
      · rw [ih (tmp ++ [unescape d]) hq2
          (by simp only [List.length_append, List.length_singleton]; exact hlast)]
        simp [item_values, QItem.value]
      · omega

theorem tokenize_loop_quoted (single : Bool) (n : Nat) (items : List QItem) (rest : CStr)
    (hq : quotable single items) (hlen : items.length ≤ TMP_SIZE - 3) (hrest : at_word_end rest) :
    tokenize_loop (n + 1) (quote_char single :: (render_items items ++ quote_char single :: rest))
      = item_values items :: tokenize_loop n rest := by
  have hskip : skip_spaces (quote_char single :: (render_items items ++ quote_char single :: rest))
      = quote_char single :: (render_items items ++ quote_char single :: rest) := by
    simp [skip_spaces, quote_char_ne_space]
  have hscan : scan_token false false []
      (quote_char single :: (render_items items ++ quote_char single :: rest))
      = (item_values items, rest) := by
    rw [scan_token_open_quote, scan_token_in_quotes single items [] _ hq (by simpa using hlen),
      scan_token_close_quote]
    have := scan_token_word [] rest (item_values items) (by simp) hrest
      (by simp only [List.append_nil, item_values, List.length_map, TMP_SIZE] at hlen ⊢; omega)
    simpa using this
  simp only [tokenize_loop, hskip, hscan]

theorem render_items_lit (s : CStr) : render_items (s.map QItem.lit) = s := by
  induction s with
  | nil => rfl
  | cons c s ih => simp [render_items, QItem.render, ih]

theorem item_values_lit (s : CStr) : item_values (s.map QItem.lit) = s := by
  induction s with
  | nil => rfl
  | cons c s ih =>
    simp only [item_values, List.map_cons, QItem.value, List.map_map] at ih ⊢
    rw [ih]

theorem quotable_lit (single : Bool) (s : CStr)
    (hs : ∀ c ∈ s, c ≠ quote_char single ∧ c ≠ '\\') : quotable single (s.map QItem.lit) := by
  intro it hit
  obtain ⟨c, hc, rfl⟩ := List.mem_map.1 hit
  simp [QItem.ok, (hs c hc).1, (hs c hc).2]

theorem tokenize_loop_quoted_text (single : Bool) (n : Nat) (s rest : CStr)
    (hs : ∀ c ∈ s, c ≠ quote_char single ∧ c ≠ '\\') (hlen : s.length ≤ TMP_SIZE - 3)
    (hrest : at_word_end rest) :
    tokenize_loop (n + 1) (quote_char single :: (s ++ quote_char single :: rest))
      = s :: tokenize_loop n rest := by
  have := tokenize_loop_quoted single n (s.map QItem.lit) rest (quotable_lit single s hs)
    (by simpa using hlen) hrest
  rwa [render_items_lit, item_values_lit] at this

/-- C12 (amended): for every string `s` of at most 8189 bytes that contains no
single quote and no backslash, `tokenize_quoted` applied to `s` wrapped in
single quotes returns exactly one token equal to `s` byte for byte, so double
quotes and white space inside single quotes are kept unchanged. -/
theorem single_quotes_keep_text (s : CStr) (hs : ∀ c ∈ s, c ≠ '\'' ∧ c ≠ '\\')
    (hlen : s.length ≤ TMP_SIZE - 3) :
    tokenize_quoted ('\'' :: (s ++ ['\''])) 512 = [s] := by
  have := tokenize_loop_quoted_text true 510 s [] hs hlen (Or.inl rfl)
  rw [tokenize_loop_nil] at this
  exact this

theorem single_quotes_keep_text_witness :
    tokenize_quoted ('\'' :: ("a \"|\" b".toList ++ ['\''])) 512 = ["a \"|\" b".toList] :=
  single_quotes_keep_text "a \"|\" b".toList (by decide) (by decide)

/-- C12 (counterexample): inside single quotes the two bytes backslash, `n` are
decoded to a newline, so the token differs from the quoted text. -/
theorem single_quotes_decode_backslash :
    tokenize_quoted ('\'' :: (['a', '\\', 'n', 'b'] ++ ['\''])) 512 = [['a', '\n', 'b']] ∧
      tokenize_quoted ('\'' :: (['a', '\\', 'n', 'b'] ++ ['\''])) 512 ≠ [['a', '\\', 'n', 'b']] := by
  decide

theorem words_spec_ne_nil (line : CStr) : ∀ t ∈ words_spec line, t ≠ [] := by
  intro t ht
  unfold words_spec at ht
  have := (List.mem_filter.1 ht).2
  intro h
  rw [h] at this
  simp at this

theorem tokenize_unquoted_line :
    ∀ (k : Nat) (line : CStr), line.length ≤ k → unquoted_line line →
      (∀ t ∈ words_spec line, t.length ≤ TMP_SIZE - 2) →
      ∀ n, tokenize_loop n line = (words_spec line).take n := by
  intro k
  induction k with
  | zero =>
    intro line hk _ _ n
    have : line = [] := List.eq_nil_of_length_eq_zero (by omega)
    subst this
    rw [tokenize_loop_nil, words_spec_nil, List.take_nil]
  | succ k ih =>
    intro line hk hline hlen n
    cases line with
    | nil => rw [tokenize_loop_nil, words_spec_nil, List.take_nil]
    | cons c p =>
      by_cases hc : is_tok_space c = true
      · rw [tokenize_loop_space n c p hc]
        rw [words_spec_space c p hc] at hlen ⊢
        exact ih p (by simpa using hk) (fun d hd => hline d (List.mem_cons_of_mem _ hd)) hlen n
      · have hc2 : is_tok_space c = false := by simpa using hc
        set w := (c :: p).takeWhile (fun x => !is_tok_space x) with hwdef
        set q := (c :: p).dropWhile (fun x => !is_tok_space x) with hqdef
        have hsplit : w ++ q = c :: p := List.takeWhile_append_dropWhile _ _
        have hwne : w ≠ [] := by
          rw [hwdef, List.takeWhile_cons]; simp [hc2]
        have hwns : ∀ d ∈ w, is_tok_space d = false := fun d hd => by
          have := List.mem_takeWhile_imp hd
          simpa using this
        have hww : ∀ d ∈ w, word_char d := fun d hd => by
          have hmem : d ∈ c :: p := by rw [← hsplit]; exact List.mem_append_left _ hd
          obtain ⟨h1, h2, h3⟩ := hline d hmem
          exact ⟨hwns d hd, h1, h2, h3⟩
        have hq : at_word_end q := by
          cases hq0 : q with
          | nil => left; rfl
          | cons d q2 =>
            right
            refine ⟨d, q2, rfl, ?_⟩
            have := dropWhile_head_false (fun x => !is_tok_space x) (c :: p) d q2
              (by rw [← hqdef, hq0])
            simpa using this
        have hqlen : q.length ≤ k := by
          have := congrArg List.length hsplit
          have hwpos : 0 < w.length := List.length_pos.2 hwne
          simp only [List.length_append, List.length_cons] at this hk
          omega
        have hqline : unquoted_line q := fun d hd =>
          hline d (by rw [← hsplit]; exact List.mem_append_right _ hd)
        rw [← hsplit] at hlen ⊢
        rw [words_spec_word w q hwne hwns hq] at hlen ⊢
        cases n with
        | zero => rfl
        | succ n =>
          rw [tokenize_loop_word n w q hwne hww hq (hlen w (List.mem_cons_self _ _)),
            List.take_succ_cons,
            ih q hqlen hqline (fun t ht => hlen t (List.mem_cons_of_mem _ ht)) n]

/-- C13 (amended): a double-quoted segment of at most 8189 pieces, where a
piece is a byte other than `"` and backslash or a backslash followed by a
byte, is read as one token (here in front of the end of the line or of white
space): embedded spaces and tabs are kept and the escapes backslash-`n`,
backslash-`t`, backslash-backslash, backslash-`"`, backslash-`'` give
newline, tab, backslash, double quote and apostrophe. On a line without
quotes and backslashes that has at most 511 words of at most 8190 bytes, the
tokens are exactly the maximal runs without space, tab and newline, and none
is empty. -/
theorem double_quotes_and_separators (n : Nat) (items : List QItem) (rest line : CStr)
    (hq : quotable false items) (hlen : items.length ≤ TMP_SIZE - 3) (hrest : at_word_end rest)
    (hline : unquoted_line line) (hwords : (words_spec line).length ≤ 511)
    (hwlen : ∀ t ∈ words_spec line, t.length ≤ TMP_SIZE - 2) :
    tokenize_loop (n + 1) ('"' :: (render_items items ++ '"' :: rest))
        = item_values items :: tokenize_loop n rest ∧
      tokenize_quoted ('"' :: (render_items items ++ ['"'])) 512 = [item_values items] ∧
      (QItem.esc 'n').value = '\n' ∧ (QItem.esc 't').value = '\t' ∧
      (QItem.esc '\\').value = '\\' ∧ (QItem.esc '"').value = '"' ∧
      (QItem.esc '\'').value = '\'' ∧ (QItem.lit ' ').value = ' ' ∧
      (QItem.lit '\t').value = '\t' ∧
      tokenize_quoted line 512 = words_spec line ∧
      (∀ t ∈ tokenize_quoted line 512, t ≠ []) := by
  have h1 := tokenize_loop_quoted false n items rest hq hlen hrest
  have h2 := tokenize_loop_quoted false 510 items [] hq hlen (Or.inl rfl)
  rw [tokenize_loop_nil] at h2
  have h3 : tokenize_quoted line 512 = words_spec line := by
    unfold tokenize_quoted
    rw [tokenize_unquoted_line line.length line (le_refl _) hline hwlen]
    exact List.take_of_length_le hwords
  refine ⟨h1, h2, rfl, rfl, rfl, rfl, rfl, rfl, rfl, h3, ?_⟩
  rw [h3]
  exact words_spec_ne_nil line

theorem double_quotes_and_separators_witness :
    tokenize_quoted "\"a b\\n\\\"c\\\"\"".toList 512 = ["a b\n\"c\"".toList] ∧
      tokenize_quoted "ls  -l \t x\n".toList 512 = ["ls".toList, "-l".toList, "x".toList] := by
  have h := double_quotes_and_separators 0
    [QItem.lit 'a', QItem.lit ' ', QItem.lit 'b', QItem.esc 'n', QItem.esc '"', QItem.lit 'c',
      QItem.esc '"'] [] "ls  -l \t x\n".toList (by decide) (by decide) (Or.inl rfl)
    (by decide) (by decide) (by decide)
  exact ⟨h.2.1, h.2.2.2.2.2.2.2.2.2.1⟩

/-- C13 (counterexample): on the line of 512 one-letter words separated by
spaces only the first 511 words become tokens, so the last run of spaces but
one separates no two tokens. -/
theorem separators_beyond_511_tokens :
    unquoted_line (many_words 512) ∧ words_spec (many_words 512) = List.replicate 512 ['a'] ∧
      tokenize_quoted (many_words 512) 512 = List.replicate 511 ['a'] := by
  have hw : ∀ n, words_spec (many_words n) = List.replicate n ['a'] := by
    intro n
    induction n with
    | zero => exact words_spec_nil
    | succ n ih =>
      rw [many_words_succ, words_spec_word ['a'] _ (by simp) (by decide)
        (Or.inr ⟨' ', _, rfl, by decide⟩), words_spec_space _ _ (by decide), ih]
      rfl
  have hu : unquoted_line (many_words 512) := by
    intro c hc
    rcases plain_line_many_words 512 c hc with h | h | h
    · exact ⟨(plain_char_ne h).2.1, (plain_char_ne h).1, (plain_char_ne h).2.2.1⟩
    · refine ⟨?_, ?_, ?_⟩ <;> (rintro rfl; simp [is_tok_space] at h)
    · subst h; decide
  refine ⟨hu, hw 512, ?_⟩
  unfold tokenize_quoted
  rw [tokenize_unquoted_line _ _ (le_refl _) hu (by
    rw [hw]; intro t ht; rw [List.eq_of_mem_replicate ht]; simp [TMP_SIZE]), hw,
    List.take_replicate]
  congr 1

theorem scan_token_in_quotes_cut (single : Bool) (s tmp rest : CStr)
    (hs : ∀ c ∈ s, c ≠ quote_char single ∧ c ≠ '\\') (hne : s ≠ [])
    (hlen : tmp.length + s.length = TMP_SIZE - 2) :
    scan_token single (!single) tmp (s ++ rest) = (tmp ++ s, rest) := by
  induction s generalizing tmp with
  | nil => exact absurd rfl hne
  | cons c s ih =>
    obtain ⟨h1, h2⟩ := hs c (List.mem_cons_self _ _)
    rw [List.cons_append, scan_token_in_quotes_lit single tmp _ c h1 h2]
    simp only [List.length_cons] at hlen
    by_cases hsnil : s = []
    · subst hsnil
      simp only [List.length_nil] at hlen
      rw [if_pos (by simp only [List.length_append, List.length_singleton]; omega)]
      rfl
    · have hpos : 0 < s.length := List.length_pos.2 hsnil
      rw [if_neg (by simp only [List.length_append, List.length_singleton]; omega),
        ih (tmp ++ [c]) (fun d hd => hs d (List.mem_cons_of_mem _ hd)) hsnil
          (by simp only [List.length_append, List.length_singleton]; omega)]
      simp

theorem tokenize_loop_quoted_cut (single : Bool) (n : Nat) (s rest : CStr)
    (hs : ∀ c ∈ s, c ≠ quote_char single ∧ c ≠ '\\') (hlen : s.length = TMP_SIZE - 2) :
    tokenize_loop (n + 1) (quote_char single :: (s ++ rest)) = s :: tokenize_loop n rest := by
  have hne : s ≠ [] := by
    intro h; rw [h] at hlen; simp [TMP_SIZE] at hlen
  have hskip : skip_spaces (quote_char single :: (s ++ rest)) = quote_char single :: (s ++ rest) := by
    simp [skip_spaces, quote_char_ne_space]
  have hscan : scan_token false false [] (quote_char single :: (s ++ rest)) = (s, rest) := by
    rw [scan_token_open_quote, scan_token_in_quotes_cut single s [] rest hs hne (by simpa using hlen)]
    rfl
  simp only [tokenize_loop, hskip, hscan]

/-- The bound of 8189 bytes is sharp: a double-quoted text of 8190 letters is
cut before its closing quote, which then opens a second, empty token. -/
theorem quoted_text_of_8190_bytes_is_split :
    tokenize_quoted ('"' :: (long_word 8190 ++ ['"'])) 512 = [long_word 8190, []] := by
  have h := tokenize_loop_quoted_cut false 510 (long_word 8190) ['"']
    (fun c hc => by rw [List.eq_of_mem_replicate hc]; decide)
    (by rw [long_word, List.length_replicate]; rfl)
  have h2 : tokenize_loop 510 ['"'] = [[]] := by decide
  rw [h2] at h
  exact h

theorem preprocess_pipes_loop_open_quote (single : Bool) (p : CStr) :
    preprocess_pipes_loop false false (quote_char single :: p)
      = quote_char single :: preprocess_pipes_loop single (!single) p := by
  cases single <;> simp [preprocess_pipes_loop, quote_char]

theorem preprocess_pipes_loop_in_quotes (single : Bool) (s rest : CStr)
    (hs : ∀ c ∈ s, c ≠ quote_char single) :
    preprocess_pipes_loop single (!single) (s ++ quote_char single :: rest)
      = s ++ quote_char single :: preprocess_pipes_loop false false rest := by
  induction s with
  | nil => cases single <;> simp [preprocess_pipes_loop, quote_char]
  | cons c s ih =>
    have hc := hs c (List.mem_cons_self _ _)
    have ih2 := ih fun d hd => hs d (List.mem_cons_of_mem _ hd)
    cases single
    · have hc2 : c ≠ '"' := hc
      simp only [List.cons_append, preprocess_pipes_loop, Bool.not_false, Bool.not_true] at ih2 ⊢
      simp [hc2, ih2]
    · have hc2 : c ≠ '\'' := hc
      simp only [List.cons_append, preprocess_pipes_loop, Bool.not_false, Bool.not_true] at ih2 ⊢
      simp [hc2, ih2]

theorem parse_loop_args (m : Nat) (args rest : List CStr) (hargs : ∀ t ∈ args, arg_token t)
    (done : List Cmd) (cur : Cmd) :
    parse_loop m (args ++ rest) done cur
      = parse_loop m rest done { cur with argv := cur.argv ++ args } := by
  induction args generalizing cur with
  | nil => simp
  | cons t args ih =>
    obtain ⟨h1, h2, h3⟩ := hargs t (List.mem_cons_self _ _)
    rw [List.cons_append, parse_loop_single m t _ done cur h1
      (not_bare_of_no_redirect_head t ⟨h2, h3⟩),
      ih (fun u hu => hargs u (List.mem_cons_of_mem _ hu))]
    have h4 : ¬ t.take 2 = ['>', '>'] := by
      intro h
      cases t with
      | nil => simp at h
      | cons a t2 =>
        have : a = '>' := by
          cases t2 with
          | nil => simp at h
          | cons b t3 => simp at h; exact h.1
        exact h3 (by simp [this])
    simp [single_token, h2, h3, h4]

theorem arg_token_of_plain_word (w : CStr) (hw : plain_word w) : arg_token w := by
  obtain ⟨hne, hall⟩ := hw
  cases w with
  | nil => exact absurd rfl hne
  | cons c t =>
    obtain ⟨-, -, -, h4, h5, h6⟩ := plain_char_ne (hall c (List.mem_cons_self _ _))
    refine ⟨?_, ?_, ?_⟩
    · intro h; exact h4 (List.cons.inj h).1
    · simpa using h5
    · simpa using h6

theorem arg_token_of_not_operator (s : CStr) (h : is_operator_token s = false) : arg_token s := by
  simp only [is_operator_token, Bool.or_eq_false_iff, beq_eq_false_iff_ne, ne_eq] at h
  obtain ⟨⟨⟨⟨⟨h1, -⟩, -⟩, -⟩, h5⟩, h6⟩ := h
  exact ⟨h1, h5, h6⟩

theorem parse_args_only (args : List CStr) (hargs : ∀ t ∈ args, arg_token t) :
    parse_tokens_into_cmds args 64 = some [Cmd.plain args] := by
  unfold parse_tokens_into_cmds
  rw [if_neg (by decide)]
  have := parse_loop_args 64 args [] hargs [] Cmd.empty
  rw [List.append_nil] at this
  rw [this]
  unfold parse_loop
  simp [Cmd.empty, Cmd.plain]

theorem tokenize_word_then_quoted (single : Bool) (c s : CStr) (hc : plain_word c)
    (hclen : c.length ≤ TMP_SIZE - 2) (hs : ∀ x ∈ s, x ≠ quote_char single ∧ x ≠ '\\')
    (hslen : s.length ≤ TMP_SIZE - 3) :
    tokenize_quoted
        (preprocess_pipes (c ++ ' ' :: quote_char single :: (s ++ [quote_char single]))) 512
      = [c, s] := by
  have hpre : preprocess_pipes (c ++ ' ' :: quote_char single :: (s ++ [quote_char single]))
      = c ++ ' ' :: quote_char single :: (s ++ [quote_char single]) := by
    unfold preprocess_pipes
    rw [preprocess_pipes_loop_plain c _ hc.2, preprocess_pipes_loop_space _ _ (by decide),
      preprocess_pipes_loop_open_quote,
      preprocess_pipes_loop_in_quotes single s [] fun x hx => (hs x hx).1]
    rfl
  rw [hpre]
  unfold tokenize_quoted
  show tokenize_loop (510 + 1) _ = _
  rw [tokenize_loop_word 510 c _ hc.1 (word_char_of_plain_word c hc)
    (Or.inr ⟨' ', _, rfl, by decide⟩) hclen, tokenize_loop_space _ _ _ (by decide)]
  show _ :: tokenize_loop (509 + 1) _ = _
  rw [tokenize_loop_quoted_text single 509 s [] hs hslen (Or.inl rfl), tokenize_loop_nil]

/-- The expansion of a command word without glob character followed by one
token that `glob` replaces by the names `m :: ms`: the block of 24 pointers is
doubled in time by the loop over the matches. -/
theorem expand_word_then_matches (fs : CStr → Option (List CStr)) (c s m : CStr)
    (ms : List CStr) (hcop : (is_operator_token c || !contains_glob_chars c) = true)
    (hsop : (is_operator_token s || !contains_glob_chars s) = false)
    (hfs : fs s = some (m :: ms)) :
    expand_tokens_with_glob fs [c, s] = some (c :: m :: ms) := by
  have hg : glob fs s = (0, m :: ms) := by simp [glob, hfs]
  obtain ⟨c2, e, -, -, -⟩ := store_matches_ok (m :: ms) [c] 24 (by simp) (by decide)
  unfold expand_tokens_with_glob
  show expand_loop fs [c, s] [] 24 = _
  unfold expand_loop
  rw [if_pos hcop, store_token_some [] 24 c (by decide)]
  unfold expand_loop
  rw [if_neg (by rw [hsop]; decide), hg, if_pos rfl]
  simp only [List.nil_append, e, expand_loop, List.singleton_append]

/-- C18 (amended): a token written inside single or double quotes is
glob-expanded like an unquoted one. For every plain command word `c` and
every quoted text `s` (at most 8189 bytes, without the quote character and
backslash, with a glob character, not an operator token), parsing `c`
followed by the quoted `s` places `s` in argv as one literal argument when
the filesystem has no match for `s` or globbing fails; when files match, the
matching names take the place of `s` in the token list that
`parse_tokens_into_cmds` receives, whatever the names are, and this gives the
argv `c` followed by the names when none of them is `|` or begins with `<` or
`>`. -/
theorem quoted_glob_token_is_expanded (fs : CStr → Option (List CStr)) (single : Bool)
    (c s : CStr) (hc : plain_word c) (hclen : c.length ≤ TMP_SIZE - 2)
    (hs : ∀ x ∈ s, x ≠ quote_char single ∧ x ≠ '\\') (hslen : s.length ≤ TMP_SIZE - 3)
    (hglob : contains_glob_chars s = true) (hop : is_operator_token s = false) :
    (fs s = none ∨ fs s = some [] →
      cmd_exec_parse fs (c ++ ' ' :: quote_char single :: (s ++ [quote_char single]))
        = some (some [Cmd.plain [c, s]])) ∧
    (∀ m ms, fs s = some (m :: ms) →
      cmd_exec_parse fs (c ++ ' ' :: quote_char single :: (s ++ [quote_char single]))
          = some (parse_tokens_into_cmds (c :: m :: ms) 64) ∧
        ((∀ t ∈ m :: ms, arg_token t) →
          cmd_exec_parse fs (c ++ ' ' :: quote_char single :: (s ++ [quote_char single]))
            = some (some [Cmd.plain (c :: m :: ms)]))) := by
  have htok := tokenize_word_then_quoted single c s hc hclen hs hslen
  have hcop : (is_operator_token c || !contains_glob_chars c) = true := by
    rw [plain_word_no_glob c hc]; simp
  have hsop : (is_operator_token s || !contains_glob_chars s) = false := by
    rw [hop, hglob]; rfl
  have hca := arg_token_of_plain_word c hc
  have hsa := arg_token_of_not_operator s hop
  constructor
  · intro hfs
    have hexp : expand_tokens_with_glob fs [c, s] = some [c, s] := by
      apply expand_tokens_unmatched
      intro t ht
      simp only [List.mem_cons, List.mem_singleton, List.not_mem_nil, or_false] at ht
      rcases ht with rfl | rfl
      · exact Or.inr (Or.inl (plain_word_no_glob _ hc))
      · exact Or.inr (Or.inr hfs.symm)
    rw [cmd_exec_parse_of_tokens fs _ _ _ htok (List.cons_ne_nil _ _) hexp (List.cons_ne_nil _ _)]
    exact congrArg some (parse_args_only [c, s] (by
      intro t ht
      simp only [List.mem_cons, List.mem_singleton, List.not_mem_nil, or_false] at ht
      rcases ht with rfl | rfl
      · exact hca
      · exact hsa))
  · intro m ms hfs
    have hexp := expand_word_then_matches fs c s m ms hcop hsop hfs
    have hp := cmd_exec_parse_of_tokens fs _ _ _ htok (List.cons_ne_nil _ _) hexp
      (List.cons_ne_nil _ _)
    refine ⟨hp, fun hargs => ?_⟩
    rw [hp]
    exact congrArg some (parse_args_only (c :: m :: ms) (by
      intro t ht
      rcases List.mem_cons.1 ht with rfl | ht
      · exact hca
      · exact hargs t ht))

theorem quoted_glob_token_is_expanded_witness :
    cmd_exec_parse (fun _ => some []) "ls '*.c'".toList
        = some (some [Cmd.plain ["ls".toList, "*.c".toList]]) ∧
      cmd_exec_parse fs_two_c_files "ls \"*.c\"".toList
        = some (some [Cmd.plain ["ls".toList, "a.c".toList, "b.c".toList]]) :=
  ⟨(quoted_glob_token_is_expanded (fun _ => some []) true "ls".toList "*.c".toList (by decide)
      (by decide) (by decide) (by decide) (by decide) (by decide)).1 (Or.inr rfl),
    ((quoted_glob_token_is_expanded fs_two_c_files false "ls".toList "*.c".toList (by decide)
      (by decide) (by decide) (by decide) (by decide) (by decide)).2 "a.c".toList ["b.c".toList]
      (by decide)).2 (by decide)⟩

/-- C18 (counterexample): in a directory that holds `a.c` and `b.c` the line
`ls '*.c'` is parsed to the argv `ls`, `a.c`, `b.c`, not to `ls`, `*.c`. -/
theorem quoted_glob_is_not_literal :
    cmd_exec_parse fs_two_c_files "ls '*.c'".toList
        = some (some [Cmd.plain ["ls".toList, "a.c".toList, "b.c".toList]]) ∧
      cmd_exec_parse fs_two_c_files "ls '*.c'".toList
        ≠ some (some [Cmd.plain ["ls".toList, "*.c".toList]]) := by
  decide

/-! ## Theorems: stage wiring -/

theorem mw_scan_cmd_plain (c : CStr) :
    ∀ (tmp rest : CStr), (∀ x ∈ c, x ≠ '"' ∧ x ≠ '\\') → (tmp ++ c).length ≤ TMP_SIZE - 2 →
      mw_scan_cmd tmp (c ++ '"' :: rest) = (tmp ++ c, rest) := by
  induction c with
  | nil =>
    intro tmp rest _ _
    cases rest with
    | nil => simp [mw_scan_cmd]
    | cons d r2 => simp [mw_scan_cmd]
  | cons x c ih =>
    intro tmp rest hc hlen
    obtain ⟨hx1, hx2⟩ := hc x (List.mem_cons_self _ _)
    obtain ⟨d, r2, hd⟩ : ∃ d r2, c ++ '"' :: rest = d :: r2 := by
      cases c with
      | nil => exact ⟨_, _, rfl⟩
      | cons a c2 => exact ⟨_, _, rfl⟩
    have hl : ¬ (tmp ++ [x]).length ≥ TMP_SIZE - 1 := by
      simp only [List.length_append, List.length_cons, List.length_nil, TMP_SIZE] at hlen ⊢
      omega
    rw [List.cons_append, hd]
    unfold mw_scan_cmd
    rw [if_neg hx2, if_neg hx1, if_neg hl, ← hd, ih (tmp ++ [x]) rest
      (fun y hy => hc y (List.mem_cons_of_mem _ hy)) (by simpa using hlen)]
    simp

theorem dropWhile_append_stop {α : Type} (p : α → Bool) (l t : List α)
    (hl : ∀ a ∈ l, p a = true) (ht : t = [] ∨ ∃ a r, t = a :: r ∧ p a = false) :
    (l ++ t).dropWhile p = t := by
  induction l with
  | nil =>
    rcases ht with rfl | ⟨a, r, rfl, ha⟩
    · rfl
    · simp [List.dropWhile, ha]
  | cons b l ih =>
    rw [List.cons_append, List.dropWhile_cons, if_pos (hl b (List.mem_cons_self _ _))]
    exact ih (fun a ha => hl a (List.mem_cons_of_mem _ ha))

theorem takeWhile_append_stop {α : Type} (p : α → Bool) (l : List α) (a : α) (r : List α)
    (hl : ∀ b ∈ l, p b = true) (ha : p a = false) :
    (l ++ a :: r).takeWhile p = l := by
  induction l with
  | nil => simp [List.takeWhile, ha]
  | cons b l ih =>
    rw [List.cons_append, List.takeWhile_cons, if_pos (hl b (List.mem_cons_self _ _)),
      ih (fun c hc => hl c (List.mem_cons_of_mem _ hc))]

theorem mw_list_text_head (items : List (CStr × CStr)) :
    mw_list_text items = [] ∨ ∃ r, mw_list_text items = '"' :: r := by
  cases items with
  | nil => exact Or.inl rfl
  | cons it rest => exact Or.inr ⟨_, rfl⟩

theorem mw_scan_list_items (items : List (CStr × CStr)) :
    ∀ (fuel : Nat) (pre : CStr) (cmds : List CStr), items.length ≤ fuel →
      cmds.length + items.length ≤ 128 → (∀ c ∈ pre, c ≠ '"') →
      (∀ it ∈ items, mw_command it.1 ∧ mw_separator it.2) →
      mw_scan_list fuel (pre ++ mw_list_text items) cmds = cmds ++ items.map Prod.fst := by
  induction items with
  | nil =>
    intro fuel pre cmds _ _ hpre _
    have hd : (pre ++ mw_list_text []).dropWhile (fun c => c != '"') = [] :=
      dropWhile_append_stop _ pre [] (fun a ha => by simpa using hpre a ha) (Or.inl rfl)
    cases fuel with
    | zero => simp [mw_scan_list]
    | succ f =>
      unfold mw_scan_list
      rw [hd]
      simp
  | cons it rest ih =>
    intro fuel pre cmds hfuel hcap hpre hitems
    obtain ⟨c, sep⟩ := it
    obtain ⟨⟨hc, hclen⟩, hsep⟩ := hitems (c, sep) (List.mem_cons_self _ _)
    cases fuel with
    | zero => simp at hfuel
    | succ f =>
      have hd : (pre ++ mw_list_text ((c, sep) :: rest)).dropWhile (fun c => c != '"')
          = '"' :: (c ++ '"' :: (sep ++ mw_list_text rest)) :=
        dropWhile_append_stop _ pre _ (fun a ha => by simpa using hpre a ha)
          (Or.inr ⟨_, _, rfl, by simp⟩)
      have hs : (sep ++ mw_list_text rest).dropWhile (fun c => isspace c || c == ',')
          = mw_list_text rest :=
        dropWhile_append_stop _ sep _
          (fun a ha => by
            rcases hsep a ha with h | h
            · simp [h]
            · simp [h])
          (by
            rcases mw_list_text_head rest with h | ⟨r, h⟩
            · exact Or.inl h
            · exact Or.inr ⟨_, _, h, by decide⟩)
      simp only [List.length_cons] at hfuel hcap
      unfold mw_scan_list
      rw [hd]
      simp only []
      rw [mw_scan_cmd_plain c [] _ (fun x hx => ⟨(hc x hx).1, (hc x hx).2.1⟩)
        (by simpa using hclen)]
      simp only [List.nil_append]
      rw [hs, if_pos (by omega)]
      have hcap2 : (cmds ++ [c]).length + rest.length ≤ 128 := by
        rw [List.length_append, List.length_singleton]
        omega
      have := ih f [] (cmds ++ [c]) (by omega) hcap2 (fun _ h => by simp at h)
        (fun it hit => hitems it (List.mem_cons_of_mem _ hit))
      rw [List.nil_append] at this
      rw [this]
      simp

theorem mw_array_text_line (x : CStr) :
    mw_array_text ("multiwatch [".toList ++ x) = some ('[' :: x) := by
  show mw_array_text ('m' :: 'u' :: 'l' :: 't' :: 'i' :: 'w' :: 'a' :: 't' :: 'c' :: 'h' :: ' ' ::
    '[' :: x) = _
  unfold mw_array_text
  have h1 : isspace 'm' = false := by decide
  have h2 : isspace ' ' = true := by decide
  have h3 : isspace '[' = false := by decide
  have h4 : (['m', 'u', 'l', 't', 'i', 'w', 'a', 't', 'c', 'h'].map Char.toLower)
      = "multiwatch".toList := by decide
  simp only [List.dropWhile, h1, h2, h3, List.take, List.drop, h4, if_true, List.head?]

theorem mw_list_text_no_bracket (items : List (CStr × CStr))
    (hitems : ∀ it ∈ items, mw_command it.1 ∧ mw_separator it.2) :
    ∀ c ∈ mw_list_text items, c ≠ ']' := by
  induction items with
  | nil => intro c hc; simp [mw_list_text] at hc
  | cons it rest ih =>
    obtain ⟨cmd, sep⟩ := it
    obtain ⟨⟨hc, -⟩, hsep⟩ := hitems (cmd, sep) (List.mem_cons_self _ _)
    intro c hmem
    simp only [mw_list_text, List.mem_cons, List.mem_append] at hmem
    rcases hmem with rfl | h | rfl | h | h
    · decide
    · exact (hc c h).2.2
    · decide
    · rcases hsep c h with h2 | rfl
      · intro hb; subst hb; exact absurd h2 (by decide)
      · decide
    · exact ih (fun it hit => hitems it (List.mem_cons_of_mem _ hit)) c h

theorem mw_separator_no_bracket (s : CStr) (hs : mw_separator s) :
    ∀ c ∈ s, c ≠ ']' ∧ c ≠ '"' := by
  intro c hc
  rcases hs c hc with h | rfl
  · constructor
    · intro hb; subst hb; exact absurd h (by decide)
    · intro hb; subst hb; exact absurd h (by decide)
  · exact ⟨by decide, by decide⟩

theorem mw_list_text_length (items : List (CStr × CStr)) :
    items.length ≤ (mw_list_text items).length := by
  induction items with
  | nil => simp
  | cons it rest ih =>
    obtain ⟨c, sep⟩ := it
    simp only [mw_list_text, List.length_cons, List.length_append]
    omega

theorem mw_parse_array_line (lead : CStr) (items : List (CStr × CStr))
    (hlen : items.length ≤ 128) (hlead : mw_separator lead)
    (hitems : ∀ it ∈ items, mw_command it.1 ∧ mw_separator it.2) :
    mw_parse_array (mw_line lead items) = MwParse.cmds (items.map Prod.fst) := by
  unfold mw_parse_array mw_line
  rw [mw_array_text_line]
  simp only []
  have hreg : ('[' :: (lead ++ (mw_list_text items ++ [']']))).takeWhile (fun c => c != ']')
      = '[' :: lead ++ mw_list_text items := by
    have := takeWhile_append_stop (fun c => c != ']') ('[' :: lead ++ mw_list_text items) ']' []
      (fun b hb => by
        simp only [List.cons_append, List.mem_cons, List.mem_append] at hb
        rcases hb with rfl | h | h
        · decide
        · simpa using (mw_separator_no_bracket lead hlead b h).1
        · simpa using mw_list_text_no_bracket items hitems b h)
      (by decide)
    simpa using this
  rw [if_pos (by simp), hreg]
  have := mw_scan_list_items items ('[' :: lead ++ mw_list_text items).length ('[' :: lead) []
    (by
      have := mw_list_text_length items
      simp only [List.cons_append, List.length_cons, List.length_append]
      omega)
    (by simpa using hlen)
    (fun c hc => by
      simp only [List.mem_cons] at hc
      rcases hc with rfl | h
      · decide
      · exact (mw_separator_no_bracket lead hlead c h).2)
    hitems
  rw [this, List.nil_append]

theorem mw_scan_cmd_cut (c : CStr) :
    ∀ (tmp : CStr) (d : Char) (rest : CStr), (∀ x ∈ c, x ≠ '"' ∧ x ≠ '\\') → c ≠ [] →
      (tmp ++ c).length = TMP_SIZE - 1 →
      mw_scan_cmd tmp (c ++ d :: rest) = (tmp ++ c, d :: rest) := by
  induction c with
  | nil => intro tmp d rest _ hne _; exact absurd rfl hne
  | cons x c ih =>
    intro tmp d rest hc _ hlen
    obtain ⟨hx1, hx2⟩ := hc x (List.mem_cons_self _ _)
    cases c with
    | nil =>
      have hl : (tmp ++ [x]).length ≥ TMP_SIZE - 1 := by rw [hlen]
      show mw_scan_cmd tmp (x :: d :: rest) = _
      unfold mw_scan_cmd
      rw [if_neg hx2, if_neg hx1, if_pos hl]
    | cons a c2 =>
      have hl : ¬ (tmp ++ [x]).length ≥ TMP_SIZE - 1 := by
        simp only [List.length_append, List.length_cons, List.length_nil] at hlen ⊢
        omega
      show mw_scan_cmd tmp (x :: a :: (c2 ++ d :: rest)) = _
      unfold mw_scan_cmd
      rw [if_neg hx2, if_neg hx1, if_neg hl]
      have := ih (tmp ++ [x]) d rest (fun y hy => hc y (List.mem_cons_of_mem _ hy))
        (List.cons_ne_nil _ _) (by simpa using hlen)
      rw [List.cons_append] at this
      rw [this]
      simp

theorem mw_scan_list_nil (fuel : Nat) (cmds : List CStr) : mw_scan_list fuel [] cmds = cmds := by
  cases fuel with
  | zero => rfl
  | succ f => simp [mw_scan_list]

theorem mw_parse_array_long (s : CStr) (hs : ∀ x ∈ s, x ≠ '"' ∧ x ≠ '\\' ∧ x ≠ ']')
    (hlen : s.length = TMP_SIZE - 1) :
    mw_parse_array (mw_line [] [(s, [])]) = MwParse.cmds [s, []] := by
  have hne : s ≠ [] := by
    intro h; rw [h] at hlen; simp [TMP_SIZE] at hlen
  have hline : mw_line [] [(s, [])]
      = "multiwatch [".toList ++ (('"' :: (s ++ ['"'])) ++ [']']) := by
    simp [mw_line, mw_list_text]
  have hreg : ('[' :: (('"' :: (s ++ ['"'])) ++ [']'])).takeWhile (fun c => c != ']')
      = '[' :: '"' :: (s ++ ['"']) :=
    takeWhile_append_stop (fun c => c != ']') ('[' :: '"' :: (s ++ ['"'])) ']' []
      (fun b hb => by
        simp only [List.mem_cons, List.mem_append, List.mem_singleton, List.not_mem_nil,
          or_false] at hb
        rcases hb with rfl | rfl | h | rfl
        · decide
        · decide
        · simpa using (hs b h).2.2
        · decide)
      (by decide)
  have hfuel : ('[' :: '"' :: (s ++ ['"'])).length = s.length + 1 + 2 := by
    simp only [List.length_cons, List.length_append, List.length_nil]
  have hd1 : ('[' :: '"' :: (s ++ ['"'])).dropWhile (fun c => c != '"') = '"' :: (s ++ ['"']) := by
    simp [List.dropWhile]
  have hd2 : ['"'].dropWhile (fun c => isspace c || c == ',') = ['"'] := by decide
  have hd3 : ['"'].dropWhile (fun c => c != '"') = ['"'] := by decide
  unfold mw_parse_array
  rw [hline, mw_array_text_line]
  simp only []
  rw [if_pos (by simp), hreg, hfuel]
  unfold mw_scan_list
  rw [hd1]
  simp only []
  rw [mw_scan_cmd_cut s [] '"' [] (fun x hx => ⟨(hs x hx).1, (hs x hx).2.1⟩) hne
    (by simpa using hlen)]
  simp only [List.nil_append, hd2]
  unfold mw_scan_list
  rw [hd3]
  simp only [mw_scan_cmd, mw_scan_list_nil]
  rfl

/-- The bound of 8190 bytes is sharp: a command of 8191 letters fills the
buffer of the scanner before its closing quote is read, and that quote then
opens a second, empty command. -/
theorem multiwatch_command_of_8191_bytes_is_split :
    mw_parse_array (mw_line [] [(long_word 8191, [])]) = MwParse.cmds [long_word 8191, []] :=
  mw_parse_array_long (long_word 8191)
    (fun c hc => by rw [List.eq_of_mem_replicate hc]; decide)
    (by rw [long_word, List.length_replicate]; rfl)

/-- C15 (amended): for every token list whose last token is a bare `<`, `>` or
`>>` that is not itself taken as the filename of a bare operator right before
it, `parse_tokens_into_cmds` returns -1, and `cmd_exec_run_in_tab`, for every
line outside the multiwatch array form whose expanded tokens are that list,
returns -1 after adding the line to the history, without any call: no file is
opened and no process created, and the job table and the multiwatch
registry keep their state. -/
theorem trailing_redirect_is_parse_error (max_cmds : Nat) (before : List CStr) (op : CStr)
    (hop : is_bare_redirect op = true) (hpend : pending_filename before = false) :
    parse_tokens_into_cmds (before ++ [op]) max_cmds = none ∧
      ∀ (os : Os) (env : MwEnv) (fs : CStr → Option (List CStr)) (w : TermWorld)
        (tab_idx : Int) (cmdline : CStr),
        mw_parse_array cmdline = MwParse.not_array →
        expand_tokens_with_glob fs (tokenize_quoted (preprocess_pipes cmdline) 512)
          = some (before ++ [op]) →
        cmd_exec_run_in_tab os env fs w tab_idx cmdline
          = some ⟨-1, { w with hist := history_add w.hist cmdline }, []⟩ := by
  refine ⟨parse_trailing_redirect max_cmds before op hop hpend, ?_⟩
  intro os env fs w tab_idx cmdline hnot htoks
  have hparse : cmd_exec_parse fs cmdline = some none := by
    unfold cmd_exec_parse
    simp only [htoks]
    split
    · rfl
    · split
      · rfl
      · exact congrArg some (parse_trailing_redirect 64 before op hop hpend)
  unfold cmd_exec_run_in_tab
  simp only [hnot, hparse]

theorem trailing_redirect_is_parse_error_witness :
    parse_tokens_into_cmds (["cat".toList] ++ ["<".toList]) 64 = none ∧
      cmd_exec_run_in_tab os_ok mw_env_ok (fun _ => none) world_init 0 "cat <".toList
        = some
          ⟨-1, { world_init with hist := history_add world_init.hist "cat <".toList }, []⟩ :=
  ⟨(trailing_redirect_is_parse_error 64 ["cat".toList] "<".toList (by decide) (by decide)).1,
    (trailing_redirect_is_parse_error 64 ["cat".toList] "<".toList (by decide) (by decide)).2
      os_ok mw_env_ok (fun _ => none) world_init 0 "cat <".toList (by decide) (by decide)⟩

/-- C15 (counterexample): in the token list `cat`, `<`, `>` the last token is a
bare `>`, yet it is taken as the filename of `<` and the parse succeeds with
one stage whose input file is `>`. -/
theorem trailing_redirect_taken_as_filename :
    is_bare_redirect ">".toList = true ∧
      parse_tokens_into_cmds ["cat".toList, "<".toList, ">".toList] 64
        = some [⟨["cat".toList], some ">".toList, none, false⟩] := by
  decide

/-- C19 (amended): for every non-empty list of at most 128 commands that
contain no double quote, no backslash and no `]` and have at most 8190 bytes,
the line made of `multiwatch [`, the commands each wrapped in double quotes
and separated by commas and white space, and `]` is scanned into exactly
those strings, in order and byte for byte, and `cmd_exec_run_in_tab` hands
them to `multiwatch_start` and returns 0 when it returns 0, -1 otherwise. -/
theorem multiwatch_array_is_scanned (os : Os) (env : MwEnv) (fs : CStr → Option (List CStr))
    (w : TermWorld) (tab_idx : Int) (lead : CStr) (items : List (CStr × CStr))
    (hne : items ≠ []) (hlen : items.length ≤ 128) (hlead : mw_separator lead)
    (hitems : ∀ it ∈ items, mw_command it.1 ∧ mw_separator it.2) :
    mw_parse_array (mw_line lead items) = MwParse.cmds (items.map Prod.fst) ∧
      cmd_exec_run_in_tab os env fs w tab_idx (mw_line lead items)
        = some
          ⟨if (multiwatch_start env w.mw tab_idx (items.map Prod.fst)).1 = 0 then 0 else -1,
            { hist := history_add w.hist (mw_line lead items), st := w.st,
              mw := (multiwatch_start env w.mw tab_idx (items.map Prod.fst)).2 }, []⟩ := by
  have hp := mw_parse_array_line lead items hlen hlead hitems
  refine ⟨hp, ?_⟩
  have hl : ¬ (items.map Prod.fst).length = 0 := by
    rw [List.length_map]
    intro h
    exact hne (List.eq_nil_of_length_eq_zero h)
  unfold cmd_exec_run_in_tab
  simp only [hp, if_neg hl]

theorem multiwatch_array_is_scanned_witness :
    mw_parse_array (mw_line [] [("echo a  b".toList, ", ".toList), ("ls -l".toList, [])])
      = MwParse.cmds ["echo a  b".toList, "ls -l".toList] :=
  (multiwatch_array_is_scanned os_ok mw_env_ok (fun _ => none) world_init 0 []
    [("echo a  b".toList, ", ".toList), ("ls -l".toList, [])]
    (by decide) (by decide) (by decide) (by decide)).1

/-- C19 (counterexample): the command `echo ]` has no double quote and no
backslash, yet the line `multiwatch ["echo ]"]` hands `multiwatch_start` the
string `echo ` instead: the list ends at the first `]`. -/
theorem bracket_inside_command_ends_list :
    (∀ x ∈ "echo ]".toList, x ≠ '"' ∧ x ≠ '\\') ∧
      mw_line [] [("echo ]".toList, [])] = "multiwatch [\"echo ]\"]".toList ∧
      mw_parse_array (mw_line [] [("echo ]".toList, [])]) = MwParse.cmds ["echo ".toList] ∧
      ((cmd_exec_run_in_tab os_ok mw_env_ok (fun _ => none) world_init 0
        (mw_line [] [("echo ]".toList, [])])).map fun r =>
          r.world.mw.mw_list.map fun s => s.cmds)
        = some [["echo ".toList]] := by
  decide

/-! ## Theorems: the reader thread and the job table -/

/-- C20: after `sleep 10` and then `sleep 20` are executed in tab 0, the reader
thread of the first pipeline finishes and clears the job of tab 0 although the
second pipeline, started in tab 0, has not been reaped: its reader thread is
still running, the job id of tab 0 is 0, and an interrupt finds no job. -/
theorem reader_clears_job_of_later_pipeline :
    session_one_job.map (fun s => s.readers) = some [⟨0, 3, [100]⟩] ∧
      session_one_job.map (fun s => get_tab_pgid s.world.st 0) = some 100 ∧
      session_two_jobs.map (fun s => s.readers) = some [⟨0, 3, [100]⟩, ⟨0, 5, [200]⟩] ∧
      session_two_jobs.map (fun s => get_tab_pgid s.world.st 0) = some 200 ∧
      session_two_jobs.map (fun s => (session_reader_done renv_ok s ⟨0, 3, [100]⟩).readers)
        = some [⟨0, 5, [200]⟩] ∧
      session_two_jobs.map
          (fun s => get_tab_pgid (session_reader_done renv_ok s ⟨0, 3, [100]⟩).world.st 0)
        = some 0 ∧
      session_two_jobs.map (fun s => (cmd_exec_interrupt_tab os_second
          (session_reader_done renv_ok s ⟨0, 3, [100]⟩).world.st 0).1)
        = some (-1) := by
  decide

/-! ## Theorems: failed redirection -/

/-- The order of the test: on the line `cat < a > b | wc < c`, where none of the
three files can be opened, the message is about `a`, the input file of the
first stage. -/
theorem first_failure_is_reported :
    first_open_failure os_missing
        [⟨["cat".toList], some "a".toList, some "b".toList, false⟩,
          ⟨["wc".toList], some "c".toList, none, false⟩] = some ("a".toList, true) ∧
      (cmd_exec_run_in_tab os_missing mw_env_ok (fun _ => none) world_init 0
        "cat < a > b | wc < c".toList).map (fun r => outputs_of r.trace)
        = some [append_msg 0 (open_error_text os_missing "a".toList true)] := by
  decide

/-- C28: on the line `cat < missing | wc`, where the input file cannot be
opened, `cmd_exec_run_in_tab` returns -1 and has obtained no descriptor from
`open`, yet it closes descriptor 0 twice: the entries of stage 1 in `in_fds`
and `out_fds` are still the zeros of `calloc` when the cleanup loop runs. -/
theorem failed_open_cleanup_closes_stdin :
    (cmd_exec_run_in_tab os_missing mw_env_ok (fun _ => none) world_init 0
        "cat < missing | wc".toList).map (fun r => r.ret) = some (-1) ∧
      (cmd_exec_run_in_tab os_missing mw_env_ok (fun _ => none) world_init 0
        "cat < missing | wc".toList).map (fun r => opened_of r.trace) = some [] ∧
      (cmd_exec_run_in_tab os_missing mw_env_ok (fun _ => none) world_init 0
        "cat < missing | wc".toList).map (fun r => closes_of r.trace) = some [0, 0] := by
  decide

/-! ## Theorems: operator characters inside quotes -/

/-- C27 (amended): for every plain command word `c` and every string `s` of at
most 8189 bytes that is free of the quote character, backslashes and glob
characters, is not `|` and does not begin with `<` or `>`, the line made of
`c` followed by `s` wrapped in single or double quotes parses to exactly one
stage with argv `[c, s]`, no input file and no output file, also when `s`
contains `|`, `<` or `>` further in. -/
theorem quoted_operator_chars_are_text (fs : CStr → Option (List CStr)) (single : Bool)
    (c s : CStr) (hc : plain_word c) (hclen : c.length ≤ TMP_SIZE - 2)
    (hs : ∀ x ∈ s, x ≠ quote_char single ∧ x ≠ '\\') (hslen : s.length ≤ TMP_SIZE - 3)
    (hglob : contains_glob_chars s = false) (harg : arg_token s) :
    cmd_exec_parse fs (c ++ ' ' :: quote_char single :: (s ++ [quote_char single]))
      = some (some [⟨[c, s], none, none, false⟩]) := by
  have htok := tokenize_word_then_quoted single c s hc hclen hs hslen
  have hexp : expand_tokens_with_glob fs [c, s] = some [c, s] :=
    expand_tokens_no_glob fs [c, s] (by
      intro t ht
      simp only [List.mem_cons, List.mem_singleton, List.not_mem_nil, or_false] at ht
      rcases ht with rfl | rfl
      · exact Or.inr (plain_word_no_glob _ hc)
      · exact Or.inr hglob)
  rw [cmd_exec_parse_of_tokens fs _ _ _ htok (List.cons_ne_nil _ _) hexp (List.cons_ne_nil _ _)]
  exact congrArg some (parse_args_only [c, s] (by
    intro t ht
    simp only [List.mem_cons, List.mem_singleton, List.not_mem_nil, or_false] at ht
    rcases ht with rfl | rfl
    · exact arg_token_of_plain_word _ hc
    · exact harg))

theorem quoted_operator_chars_are_text_witness :
    cmd_exec_parse (fun _ => none) "echo \"a | b > c\"".toList
      = some (some [⟨["echo".toList, "a | b > c".toList], none, none, false⟩]) :=
  quoted_operator_chars_are_text (fun _ => none) false "echo".toList "a | b > c".toList
    (by decide) (by decide) (by decide) (by decide) (by decide) (by decide)

/-- C27 (counterexample): the strings `<x`, `>` and `|` are free of quote
characters, backslashes and glob characters, yet the line `echo "<x"` parses
to the argv `echo` with the input file `x`, the line `echo ">"` is a parse
error, and the line `echo "|"` does not parse to one stage with the argv
`echo`, `|`: the quoted text is taken as the operator. -/
theorem quoted_lone_operator_is_operator :
    cmd_exec_parse (fun _ => none) "echo \"<x\"".toList
        = some (some [⟨["echo".toList], some "x".toList, none, false⟩]) ∧
      cmd_exec_parse (fun _ => none) "echo \">\"".toList = some none ∧
      cmd_exec_parse (fun _ => none) "echo \"|\"".toList
        ≠ some (some [⟨["echo".toList, "|".toList], none, none, false⟩]) := by
  decide

/-! ## Theorems: the token buffer -/

theorem scan_token_writes_escapes (n : Nat) :
    ∀ ti, scan_token_writes false false ti (escaped_letters n)
      = List.range' ti n ++ [ti + n] := by
  induction n with
  | zero => intro ti; rfl
  | succ n ih =>
    intro ti
    simp only [escaped_letters, scan_token_writes, is_tok_space]
    rw [ih (ti + 1)]
    simp [List.range'_succ]
    omega

theorem scan_token_rest_length (n : Nat) :
    ∀ (p : CStr), p.length ≤ n → ∀ (s d : Bool) (tmp : CStr),
      (scan_token s d tmp p).2.length ≤ p.length := by
  induction n with
  | zero =>
    intro p hp s d tmp
    have : p = [] := List.eq_nil_of_length_eq_zero (by omega)
    subst this
    simp [scan_token]
  | succ n ih =>
    intro p hp s d tmp
    cases p with
    | nil => simp [scan_token]
    | cons c p =>
      have hlen : p.length ≤ n := by simpa using hp
      unfold scan_token
      simp only [List.length_cons]
      split
      · exact le_trans (ih p hlen _ _ _) (Nat.le_succ _)
      · split
        · exact le_trans (ih p hlen _ _ _) (Nat.le_succ _)
        · split
          · simp
          · split
            · cases p with
              | nil => simp
              | cons e q =>
                have hq : q.length ≤ n := by
                  simp only [List.length_cons] at hlen; omega
                have := ih q hq s d (tmp ++ [unescape e])
                simp only [List.length_cons]
                omega
            · split
              · simp
              · exact le_trans (ih p hlen _ _ _) (Nat.le_succ _)

theorem scan_token_writes_le (n : Nat) :
    ∀ (p : CStr), p.length ≤ n → ∀ (s d : Bool) (ti : Nat),
      ∀ i ∈ scan_token_writes s d ti p, i ≤ ti + p.length := by
  induction n with
  | zero =>
    intro p hp s d ti i hi
    have : p = [] := List.eq_nil_of_length_eq_zero (by omega)
    subst this
    simp only [scan_token_writes, List.mem_singleton] at hi
    omega
  | succ n ih =>
    intro p hp s d ti i hi
    cases p with
    | nil =>
      simp only [scan_token_writes, List.mem_singleton] at hi
      omega
    | cons c p =>
      have hlen : p.length ≤ n := by simpa using hp
      unfold scan_token_writes at hi
      simp only [List.length_cons]
      split at hi
      · have := ih p hlen _ _ _ i hi; omega
      · split at hi
        · have := ih p hlen _ _ _ i hi; omega
        · split at hi
          · simp only [List.mem_singleton] at hi; omega
          · split at hi
            · cases p with
              | nil => simp only [List.mem_singleton] at hi; omega
              | cons e q =>
                have hq : q.length ≤ n := by
                  simp only [List.length_cons] at hlen; omega
                simp only [List.mem_cons] at hi
                simp only [List.length_cons]
                rcases hi with rfl | hi
                · omega
                · have := ih q hq _ _ _ i hi; omega
            · split at hi
              · simp only [List.mem_cons, List.mem_singleton, List.not_mem_nil, or_false] at hi
                omega
              · simp only [List.mem_cons] at hi
                rcases hi with rfl | hi
                · omega
                · have := ih p hlen _ _ _ i hi; omega

theorem skip_spaces_length (p : CStr) : (skip_spaces p).length ≤ p.length := by
  induction p with
  | nil => simp [skip_spaces]
  | cons c p ih =>
    unfold skip_spaces
    split
    · exact le_trans ih (by simp)
    · exact le_refl _

theorem tokenize_loop_writes_le (slots : Nat) :
    ∀ (p : CStr), ∀ i ∈ tokenize_loop_writes slots p, i ≤ p.length := by
  induction slots with
  | zero => intro p i hi; simp [tokenize_loop_writes] at hi
  | succ slots ih =>
    intro p i hi
    unfold tokenize_loop_writes at hi
    have hsk := skip_spaces_length p
    cases hs : skip_spaces p with
    | nil => simp [hs] at hi
    | cons c q =>
      rw [hs] at hsk
      simp only [hs, List.mem_append] at hi
      rcases hi with hi | hi
      · have := scan_token_writes_le _ (c :: q) (le_refl _) false false 0 i hi
        omega
      · have h1 := ih _ i hi
        have h2 := scan_token_rest_length _ (c :: q) (le_refl _) false false []
        omega

/-- An input of `tokenize_quoted` of at most 8191 bytes stays inside the token
buffer: every store is at an index below 8192. The input is the line after
`preprocess_pipes`, which can be three times as long as the line itself. -/
theorem short_line_stays_in_token_buffer (input : CStr) (max_args : Nat)
    (hlen : input.length ≤ TMP_SIZE - 1) : ∀ i ∈ tokenize_writes input max_args, i < TMP_SIZE := by
  intro i hi
  have := tokenize_loop_writes_le _ input i hi
  simp only [TMP_SIZE] at hlen ⊢
  omega

/-- C29: on the line of 8192 escapes backslash-`a`, `tokenize_quoted` stores the
bytes of its single token at the indices 0 to 8191 of the buffer of 8192 bytes
and then the terminating NUL at index 8192, past the end of the buffer: the
escape branch stores without the bound check of the plain branch. -/
theorem escapes_overrun_token_buffer :
    tokenize_writes (escaped_letters 8192) 512 = List.range' 0 8192 ++ [8192] ∧
      (8192 : Nat) ∈ tokenize_writes (escaped_letters 8192) 512 ∧ ¬ (8192 : Nat) < TMP_SIZE := by
  have hw : tokenize_writes (escaped_letters 8192) 512 = List.range' 0 8192 ++ [8192] := by
    have hfirst : escaped_letters 8192 = '\\' :: 'a' :: escaped_letters 8191 := rfl
    have hrest : ∀ n tmp, (scan_token false false tmp (escaped_letters n)).2 = [] := by
      intro n
      induction n with
      | zero => intro tmp; rfl
      | succ n ih =>
        intro tmp
        simp only [escaped_letters, scan_token, is_tok_space]
        simpa using ih _
    have hskip : skip_spaces (escaped_letters 8192) = '\\' :: 'a' :: escaped_letters 8191 := by
      rw [hfirst]
      simp [skip_spaces, is_tok_space]
    have h511 : (512 : Nat) - 1 = 510 + 1 := rfl
    unfold tokenize_writes
    rw [h511]
    unfold tokenize_loop_writes
    rw [hskip]
    simp only []
    rw [← hfirst, hrest, scan_token_writes_escapes]
    have htail : tokenize_loop_writes 510 [] = [] := rfl
    rw [htail, List.append_nil]
  refine ⟨hw, ?_, by decide⟩
  rw [hw]
  simp

/-! ## Theorems: the history ring -/

theorem hist_push_str_room (h : History) (s : CStr)
    (hnb : (trimmed_line s).all isspace = false) (hc : h.hist_count < HIST_MAX) :
    hist_push_str h s
      = { h with
          hist_buf := Function.update h.hist_buf ((h.hist_start + h.hist_count) % HIST_MAX)
            (some (trimmed_line s)),
          hist_count := h.hist_count + 1 } := by
  unfold hist_push_str
  simp only []
  rw [if_neg (by rw [show (s.reverse.dropWhile fun c => c == '\n' || c == '\r').reverse
    = trimmed_line s from rfl, hnb]; simp), if_pos hc]
  rfl

theorem hist_push_str_full (h : History) (s : CStr)
    (hnb : (trimmed_line s).all isspace = false) (hc : ¬ h.hist_count < HIST_MAX) :
    hist_push_str h s
      = { h with
          hist_buf := Function.update h.hist_buf h.hist_start (some (trimmed_line s)),
          hist_start := (h.hist_start + 1) % HIST_MAX } := by
  unfold hist_push_str
  simp only []
  rw [if_neg (by rw [show (s.reverse.dropWhile fun c => c == '\n' || c == '\r').reverse
    = trimmed_line s from rfl, hnb]; simp), if_neg hc]
  rfl

/-- C23: for every ring with `hist_start < HIST_MAX` and `hist_count <= HIST_MAX`
(which the empty ring has and every push keeps) and every line that is not
blank, reading the ring oldest first, `hist_push_str` yields the old list
followed by the line without its trailing newline and carriage-return
characters when the ring holds fewer than `HIST_MAX` entries, and the old
list without its oldest entry followed by that line when it holds `HIST_MAX`
entries; `hist_count` stays at most `HIST_MAX` and `hist_start` below it. -/
theorem history_ring_is_bounded_queue (h : History) (s : CStr)
    (hstart : h.hist_start < HIST_MAX) (hcount : h.hist_count ≤ HIST_MAX)
    (hnb : (trimmed_line s).all isspace = false) :
    (h.hist_count < HIST_MAX →
      hist_list (hist_push_str h s) = hist_list h ++ [some (trimmed_line s)]) ∧
    (h.hist_count = HIST_MAX →
      hist_list (hist_push_str h s) = (hist_list h).tail ++ [some (trimmed_line s)]) ∧
    (hist_push_str h s).hist_count ≤ HIST_MAX ∧
    (hist_push_str h s).hist_start < HIST_MAX ∧
    hist_list hist_empty = [] := by
  refine ⟨fun hc => ?_, fun hc => ?_, ?_, ?_, rfl⟩
  · rw [hist_push_str_room h s hnb hc]
    unfold hist_list
    simp only []
    rw [List.range_succ, List.map_append]
    congr 1
    · apply List.map_congr_left
      intro i hi
      rw [List.mem_range] at hi
      unfold hist_index
      simp only []
      rw [if_neg (by omega), if_neg (by omega), Function.update_noteq]
      simp only [HIST_MAX] at hc ⊢
      omega
    · simp only [List.map_cons, List.map_nil, hist_index]
      rw [if_neg (by omega), Function.update_same]
  · have hc2 : ¬ h.hist_count < HIST_MAX := by omega
    rw [hist_push_str_full h s hnb hc2]
    unfold hist_list
    simp only []
    have hM : List.range h.hist_count = List.range (HIST_MAX - 1) ++ [HIST_MAX - 1] := by
      rw [hc, ← List.range_succ]
      rfl
    have hlast : ((h.hist_start + 1) % HIST_MAX + (HIST_MAX - 1)) % HIST_MAX = h.hist_start := by
      simp only [HIST_MAX] at hstart ⊢
      omega
    have h1 : (List.range (HIST_MAX - 1)).map
          (hist_index { h with
            hist_buf := Function.update h.hist_buf h.hist_start (some (trimmed_line s)),
            hist_start := (h.hist_start + 1) % HIST_MAX })
        = (List.range' 1 (HIST_MAX - 1)).map (hist_index h) := by
      apply List.ext_getElem
      · simp only [List.length_map, List.length_range, List.length_range']
      · intro i h1 h2
        simp only [List.length_map, List.length_range] at h1
        simp only [List.getElem_map, List.getElem_range, List.getElem_range']
        have hidx : ((h.hist_start + 1) % HIST_MAX + i) % HIST_MAX
            = (h.hist_start + (1 + 1 * i)) % HIST_MAX := by
          simp only [HIST_MAX] at hstart h1 ⊢
          omega
        have hne : (h.hist_start + (1 + 1 * i)) % HIST_MAX ≠ h.hist_start := by
          simp only [HIST_MAX] at hstart h1 ⊢
          omega
        have hi1 : ¬ i ≥ h.hist_count := by
          simp only [HIST_MAX] at hc h1
          omega
        have hi2 : ¬ 1 + 1 * i ≥ h.hist_count := by
          simp only [HIST_MAX] at hc h1
          omega
        unfold hist_index
        simp only []
        rw [if_neg hi1, if_neg hi2, hidx, Function.update_noteq hne]
    have h2 : ∀ k, k = HIST_MAX - 1 → hist_index { h with
          hist_buf := Function.update h.hist_buf h.hist_start (some (trimmed_line s)),
          hist_start := (h.hist_start + 1) % HIST_MAX } k
        = some (trimmed_line s) := by
      intro k hk
      have hi : ¬ k ≥ h.hist_count := by
        simp only [HIST_MAX] at hc hk
        omega
      have hl : ((h.hist_start + 1) % HIST_MAX + k) % HIST_MAX = h.hist_start := by
        rw [hk]
        exact hlast
      unfold hist_index
      simp only []
      rw [if_neg hi, hl, Function.update_same]
    have htail : (List.range h.hist_count).tail = List.range' 1 (HIST_MAX - 1) := by
      rw [hc, List.tail_range]
    rw [← List.map_tail, htail]
    conv_lhs => rw [hM, List.map_append, h1]
    simp only [List.map_cons, List.map_nil, h2 _ rfl]
  · by_cases hc : h.hist_count < HIST_MAX
    · rw [hist_push_str_room h s hnb hc]
      exact hc
    · rw [hist_push_str_full h s hnb hc]
      exact hcount
  · by_cases hc : h.hist_count < HIST_MAX
    · rw [hist_push_str_room h s hnb hc]
      exact hstart
    · rw [hist_push_str_full h s hnb hc]
      exact Nat.mod_lt _ (by simp [HIST_MAX])

theorem history_ring_is_bounded_queue_witness :
    hist_list (hist_push_str hist_foo "ls -l\r\n".toList)
      = hist_list hist_foo ++ [some "ls -l".toList] :=
  (history_ring_is_bounded_queue hist_foo "ls -l\r\n".toList (by decide) (by decide)
    (by decide)).1 (by decide)

/-! ## Theorems: the multiwatch registry -/

theorem mw_fork_children_keeps (env : MwEnv) (todo : Nat) :
    ∀ (i : Nat) (s : mw_state),
      (mw_fork_children env todo i s).2.1.tab_idx = s.tab_idx ∧
        (mw_fork_children env todo i s).2.1.running = s.running := by
  induction todo with
  | zero => intro i s; exact ⟨rfl, rfl⟩
  | succ todo ih =>
    intro i s
    unfold mw_fork_children
    split
    · exact ⟨rfl, rfl⟩
    · simp only []
      exact ih (i + 1) _

/-- C24 (amended): `multiwatch_start` never looks for an existing session.
For every registry, tab and command list, a call that returns 0 has put one
new session of that tab in front of the registry and kept every earlier
session, also those of the same tab, so the tab then has one session more
than before; a call that does not return 0 leaves the list of sessions as it
was. -/
theorem multiwatch_start_adds_session (env : MwEnv) (w : MwWorld) (tab_idx : Int)
    (cmds_in : List CStr) :
    ((multiwatch_start env w tab_idx cmds_in).1 = 0 →
      (∃ s, s.tab_idx = tab_idx ∧
        (multiwatch_start env w tab_idx cmds_in).2.mw_list = s :: w.mw_list) ∧
      (mw_sessions_of (multiwatch_start env w tab_idx cmds_in).2.mw_list tab_idx).length
        = (mw_sessions_of w.mw_list tab_idx).length + 1) ∧
    ((multiwatch_start env w tab_idx cmds_in).1 ≠ 0 →
      (multiwatch_start env w tab_idx cmds_in).2.mw_list = w.mw_list) := by
  unfold multiwatch_start
  by_cases h0 : cmds_in.length ≤ 0
  · rw [if_pos h0]
    exact ⟨fun h => absurd (show (-1 : Int) = 0 from h) (by decide), fun _ => rfl⟩
  · rw [if_neg h0]
    simp only []
    obtain ⟨htab, hrun⟩ := mw_fork_children_keeps env cmds_in.length 0
      { tab_idx := tab_idx, n := cmds_in.length, pids := List.replicate cmds_in.length 0,
        cmds := cmds_in, temp_paths := List.replicate cmds_in.length none,
        offsets := List.replicate cmds_in.length 0, running := true, monitor_started := false }
    simp only [] at htab hrun
    generalize mw_fork_children env cmds_in.length 0
      { tab_idx := tab_idx, n := cmds_in.length, pids := List.replicate cmds_in.length 0,
        cmds := cmds_in, temp_paths := List.replicate cmds_in.length none,
        offsets := List.replicate cmds_in.length 0, running := true, monitor_started := false }
      = forked at htab hrun ⊢
    by_cases hf : forked.2.2 = false
    · rw [if_pos hf]
      refine ⟨fun h => ?_, fun _ => ?_⟩
      · exfalso
        revert h
        unfold multiwatch_interrupt
        simp only [mw_find_by_tab, htab, if_true, hrun]
        decide
      · unfold multiwatch_interrupt
        simp only [mw_find_by_tab, htab, if_true, hrun, Bool.true_eq_false, if_false,
          List.eraseIdx_cons_zero]
    · rw [if_neg hf]
      by_cases hp : env.pthread_create_rc ≠ 0
      · rw [if_pos hp]
        exact ⟨fun h => absurd (show (-1 : Int) = 0 from h) (by decide), fun _ => rfl⟩
      · rw [if_neg hp]
        refine ⟨fun _ => ⟨⟨{ forked.2.1 with monitor_started := true }, htab, rfl⟩, ?_⟩,
          fun h => absurd rfl h⟩
        simp only [mw_sessions_of]
        rw [List.filter_cons_of_pos (by simpa using htab)]
        rfl

theorem multiwatch_start_adds_session_witness :
    (∃ s, s.tab_idx = 0 ∧
        (multiwatch_start mw_env_ok mw_world_init 0 ["echo a".toList]).2.mw_list
          = s :: mw_world_init.mw_list) ∧
      (mw_sessions_of (multiwatch_start mw_env_ok mw_world_init 0 ["echo a".toList]).2.mw_list
        0).length = (mw_sessions_of mw_world_init.mw_list 0).length + 1 :=
  (multiwatch_start_adds_session mw_env_ok mw_world_init 0 ["echo a".toList]).1 (by decide)

/-- C24 (counterexample): `multiwatch_start` on tab 0, called again while the
first session is active, returns 0 as well, and the registry then holds two
sessions for tab 0. -/
theorem second_multiwatch_start_adds_second_session :
    (multiwatch_start mw_env_ok mw_world_init 0 ["echo a".toList]).1 = 0 ∧
      (multiwatch_start mw_env_ok
        (multiwatch_start mw_env_ok mw_world_init 0 ["echo a".toList]).2 0
        ["echo b".toList]).1 = 0 ∧
      (mw_sessions_of (multiwatch_start mw_env_ok
        (multiwatch_start mw_env_ok mw_world_init 0 ["echo a".toList]).2 0
        ["echo b".toList]).2.mw_list 0).map (fun s => s.cmds)
        = [["echo b".toList], ["echo a".toList]] := by
  decide

/-! ## Theorems: the output buffer -/

theorem grow_cap_ok (f : Nat) :
    ∀ (nc need : Nat), 0 < nc → need ≤ 2 ^ 62 → need ≤ nc * 2 ^ f →
      ∃ r, grow_cap (f + 1) nc need = some r ∧ need ≤ r ∧ nc ≤ r := by
  induction f with
  | zero =>
    intro nc need _ _ h
    unfold grow_cap
    rw [if_neg (by omega)]
    exact ⟨nc, rfl, by omega, le_refl _⟩
  | succ f ih =>
    intro nc need hnc hneed h
    unfold grow_cap
    by_cases hlt : nc < need
    · rw [if_pos hlt]
      have hmod : (nc * 2) % SIZE_RANGE = nc * 2 := by
        apply Nat.mod_eq_of_lt
        have : (2 : Nat) ^ 62 * 2 < SIZE_RANGE := by decide
        omega
      rw [hmod]
      obtain ⟨r, hr1, hr2, hr3⟩ := ih (nc * 2) need (by omega) hneed (by
        rw [Nat.pow_succ] at h
        calc need ≤ nc * (2 ^ f * 2) := h
          _ = nc * 2 * 2 ^ f := by ring)
      exact ⟨r, hr1, hr2, by omega⟩
    · rw [if_neg hlt]
      exact ⟨nc, rfl, by omega, le_refl _⟩

theorem written_block_content (b buf : Nat → Char) (len n : Nat) :
    (List.range (len + n)).map (fun k =>
        if k = len + n then '\x00'
        else if len ≤ k ∧ k < len + n then buf (k - len)
        else b k)
      = (List.range len).map b ++ (List.range n).map buf := by
  rw [List.range_add, List.map_append, List.map_map]
  congr 1
  · apply List.map_congr_left
    intro k hk
    rw [List.mem_range] at hk
    rw [if_neg (by omega), if_neg (by omega)]
  · apply List.map_congr_left
    intro k hk
    rw [List.mem_range] at hk
    simp only [Function.comp]
    rw [if_neg (by omega), if_pos (by omega)]
    congr 1
    omega

theorem ensure_capacity_locked_ok (alloc : Nat → Bool) (t : Tab) (extra : Nat)
    (halloc : ∀ k, alloc k = true) (hsize : t.out_len + extra + 1 ≤ 2 ^ 62)
    (hcap : t.out_cap ≤ 2 ^ 62) (hinv : t.out_buf = none → t.out_len = 0 ∧ t.out_cap = 0) :
    ∃ t1 b, ensure_capacity_locked alloc t extra = some t1 ∧ t1.out_buf = some b ∧
      t1.out_len = t.out_len ∧ t.out_len + extra + 1 ≤ t1.out_cap ∧
      (List.range t.out_len).map b = t.content ∧
      t1.id = t.id ∧ t1.pid = t.pid := by
  have h62 : ((2 : Nat) ^ 62 : Nat) < SIZE_RANGE := by decide
  have hneed : (t.out_len + extra + 1) % SIZE_RANGE = t.out_len + extra + 1 :=
    Nat.mod_eq_of_lt (by omega)
  have hcontent : ∀ b, t.out_buf.getD (fun _ => '\x00') = b →
      (List.range t.out_len).map b = t.content := by
    intro b hb
    unfold Tab.content
    cases hbuf : t.out_buf with
    | none =>
      rw [(hinv hbuf).1]
      rfl
    | some b0 =>
      rw [hbuf] at hb
      simp only [Option.getD_some] at hb
      rw [hb]
  unfold ensure_capacity_locked
  rw [hneed]
  by_cases hge : t.out_len + extra + 1 ≥ t.out_cap
  · rw [if_pos hge]
    have hnc : 0 < (if t.out_cap ≠ 0 then (t.out_cap * 2) % SIZE_RANGE else INITIAL_CAP) := by
      have h63 : ((2 : Nat) ^ 62 : Nat) * 2 < SIZE_RANGE := by decide
      split
      · rename_i hne
        rw [Nat.mod_eq_of_lt (by omega)]
        omega
      · decide
    obtain ⟨nc, hg1, hg2, -⟩ := grow_cap_ok 64 _ (t.out_len + extra + 1) hnc hsize (by
      have h1 : 1 ≤ (if t.out_cap ≠ 0 then (t.out_cap * 2) % SIZE_RANGE else INITIAL_CAP) := hnc
      have h2 : (2 : Nat) ^ 62 ≤ 2 ^ 64 := by decide
      calc t.out_len + extra + 1 ≤ 2 ^ 62 := hsize
        _ ≤ 1 * 2 ^ 64 := by omega
        _ ≤ _ := Nat.mul_le_mul_right _ h1)
    rw [hg1]
    simp only [halloc, if_true]
    exact ⟨_, _, rfl, rfl, rfl, hg2, hcontent _ rfl, rfl, rfl⟩
  · rw [if_neg hge]
    cases hbuf : t.out_buf with
    | none =>
      have := (hinv hbuf).2
      omega
    | some b0 =>
      refine ⟨t, b0, rfl, hbuf, rfl, by omega, ?_, rfl, rfl⟩
      unfold Tab.content
      rw [hbuf]

/-- When the index is a valid tab, `n > 0`, every `realloc` succeeds and the
sizes stay below 2^62, `tabs_append_output` returns and the content of the tab
is the old content followed by exactly the `n` given bytes: `out_len` grows by
`n` and stays below `out_cap`, with a terminating NUL at `out_len`. The tab
must not hold a length or a capacity without a block. -/
theorem tabs_append_output_appends (alloc : Nat → Bool) (r : TabRegistry) (idx : Int)
    (buf : Nat → Char) (n : Int) (t : Tab) (hidx : 0 ≤ idx ∧ idx < r.g_count)
    (ht : r.tabs idx.toNat = some t) (hn : 0 < n) (halloc : ∀ k, alloc k = true)
    (hsize : t.out_len + n.toNat + 1 ≤ 2 ^ 62) (hcap : t.out_cap ≤ 2 ^ 62)
    (hinv : t.out_buf = none → t.out_len = 0 ∧ t.out_cap = 0) :
    ∃ t2, (tabs_append_output alloc r idx buf n).tab idx.toNat = some t2 ∧
      t2.content = t.content ++ (List.range n.toNat).map buf ∧
      t2.out_len = t.out_len + n.toNat ∧ t2.out_len < t2.out_cap ∧
      t2.out_buf.map (fun b => b t2.out_len) = some '\x00' := by
  have h62 : ((2 : Nat) ^ 62 : Nat) < SIZE_RANGE := by decide
  have hextra : (n % (SIZE_RANGE : Int)).toNat = n.toNat := by
    have h0 : (n.toNat : Int) = n := Int.toNat_of_nonneg (by omega)
    have h1 : (n : Int) < (SIZE_RANGE : Int) := by omega
    rw [Int.emod_eq_of_lt (by omega) h1]
  obtain ⟨t1, b, he1, he2, he3, he4, he5, -, -⟩ :=
    ensure_capacity_locked_ok alloc t n.toNat halloc hsize hcap hinv
  unfold tabs_append_output
  rw [if_neg (by omega)]
  simp only [ht, hextra, he1, he2]
  rw [if_pos hn, if_neg (by omega)]
  simp only [AppendResult.tab, Function.update_same]
  refine ⟨_, rfl, ?_, ?_, ?_, ?_⟩
  · unfold Tab.content
    simp only [he3]
    rw [written_block_content, he5]
    rfl
  · simp only [he3]
  · simp only [he3]
    omega
  · simp only [he3, Option.map_some', if_true]

theorem ensure_capacity_locked_content (alloc : Nat → Bool) (t t1 : Tab) (extra : Nat)
    (hinv : t.out_buf = none → t.out_len = 0)
    (h : ensure_capacity_locked alloc t extra = some t1) :
    t1.out_len = t.out_len ∧ t1.content = t.content := by
  have hgrow : ∀ (x : Tab), x.out_len = t.out_len →
      x.out_buf = some (t.out_buf.getD fun _ => '\x00') → x.content = t.content := by
    intro x hx1 hx2
    unfold Tab.content
    rw [hx2, hx1]
    cases hbuf : t.out_buf with
    | none => simp only [hinv hbuf]; rfl
    | some b => rfl
  unfold ensure_capacity_locked at h
  split at h
  · split at h
    · exact absurd h (by simp)
    · split at h
      · simp only [Option.some.injEq] at h
        subst h
        exact ⟨rfl, hgrow _ rfl rfl⟩
      · simp only [Option.some.injEq] at h
        subst h
        exact ⟨rfl, rfl⟩
  · simp only [Option.some.injEq] at h
    subst h
    exact ⟨rfl, rfl⟩

/-- Whenever `tabs_append_output` returns, whatever the index, the length and
the outcome of `realloc`, every tab is still there and its previous content
is a prefix of its new content. A tab must not hold bytes without a block. -/
theorem tabs_append_output_only_grows (alloc : Nat → Bool) (r r2 : TabRegistry) (idx : Int)
    (buf : Nat → Char) (n : Int)
    (hinv : ∀ i t, r.tabs i = some t → t.out_buf = none → t.out_len = 0)
    (h : tabs_append_output alloc r idx buf n = AppendResult.done r2) :
    r2.g_count = r.g_count ∧
      ∀ i t, r.tabs i = some t → ∃ t2, r2.tabs i = some t2 ∧ t.content <+: t2.content := by
  unfold tabs_append_output at h
  split at h
  · simp only [AppendResult.done.injEq] at h
    subst h
    exact ⟨rfl, fun i t ht => ⟨t, ht, List.prefix_refl _⟩⟩
  · split at h
    · simp only [AppendResult.done.injEq] at h
      subst h
      exact ⟨rfl, fun i t ht => ⟨t, ht, List.prefix_refl _⟩⟩
    · rename_i t0 ht0
      split at h
      · exact absurd h (by simp)
      · rename_i t1 ht1
        obtain ⟨hlen, hcont⟩ := ensure_capacity_locked_content alloc t0 t1 _
          (hinv _ t0 ht0) ht1
        split at h
        · rename_i b hb
          split at h
          · split at h
            · exact absurd h (by simp)
            · simp only [AppendResult.done.injEq] at h
              subst h
              refine ⟨rfl, fun i t ht => ?_⟩
              by_cases hi : i = idx.toNat
              · subst hi
                rw [ht0] at ht
                simp only [Option.some.injEq] at ht
                subst ht
                refine ⟨_, Function.update_same _ _ _, ?_⟩
                unfold Tab.content
                simp only []
                rw [written_block_content]
                have : (List.range t1.out_len).map b = t1.content := by
                  unfold Tab.content
                  rw [hb]
                rw [this, hcont]
                exact List.prefix_append _ _
              · exact ⟨t, (Function.update_noteq hi _ _).trans ht, List.prefix_refl _⟩
          · simp only [AppendResult.done.injEq] at h
            subst h
            refine ⟨rfl, fun i t ht => ?_⟩
            by_cases hi : i = idx.toNat
            · subst hi
              rw [ht0] at ht
              simp only [Option.some.injEq] at ht
              subst ht
              exact ⟨t1, Function.update_same _ _ _, by rw [hcont]⟩
            · exact ⟨t, (Function.update_noteq hi _ _).trans ht, List.prefix_refl _⟩
        · simp only [AppendResult.done.injEq] at h
          subst h
          refine ⟨rfl, fun i t ht => ?_⟩
          by_cases hi : i = idx.toNat
          · subst hi
            rw [ht0] at ht
            simp only [Option.some.injEq] at ht
            subst ht
            exact ⟨t1, Function.update_same _ _ _, by rw [hcont]⟩
          · exact ⟨t, (Function.update_noteq hi _ _).trans ht, List.prefix_refl _⟩

/-- C22: on a tab whose block of 16384 bytes holds 16380 bytes, with `realloc`
failing, `tabs_append_output` of 3 bytes still copies the bytes and the NUL
into the block and raises `out_len` to 16383, and `tabs_append_output` of 10
bytes stores past the end of the block: the failed allocation does not leave
the buffer unchanged. -/
theorem append_after_failed_realloc :
    ((tabs_append_output (fun _ => false) reg_one_tab 0 bytes_a_to_j 3).tab 0).map
        (fun t => (t.out_len, t.out_cap, t.out_buf.map fun b =>
          [b 16379, b 16380, b 16381, b 16382, b 16383]))
      = some (16383, 16384, some ['x', 'a', 'b', 'c', '\x00']) ∧
    (tabs_append_output (fun _ => false) reg_one_tab 0 bytes_a_to_j 10).overran = true := by
  decide

/-! ## Theorems: closing a tab -/

theorem shift_tabs_apply (todo : Nat) :
    ∀ (i : Nat) (tabs : Nat → Option Tab) (k : Nat), 1 ≤ i →
      shift_tabs tabs i todo k
        = if i - 1 ≤ k ∧ k < i - 1 + todo then
            (tabs (k + 1)).map fun t => { t with id := ((k : Nat) : Int) }
          else tabs k := by
  induction todo with
  | zero =>
    intro i tabs k _
    rw [if_neg (by omega)]
    rfl
  | succ todo ih =>
    intro i tabs k hi
    unfold shift_tabs
    rw [ih (i + 1) _ k (by omega)]
    by_cases h1 : i ≤ k ∧ k < i + todo
    · rw [if_pos (by simpa using h1), if_pos (by omega),
        Function.update_noteq (by omega)]
    · rw [if_neg (by simpa using h1)]
      by_cases h2 : k = i - 1
      · subst h2
        rw [Function.update_same, if_pos (by omega), Nat.sub_add_cancel hi]
      · rw [Function.update_noteq h2, if_neg (by omega)]

/-- For every registry in which each open tab has its position as id, closing
the tab `idx` leaves the tabs before it in place and moves every later tab
one position down with its id set to the new position, so the ids stay
`0 .. g_count - 1`; the job table `tab_pgid` is no argument and no result of
`tabs_close`, so the tab that moved to position `i` is looked up under the
job of the tab that stood at `i` before. -/
theorem tabs_close_renumbers (wait_nohang : Int → Int) (r : TabRegistry) (idx : Int)
    (hidx : 0 ≤ idx ∧ idx < r.g_count)
    (hwf : ∀ i, i < r.g_count → ∃ t, r.tabs i = some t ∧ t.id = i) :
    (tabs_close wait_nohang r idx).1.g_count = r.g_count - 1 ∧
      (∀ i, i < idx.toNat → (tabs_close wait_nohang r idx).1.tabs i = r.tabs i) ∧
      (∀ i, idx.toNat ≤ i → i + 1 < r.g_count →
        (tabs_close wait_nohang r idx).1.tabs i
          = (r.tabs (i + 1)).map fun t => { t with id := ((i : Nat) : Int) }) ∧
      (∀ i, i < r.g_count - 1 →
        ∃ t, (tabs_close wait_nohang r idx).1.tabs i = some t ∧ t.id = i) := by
  have hlt : idx.toNat < r.g_count := by omega
  obtain ⟨t0, ht0, -⟩ := hwf idx.toNat hlt
  have hclose : (tabs_close wait_nohang r idx).1
      = { tabs := Function.update
            (shift_tabs r.tabs (idx.toNat + 1) (r.g_count - (idx.toNat + 1)))
            (r.g_count - 1) none,
          g_count := r.g_count - 1 } := by
    unfold tabs_close
    rw [if_neg (by omega)]
    simp only [ht0]
  have hbefore : ∀ i, i < idx.toNat → (tabs_close wait_nohang r idx).1.tabs i = r.tabs i := by
    intro i hi
    rw [hclose]
    simp only []
    rw [Function.update_noteq (by omega), shift_tabs_apply _ _ _ _ (by omega),
      if_neg (by omega)]
  have hafter : ∀ i, idx.toNat ≤ i → i + 1 < r.g_count →
      (tabs_close wait_nohang r idx).1.tabs i
        = (r.tabs (i + 1)).map fun t => { t with id := ((i : Nat) : Int) } := by
    intro i hi1 hi2
    rw [hclose]
    simp only []
    rw [Function.update_noteq (by omega), shift_tabs_apply _ _ _ _ (by omega),
      if_pos (by omega)]
  refine ⟨by rw [hclose], hbefore, hafter, ?_⟩
  intro i hi
  by_cases hb : i < idx.toNat
  · rw [hbefore i hb]
    exact hwf i (by omega)
  · rw [hafter i (by omega) (by omega)]
    obtain ⟨t, ht, -⟩ := hwf (i + 1) (by omega)
    exact ⟨_, by rw [ht]; rfl, rfl⟩

/-- C30: with two tabs open and a pipeline of pid 555 recorded as the job of
tab 1, closing tab 0 moves the session of tab 1 (its shell has the pid 11) to
position 0 with id 0, while the job table is untouched: looked up under its
new id 0 the session has no job, and its job 555 stays under id 1, which no
session has any more. -/
theorem close_shifts_tabs_not_jobs :
    (reg_two_tabs.tabs 1).map (fun t => (t.id, t.pid)) = some (1, 11) ∧
      get_tab_pgid st_job_in_tab_one 1 = 555 ∧
      (tabs_close (fun _ => 11) reg_two_tabs 0).1.g_count = 1 ∧
      ((tabs_close (fun _ => 11) reg_two_tabs 0).1.tabs 0).map (fun t => (t.id, t.pid))
        = some (0, 11) ∧
      ((tabs_close (fun _ => 11) reg_two_tabs 0).1.tabs 1).map (fun t => (t.id, t.pid)) = none ∧
      get_tab_pgid st_job_in_tab_one 0 = 0 := by
  decide

/-! ## Theorems: the monitor poll -/

theorem mw_read_all_ok (ok : Nat → Bool) (hok : ∀ k, ok k = true) (fuel : Nat) :
    ∀ (rest acc : CStr) (pos : Nat), rest.length < fuel →
      mw_read_all ok fuel rest acc pos = (acc ++ rest, pos + rest.length) := by
  induction fuel with
  | zero => intro rest acc pos h; omega
  | succ fuel ih =>
    intro rest acc pos h
    unfold mw_read_all
    by_cases h0 : (rest.take 4096).length = 0
    · rw [if_pos h0]
      have : rest = [] := by
        cases rest with
        | nil => rfl
        | cons a r => simp at h0
      subst this
      simp
    · rw [if_neg h0, if_pos (hok _)]
      have hpos : 0 < rest.length := by
        cases rest with
        | nil => simp at h0
        | cons a r => simp
      have hdrop : (rest.drop 4096).length < fuel := by
        rw [List.length_drop]
        omega
      rw [ih _ _ _ hdrop, List.append_assoc, List.take_append_drop, Nat.add_assoc]
      congr 2
      rw [← List.length_append, List.take_append_drop]

theorem monitor_poll_cmd_ok (fs : MwFiles) (tab_idx : Int) (c p : CStr) (off : Int)
    (content : CStr) (hopen : fs.fopen p = some content)
    (halloc : ∀ k, fs.realloc_ok k = true) :
    monitor_poll_cmd fs tab_idx c (some p) off
      = (if fs.ftello_fails then
          (if decide (off > 0) && fs.fseeko_fails content.length off then 0 else off)
         else ((poll_start fs content off
            + (content.drop (poll_start fs content off)).length : Nat) : Int),
         if (content.drop (poll_start fs content off)).length > 0 then
          [append_fmt tab_idx 512 (snapshot_header c fs.time_now),
            ⟨tab_idx, content.drop (poll_start fs content off),
              (content.drop (poll_start fs content off)).length⟩,
            append_msg tab_idx snapshot_sep]
         else []) := by
  have hstart : (if off > 0 ∧ (decide (off > 0) && fs.fseeko_fails content.length off) = false
      then off.toNat else 0) = poll_start fs content off := by
    unfold poll_start
    by_cases h : off > 0
    · simp [h]
    · simp [h]
  unfold monitor_poll_cmd
  simp only [hopen, hstart]
  rw [mw_read_all_ok fs.realloc_ok halloc (content.length + 1) _ [] 0
    (by rw [List.length_drop]; omega)]
  simp only [List.nil_append, Nat.zero_add]

/-- For every file and stored offset at most the length of the file, on a
system where allocation, `fseeko` and `ftello` succeed, one poll relays
exactly the bytes of the file from the offset to its end and sets the stored
offset to the length of the file. -/
theorem poll_relays_new_bytes (fs : MwFiles) (tab_idx : Int) (c p : CStr) (off : Nat)
    (content : CStr) (hopen : fs.fopen p = some content)
    (halloc : ∀ k, fs.realloc_ok k = true) (hseek : ∀ l o, fs.fseeko_fails l o = false)
    (htell : fs.ftello_fails = false) (hoff : off ≤ content.length) :
    (monitor_poll_cmd fs tab_idx c (some p) off).1 = content.length ∧
      ((monitor_poll_cmd fs tab_idx c (some p) off).2.map fun call => call.buf).drop 1
        = if content.drop off = [] then []
          else [content.drop off, snapshot_sep] := by
  have hps : poll_start fs content off = off := by
    unfold poll_start
    by_cases h : off = 0
    · subst h; simp
    · rw [if_pos ⟨by omega, hseek _ _⟩]
      simp
  rw [monitor_poll_cmd_ok fs tab_idx c p off content hopen halloc, hps, htell]
  constructor
  · simp only [Bool.false_eq_true, if_false, List.length_drop]
    congr 1
    omega
  · by_cases hd : content.drop off = []
    · simp [hd]
    · have hlt : off < content.length := by
        have := List.length_pos.2 hd
        rw [List.length_drop] at this
        omega
      simp [hd, hlt, append_msg]

/-- C26: on a system that follows POSIX, where `fseeko` accepts an offset
beyond the end of the file, a poll with the stored offset 5 on a file that
now holds the 2 bytes `ab` relays nothing and leaves the offset at 5 instead
of resetting it to zero and relaying `ab`; when the file has grown to
`abcdefg` the next poll relays only `fg`, so the bytes `abcde` are never
relayed. -/
theorem truncated_file_is_not_reread :
    monitor_poll_cmd (fs_posix "ab".toList) 0 "date".toList (some ".temp.200.txt".toList) 5
        = (5, []) ∧
      (monitor_poll_cmd (fs_posix "abcdefg".toList) 0 "date".toList
        (some ".temp.200.txt".toList) 5).1 = 7 ∧
      ((monitor_poll_cmd (fs_posix "abcdefg".toList) 0 "date".toList
        (some ".temp.200.txt".toList) 5).2.map fun call => call.buf).drop 1
        = ["fg".toList, snapshot_sep] := by
  decide

end MyTerm
